import Mathlib

/-!
# SmartFont: a shallow embedding of `src/SmartFont.cpp`

The development follows the C++ source function by function.

Conventions of the embedding

* `int` is 32 bits wide (the generic branch of the platform switch at the top of
  `SmartFont.cpp`); `int16_t`, `uint16_t`, `uint8_t` and `uint32_t` values are integers
  and every store into such a variable is written out as a reduction (`toInt16`,
  `% 65536`, `% 256`, `% 2 ^ 32`).
* A `const char *` is the list of the bytes stored from the pointer to the end of
  the buffer.  Reading the byte under the pointer is `List.head?`; advancing the
  pointer by `n` is `List.drop n`.  A read outside the buffer has no defined
  result (`none`).
* The two pixel callbacks are recorded as a list of `PixelCall`s, in call order.
  A renderer built with a null callback has the matching flag set to `false`.
* A loop that can fail to terminate carries a fuel argument and yields `none`
  when the fuel is used up.  Loops over an `int16_t` counter get `65536` units:
  the exit test depends on the counter alone, so a loop that is still running
  after `65536` rounds has seen one counter value twice and never stops.
-/

namespace SmartFont

/-! ## Data model (`SmartFont.h`) -/

/-- Bitmap record `smart_font_bitmap_t`: `width`, `height`, and the flexible array `data`. -/
structure smart_font_bitmap_t where
  width : Nat
  height : Nat
  data : List Nat
deriving DecidableEq, Repr

/-- Glyph record `smart_font_symbol_t`.  The `bitmap` pointer is taken to be valid. -/
structure smart_font_symbol_t where
  utf8 : Nat
  offset_x : Int
  offset_y : Int
  cur_dist : Nat
  bitmap : smart_font_bitmap_t
deriving DecidableEq, Repr

/-- Font record `smart_font_info_t`: the header fields and the flexible array `symbols`. -/
structure smart_font_info_t where
  count : Nat
  font_size : Nat
  height : Nat
  symbols : List smart_font_symbol_t
deriving DecidableEq, Repr

/-- One invocation of a pixel callback. -/
inductive PixelCall where
  | draw (x y : Int)
  | clear (x y : Int)
deriving DecidableEq, Repr

/-- Renderer object: the private fields of `class SmartFont`.  `_drawPixel` and
`_clearPixel` say whether the callback pointer is non-null. -/
structure Renderer where
  _drawPixel : Bool
  _clearPixel : Bool
  _font : Option smart_font_info_t
  _currentX : Int
  _currentY : Int
  _resX : Nat
  _resY : Nat
deriving DecidableEq, Repr

/-- Conversion of an `int` value to `int16_t` (two's complement, modulo `2 ^ 16`). -/
def toInt16 (v : Int) : Int := (v + 32768) % 65536 - 32768

/-! ## Constants (`SmartFont.cpp`, lines 23–36) -/

def under_symbol : List Nat := [0xe0b8b8, 0xe0b8b9, 0xe0b8ba]

def overhead_lv1_symbol : List Nat :=
  [0xe0b8b1, 0xe0b8b4, 0xe0b8b5, 0xe0b8b6, 0xe0b8b7, 0xe0b987]

def overhead_lv2_symbol : List Nat :=
  [0xe0b988, 0xe0b989, 0xe0b98a, 0xe0b98b, 0xe0b98c, 0xe0b98d, 0xe0b98e]

def padding_symbol : List Nat := [0xe0b8b3]

/-! ## Glyph lookup -/

/-- Comparison callback `symbol_compare` (lines 39–48). -/
def symbol_compare (search_key : Nat) (symbol : smart_font_symbol_t) : Int :=
  if search_key < symbol.utf8 then -1
  else if search_key > symbol.utf8 then 1
  else 0

/-- Modelled from the spec: the C library routine `bsearch`, which `findSymbol` calls and
which is not part of the repository.  §4.2 describes the lookup as a binary search
over the ordered records; this is the bisection loop over the index window `[l, u)`,
driven by the comparison callback.  The window shrinks in every round, so `nmemb + 1`
units of fuel are never used up. -/
def bsearchLoop {α : Type} (compar : Nat → α → Int) (key : Nat) (base : List α) :
    Nat → Nat → Nat → Option α
  | 0, _, _ => none
  | fuel + 1, l, u =>
    if l < u then
      let idx := (l + u) / 2
      match base[idx]? with
      | none => none
      | some p =>
        let comparison := compar key p
        if comparison < 0 then bsearchLoop compar key base fuel l idx
        else if comparison > 0 then bsearchLoop compar key base fuel (idx + 1) u
        else some p
    else none

/-- Modelled from the spec: `bsearch(key, base, nmemb, size, compar)` of the C library,
see `bsearchLoop`.  The result is the matching element or `none` for `NULL`. -/
def bsearch {α : Type} (compar : Nat → α → Int) (key : Nat) (base : List α) (nmemb : Nat) :
    Option α :=
  bsearchLoop compar key base (nmemb + 1) 0 nmemb

/-- The table search of `findSymbol` (lines 103–110): `bsearch` over the font's records
when a font is set, `NULL` otherwise. -/
def findSymbolSearch (font : Option smart_font_info_t) (data : Nat) :
    Option smart_font_symbol_t :=
  match font with
  | some f => bsearch symbol_compare data f.symbols f.count
  | none => none

/-! ## Codepoint decoder -/

/-- Function `isUtf8` (line 67): `(*str & 0x80) > 0`. -/
def isUtf8 (str : List Nat) : Option Nat :=
  match str.head? with
  | none => none
  | some c => some (if (c % 256) &&& 0x80 > 0 then 1 else 0)

/-- The `do … while` loop of `getUtf8Format` (lines 76–81).  `utf_data` is an
`unsigned char`, `val` a `uint32_t`, `size` a `uint8_t`. -/
def getUtf8FormatLoop : Nat → List Nat → Nat → Nat → Nat → Option (Nat × Nat)
  | 0, _, _, _, _ => none
  | fuel + 1, str, val, utf_data, size =>
    match str with
    | [] => none
    | c :: rest =>
      let val := (val <<< 8) % 2 ^ 32
      let val := val ||| (c % 256)
      let utf_data := (utf_data <<< 1) % 256
      let size := (size + 1) % 256
      if utf_data &&& 0x80 ≠ 0 then getUtf8FormatLoop fuel rest val utf_data size
      else some (val, size)

/-- Function `getUtf8Format` (lines 69–89); the result is `(*data, size)`.  The loop shifts an
eight-bit value left once per round, so it stops within eight rounds. -/
def getUtf8Format (str : List Nat) : Option (Nat × Nat) :=
  match str.head? with
  | none => none
  | some c =>
    let utf_data := c % 256
    if utf_data &&& 0x80 ≠ 0 then getUtf8FormatLoop 8 str 0 utf_data 0
    else some (utf_data, 1)

/-- The decoding half of `findSymbol` (lines 93–101); the result is `(data, size)`. -/
def findSymbolDecode (str : List Nat) : Option (Nat × Nat) :=
  match isUtf8 str with
  | none => none
  | some u =>
    if u ≠ 0 then getUtf8Format str
    else
      match str.head? with
      | none => none
      | some c => some (c % 256, 1)

/-- Function `findSymbol` (lines 91–113); the result is `(size, *output)`. -/
def findSymbol (font : Option smart_font_info_t) (str : List Nat) :
    Option (Nat × Option smart_font_symbol_t) :=
  match findSymbolDecode str with
  | none => none
  | some (data, size) => some (size, findSymbolSearch font data)

/-! ## Configuration -/

/-- Method `setFont` (line 55). -/
def setFont (sf : Renderer) (font : Option smart_font_info_t) : Renderer :=
  { sf with _font := font }

/-- Method `setPos` (lines 57–60); the arguments are `int16_t` values. -/
def setPos (sf : Renderer) (x y : Int) : Renderer :=
  { sf with _currentX := x, _currentY := y }

/-- Method `setResolution` (lines 62–65); the arguments are `uint16_t` values. -/
def setResolution (sf : Renderer) (x y : Nat) : Renderer :=
  { sf with _resX := x, _resY := y }

/-! ## Bitmap blitter -/

/-- The loop `for (v = init; v < bound; v++) body` over an `int16_t` counter `v`, `bound`
being an `int` that the body does not change.  `st` is the state the body updates. -/
def forInt16 {σ : Type} (body : Int → σ → Option σ) (bound : Int) :
    Nat → Int → σ → Option σ
  | 0, v, st => if v < bound then none else some st
  | fuel + 1, v, st =>
    if v < bound then
      match body v st with
      | none => none
      | some st' => forInt16 body bound fuel (toInt16 (v + 1)) st'
    else some st

/-- Local state of `drawBitmap`: `current_bit`, the index of `data_ptr` into `data`,
and the callback invocations made so far. -/
structure BlitState where
  current_bit : Nat
  data_ptr : Nat
  calls : List PixelCall
deriving DecidableEq, Repr

/-- Body of the inner loop of `drawBitmap` (lines 129–139). -/
def drawBitmapPixel (drawCb : Bool) (data : List Nat) (current_y current_x : Int)
    (st : BlitState) : Option BlitState :=
  match data[st.data_ptr]? with
  | none => none
  | some byte =>
    let calls :=
      if (byte % 256) &&& (1 <<< st.current_bit) > 0 then
        if drawCb then st.calls ++ [PixelCall.draw current_x current_y] else st.calls
      else st.calls
    if st.current_bit > 0 then
      some { current_bit := st.current_bit - 1, data_ptr := st.data_ptr, calls := calls }
    else
      some { current_bit := 7, data_ptr := st.data_ptr + 1, calls := calls }

/-- Function `drawBitmap` (lines 115–142), continuing from the call list `calls`; `x` and `y` are
`int16_t` values.  The result is the extended call list. -/
def drawBitmap (drawCb : Bool) (x y : Int) (bitmap : smart_font_bitmap_t)
    (calls : List PixelCall) : Option (List PixelCall) :=
  let h := bitmap.height
  let w := bitmap.width
  match forInt16
      (fun current_y st =>
        forInt16 (drawBitmapPixel drawCb bitmap.data current_y) (x + w) 65536 x st)
      (y + h) 65536 y { current_bit := 7, data_ptr := 0, calls := calls } with
  | none => none
  | some st => some st.calls

/-! ## Stacking classifier -/

def OVERHEAD_LV1_SYMBOL_LEN : Nat := 6

def OVERHEAD_LV2_SYMBOL_LEN : Nat := 7

def PADDING_SYMBOL_LEN : Nat := 1

/-- Function `isOverheadLv1` (lines 145–151). -/
def isOverheadLv1 (symbol : smart_font_symbol_t) : Bool :=
  (List.range OVERHEAD_LV1_SYMBOL_LEN).any
    (fun i => decide (overhead_lv1_symbol[i]? = some symbol.utf8))

/-- Function `isOverheadLv2` (lines 153–159). -/
def isOverheadLv2 (symbol : smart_font_symbol_t) : Bool :=
  (List.range OVERHEAD_LV2_SYMBOL_LEN).any
    (fun i => decide (overhead_lv2_symbol[i]? = some symbol.utf8))

/-- Function `isPadding` (lines 161–167). -/
def isPadding (symbol : smart_font_symbol_t) : Bool :=
  (List.range PADDING_SYMBOL_LEN).any
    (fun i => decide (padding_symbol[i]? = some symbol.utf8))

/-- Function `shouldPadding` (lines 169–182); `none` is the null pointer. -/
def shouldPadding (prev curr next : Option smart_font_symbol_t) : Bool :=
  match prev, curr, next with
  | some p, some c, some n =>
    if isOverheadLv2 c && (isOverheadLv1 p || isPadding n) then true else false
  | some p, some c, none =>
    if isOverheadLv2 c && isOverheadLv1 p then true else false
  | _, _, _ => false

/-! ## Text renderer -/

/-- The erase rectangle of one glyph in the first pass of `print` (lines 206–213). -/
def printClearGlyph (sf : Renderer) (font : smart_font_info_t)
    (current_symbol : smart_font_symbol_t) (calls : List PixelCall) :
    Option (List PixelCall) :=
  if sf._clearPixel then
    forInt16
      (fun y calls =>
        forInt16 (fun x calls => some (calls ++ [PixelCall.clear x y]))
          (sf._currentX + current_symbol.cur_dist) 65536
          (toInt16 (sf._currentX + current_symbol.offset_x)) calls)
      sf._currentY 65536 (toInt16 (sf._currentY - font.height)) calls
  else some calls

/-- First pass of `print` (lines 202–216).  Every round moves `current_str` forward,
so `str.length + 1` units of fuel cover the whole buffer. -/
def printClearLoop (font : smart_font_info_t) :
    Nat → List Nat → Renderer → List PixelCall → Option (Renderer × List PixelCall)
  | 0, _, _, _ => none
  | fuel + 1, current_str, sf, calls =>
    match current_str.head? with
    | none => none
    | some c =>
      if c % 256 = 0 then some (sf, calls)
      else
        match findSymbol sf._font current_str with
        | none => none
        | some (size, current_symbol) =>
          let current_str := current_str.drop size
          match current_symbol with
          | none => printClearLoop font fuel current_str sf calls
          | some sym =>
            match printClearGlyph sf font sym calls with
            | none => none
            | some calls =>
              printClearLoop font fuel current_str
                { sf with _currentX := toInt16 (sf._currentX + sym.cur_dist) } calls

/-- The value given to `offset_y` in the second pass of `print` (lines 242–251). -/
def printOffsetY (prev_symbol : Option smart_font_symbol_t)
    (current_symbol : smart_font_symbol_t) (next_symbol : Option smart_font_symbol_t) : Int :=
  if isOverheadLv2 current_symbol then
    if shouldPadding prev_symbol (some current_symbol) next_symbol then
      current_symbol.offset_y
    else
      toInt16 (current_symbol.offset_y + current_symbol.bitmap.height)
  else
    current_symbol.offset_y

/-- The display-width test of `print` (lines 235–238); its branch is empty. -/
def printOverflowCheck (sf : Renderer) (current_symbol : smart_font_symbol_t)
    (calls : List PixelCall) : List PixelCall :=
  if sf._currentX + current_symbol.bitmap.width ≥ sf._resX then calls else calls

/-- The blit of one glyph in the second pass of `print` (lines 242–254). -/
def printDrawGlyph (sf : Renderer) (prev_symbol : Option smart_font_symbol_t)
    (current_symbol : smart_font_symbol_t) (next_symbol : Option smart_font_symbol_t)
    (calls : List PixelCall) : Option (List PixelCall) :=
  let offset_y := printOffsetY prev_symbol current_symbol next_symbol
  drawBitmap sf._drawPixel (toInt16 (sf._currentX + current_symbol.offset_x))
    (toInt16 (sf._currentY + offset_y)) current_symbol.bitmap calls

/-- The choice at the head of the second pass of `print` (lines 225–230): decode the
character under `current_str`, or take over the glyph looked ahead in the previous
round together with its size.  The result is `(size, current_symbol)`. -/
def printCurrentSymbol (sf : Renderer) (current_str : List Nat) (next_size : Nat)
    (next_symbol : Option smart_font_symbol_t) :
    Option (Nat × Option smart_font_symbol_t) :=
  match next_symbol with
  | none => findSymbol sf._font current_str
  | some n => some (next_size, some n)

/-- Second pass of `print` (lines 224–259). -/
def printDrawLoop :
    Nat → List Nat → Renderer → Nat → Option smart_font_symbol_t →
    Option smart_font_symbol_t → List PixelCall → Option (Renderer × List PixelCall)
  | 0, _, _, _, _, _, _ => none
  | fuel + 1, current_str, sf, next_size, next_symbol, prev_symbol, calls =>
    match current_str.head? with
    | none => none
    | some c =>
      if c % 256 = 0 then some (sf, calls)
      else
        match printCurrentSymbol sf current_str next_size next_symbol with
        | none => none
        | some (size, current_symbol) =>
          let current_str := current_str.drop size
          match current_symbol with
          | none =>
            printDrawLoop fuel current_str sf next_size next_symbol prev_symbol calls
          | some sym =>
            let calls := printOverflowCheck sf sym calls
            match findSymbol sf._font current_str with
            | none => none
            | some (next_size, next_symbol) =>
              match printDrawGlyph sf prev_symbol sym next_symbol calls with
              | none => none
              | some calls =>
                printDrawLoop fuel current_str
                  { sf with _currentX := toInt16 (sf._currentX + sym.cur_dist) }
                  next_size next_symbol (some sym) calls

/-- Function `print` (lines 184–260).  The result is the renderer after the call and the
callback invocations made, in order. -/
def print (sf : Renderer) (str : List Nat) : Option (Renderer × List PixelCall) :=
  match sf._font with
  | none => some (sf, [])
  | some font =>
    match printClearLoop font (str.length + 1) str sf [] with
    | none => none
    | some (sf1, calls) =>
      printDrawLoop (str.length + 1) str
        { sf1 with _currentX := sf._currentX, _currentY := sf._currentY }
        0 none none calls

/-! ## Width measurer -/

/-- The loop of `getWidth` (lines 268–274). -/
def getWidthLoop (font : Option smart_font_info_t) : Nat → List Nat → Int → Option Int
  | 0, _, _ => none
  | fuel + 1, current_str, width =>
    match current_str.head? with
    | none => none
    | some c =>
      if c % 256 = 0 then some width
      else
        match findSymbol font current_str with
        | none => none
        | some (size, current_symbol) =>
          let current_str := current_str.drop size
          match current_symbol with
          | none => getWidthLoop font fuel current_str width
          | some sym => getWidthLoop font fuel current_str (toInt16 (width + sym.cur_dist))

/-- Function `getWidth` (lines 262–276). -/
def getWidth (sf : Renderer) (str : List Nat) : Option Int :=
  getWidthLoop sf._font (str.length + 1) str 0

/-! ## Notions used to state the properties -/

/-- Records in strictly ascending codepoint order. -/
def SortedTable (symbols : List smart_font_symbol_t) : Prop :=
  symbols.Pairwise (fun a b => a.utf8 < b.utf8)

/-- Number of leading 1-bits of the eight-bit value `b`. -/
def leadingOnes (b : Nat) : Nat :=
  ((List.range 8).takeWhile (fun i => b.testBit (7 - i))).length

/-- Big-endian packing `b0 << 8(k-1) | … | b(k-1)` of the bytes `b0 … b(k-1)`. -/
def packBE : List Nat → Nat
  | [] => 0
  | b :: bs => (b <<< (8 * bs.length)) ||| packBE bs

/-- The value the decoder accumulates over the bytes `bs`, starting from `val`:
each round shifts the `uint32_t` left by eight bits and ors the next byte in. -/
def packU32 (val : Nat) (bs : List Nat) : Nat :=
  bs.foldl (fun v c => (v <<< 8) % 2 ^ 32 ||| (c % 256)) val

/-- Encoded length announced by the lead byte `b`: one for a byte below `0x80`,
otherwise the number of its leading 1-bits. -/
def byteLength (b : Nat) : Nat := if b < 0x80 then 1 else leadingOnes b

/-- One complete encoded character: bytes other than NUL, as many of them as the lead
byte announces. -/
def IsChar (c : List Nat) : Prop :=
  (∀ b ∈ c, 0 < b ∧ b < 256) ∧ c.head?.map byteLength = some c.length

instance (c : List Nat) : Decidable (IsChar c) := by
  unfold IsChar; infer_instance

/-- Codepoint of the encoded character `c`, as the decoder packs it. -/
def charCode (c : List Nat) : Nat := packU32 0 c

/-- The glyphs of the characters `chars` that resolve in the table, in order. -/
def resolvedGlyphs (font : Option smart_font_info_t) (chars : List (List Nat)) :
    List smart_font_symbol_t :=
  chars.filterMap (fun c => findSymbolSearch font (charCode c))

/-- Sum of the advance fields of the resolved glyphs of `chars`. -/
def advanceSum (font : Option smart_font_info_t) (chars : List (List Nat)) : Nat :=
  ((resolvedGlyphs font chars).map (fun g => g.cur_dist)).sum

/-- The buffer of a well-formed string: the characters `chars`, the terminating NUL, and
whatever the buffer holds after it. -/
def cstring (chars : List (List Nat)) (rest : List Nat) : List Nat :=
  chars.flatten ++ 0 :: rest

/-- A font whose only glyph, for the letter A, has an advance of 40000. -/
def wideFont : smart_font_info_t :=
  ⟨1, 8, 8, [⟨0x41, 0, 0, 40000, ⟨0, 0, []⟩⟩]⟩

/-- A renderer with both callbacks, `wideFont` set, and the pen at the origin. -/
def wideRenderer : Renderer :=
  ⟨true, true, some wideFont, 0, 0, 10000, 10000⟩

/-- Whether a callback invocation is a `drawPixel` call. -/
def PixelCall.isDraw : PixelCall → Bool
  | PixelCall.draw _ _ => true
  | PixelCall.clear _ _ => false

/-- Effect of one callback invocation on the set of lit pixels: `drawPixel` inserts the
pixel, `clearPixel` removes it. -/
def applyCall (S : Finset (Int × Int)) : PixelCall → Finset (Int × Int)
  | PixelCall.draw x y => insert (x, y) S
  | PixelCall.clear x y => S.erase (x, y)

/-- The surface after the callback invocations `calls`, made in order on the surface `S`. -/
def paint (calls : List PixelCall) (S : Finset (Int × Int)) : Finset (Int × Int) :=
  calls.foldl applyCall S

/-- The call list `calls'` extends `calls` by invocations that all satisfy `p`. -/
def Extends (p : PixelCall → Bool) (calls calls' : List PixelCall) : Prop :=
  ∃ more, calls' = calls ++ more ∧ ∀ e ∈ more, p e = true

/-- A small font in ascending codepoint order: the letter A, the upper vowel
U+0E31, the vowel U+0E33 of the placeholder set, and the tone mark U+0E48. -/
def demoFont : smart_font_info_t :=
  ⟨4, 8, 4,
    [⟨0x41, 0, -2, 5, ⟨3, 2, [0xb4]⟩⟩,
     ⟨0xe0b8b1, -3, -4, 0, ⟨2, 1, [0xc0]⟩⟩,
     ⟨0xe0b8b3, 0, -3, 4, ⟨4, 3, [0x69, 0xf0]⟩⟩,
     ⟨0xe0b988, -2, -6, 0, ⟨1, 2, [0xc0]⟩⟩]⟩

/-- A renderer with both callbacks, `demoFont` set, and the pen at (10, 20). -/
def demoRenderer : Renderer :=
  ⟨true, true, some demoFont, 10, 20, 10000, 10000⟩

/-- The pen X after advancing from `x` over the glyphs `gs`, one `int16_t` addition per
glyph. -/
def penAfter (x : Int) (gs : List smart_font_symbol_t) : Int :=
  gs.foldl (fun w g => toInt16 (w + g.cur_dist)) x

/-- The upper vowel U+0E31 of the first overhead tier, with an empty bitmap. -/
def demoLv1 : smart_font_symbol_t := ⟨0xe0b8b1, 0, 0, 0, ⟨0, 0, []⟩⟩

/-- The tone mark U+0E48 of the second overhead tier, one lit pixel, `offset_y = 1`. -/
def lowMark : smart_font_symbol_t := ⟨0xe0b988, 0, 1, 0, ⟨1, 1, [0x80]⟩⟩

/-- The tone mark U+0E48 of the second overhead tier, one lit pixel, `offset_y = 0`. -/
def flatMark : smart_font_symbol_t := ⟨0xe0b988, 0, 0, 0, ⟨1, 1, [0x80]⟩⟩

/-- The vowel U+0E33 of the placeholder set, with an empty bitmap. -/
def demoPadding : smart_font_symbol_t := ⟨0xe0b8b3, 0, 0, 0, ⟨0, 0, []⟩⟩

/-- A renderer with both callbacks, a font of the two glyphs `demoLv1` and `lowMark`, and
the pen at (0, 32767), the largest `int16_t` row. -/
def edgeRenderer : Renderer :=
  ⟨true, true, some ⟨2, 8, 1, [demoLv1, lowMark]⟩, 0, 32767, 10000, 10000⟩

/-- A renderer with both callbacks, a font of the one glyph `flatMark`, and the pen at
(0, 32767), the largest `int16_t` row. -/
def edgeRendererFlat : Renderer :=
  ⟨true, true, some ⟨1, 8, 1, [flatMark]⟩, 0, 32767, 10000, 10000⟩

/-- The first `n` rounds of a counting loop that starts at `v`: the body runs for
`v`, `v + 1`, …, `v + n - 1`. -/
def iterRange {σ : Type} (body : Int → σ → Option σ) : Nat → Int → σ → Option σ
  | 0, _, st => some st
  | n + 1, v, st =>
    match body v st with
    | none => none
    | some st' => iterRange body n (v + 1) st'

/-- Bit number `n` of the packed data read as one bit stream, most significant bit of
each byte first. -/
def streamBit (data : List Nat) (n : Nat) : Bool :=
  (data.getD (n / 8) 0 % 256).testBit (7 - n % 8)

/-- The state of the blitter in front of bit number `p` of the stream. -/
def blitAt (p : Nat) (calls : List PixelCall) : BlitState :=
  { current_bit := 7 - p % 8, data_ptr := p / 8, calls := calls }

/-- The `drawPixel` calls of `n` consecutive pixels of row `y` from column `x` on, the
first of them being bit number `p` of the stream. -/
def rowCalls (data : List Nat) (x y : Int) (p n : Nat) : List PixelCall :=
  (List.range n).filterMap
    (fun i => if streamBit data (p + i) then some (PixelCall.draw (x + i) y) else none)

/-- The `drawPixel` calls of a `w` by `h` bitmap at origin `(x, y)`: row by row, within a
row column by column, one call for each set bit `r * w + c` of the stream. -/
def blitCalls (data : List Nat) (x y : Int) (w h : Nat) : List PixelCall :=
  (List.range h).flatMap (fun r => rowCalls data x (y + r) (r * w) w)

/-- Column of a callback invocation. -/
def PixelCall.x : PixelCall → Int
  | PixelCall.draw x _ => x
  | PixelCall.clear x _ => x

/-- Row of a callback invocation. -/
def PixelCall.y : PixelCall → Int
  | PixelCall.draw _ y => y
  | PixelCall.clear _ y => y

/-- Row-major order of two invocations: an earlier row, or the same row and an earlier
column. -/
def rowMajorBefore (a b : PixelCall) : Prop :=
  a.y < b.y ∨ (a.y = b.y ∧ a.x < b.x)

/-- An eight by eight bitmap with every bit set. -/
def fullBitmap : smart_font_bitmap_t := ⟨8, 8, List.replicate 8 0xff⟩

/-- The 64 coordinate pairs of `[0, 8) × [0, 8)` as `drawPixel` calls, row by row. -/
def fullCalls : List PixelCall :=
  (List.range 8).flatMap
    (fun (r : Nat) => (List.range 8).map (fun (c : Nat) => PixelCall.draw (c : Int) (r : Int)))

/-- The erase rectangle and the blit of glyph `g` stay inside the `int16_t` range with the
pen of `sf`, for either value `print` can give to `offset_y`, and the bitmap data holds
all `width * height` bits. -/
def GlyphFits (sf : Renderer) (g : smart_font_symbol_t) : Prop :=
  sf._currentX + g.cur_dist ≤ 32767 ∧
  toInt16 (sf._currentX + g.offset_x) + g.bitmap.width ≤ 32767 ∧
  toInt16 (sf._currentY + g.offset_y) + g.bitmap.height ≤ 32767 ∧
  toInt16 (sf._currentY + toInt16 (g.offset_y + g.bitmap.height)) + g.bitmap.height ≤ 32767 ∧
  g.bitmap.width * g.bitmap.height ≤ 8 * g.bitmap.data.length

instance (sf : Renderer) (g : smart_font_symbol_t) : Decidable (GlyphFits sf g) := by
  unfold GlyphFits; infer_instance

/-- Every glyph of `gs` fits at the pen position it is reached with, the pen starting at
that of `sf` and advancing by each glyph in turn. -/
def Fits (sf : Renderer) : List smart_font_symbol_t → Prop
  | [] => True
  | g :: gs =>
    GlyphFits sf g ∧ Fits { sf with _currentX := toInt16 (sf._currentX + g.cur_dist) } gs

instance (sf : Renderer) (gs : List smart_font_symbol_t) : Decidable (Fits sf gs) := by
  induction gs generalizing sf with
  | nil => unfold Fits; infer_instance
  | cons g gs ih => unfold Fits; exact instDecidableAnd

/-- What a caller observes of a `print` call: the callback invocations in order and the
final pen position, or `none` when the call does not return. -/
def printObserved (sf : Renderer) (str : List Nat) : Option (List PixelCall × Int × Int) :=
  (print sf str).map (fun r => (r.2, r.1._currentX, r.1._currentY))

/-- The integers of the half-open interval `[a, b)`, ascending. -/
def intRange (a b : Int) : List Int :=
  (List.range (b - a).toNat).map (fun (i : Nat) => a + (i : Int))

/-- One `clearPixel` call for every coordinate of the rectangle `[x0, x1) × [y0, y1)`, row by
row. -/
def eraseRect (x0 x1 y0 y1 : Int) : List PixelCall :=
  (intRange y0 y1).flatMap (fun y => (intRange x0 x1).map (fun x => PixelCall.clear x y))

/-- The `clearPixel` calls of the erase pass over the resolved glyphs `gs`, with line
height `height`, pen row `y0` and the pen column starting at `penX`: for each glyph the
rectangle `[penX + offset_x, penX + cur_dist) × [y0 - height, y0)`, its left edge and
its top edge converted to `int16_t`, after which `penX` advances by `cur_dist` as an
`int16_t`. -/
def eraseSequence (height : Nat) (y0 : Int) : Int → List smart_font_symbol_t → List PixelCall
  | _, [] => []
  | penX, g :: gs =>
    eraseRect (toInt16 (penX + g.offset_x)) (penX + g.cur_dist) (toInt16 (y0 - height)) y0
      ++ eraseSequence height y0 (toInt16 (penX + g.cur_dist)) gs

/-- The `clearPixel` calls `printClearGlyph` makes for glyph `g`. -/
def glyphErase (sf : Renderer) (font : smart_font_info_t) (g : smart_font_symbol_t) :
    List PixelCall :=
  if sf._clearPixel then
    eraseRect (toInt16 (sf._currentX + g.offset_x)) (sf._currentX + g.cur_dist)
      (toInt16 (sf._currentY - font.height)) sf._currentY
  else []

/-- The `clearPixel` calls of the erase pass of `print` over the resolved glyphs `gs`: the
rectangles of `eraseSequence` when a clear callback is set, nothing otherwise. -/
def eraseCalls (sf : Renderer) (font : smart_font_info_t) (gs : List smart_font_symbol_t) :
    List PixelCall :=
  if sf._clearPixel then eraseSequence font.height sf._currentY sf._currentX gs else []

/-- A renderer with both callbacks, the pen at (0, -32768), the smallest `int16_t` row,
and a font of line height 4 whose one glyph, for the letter A, has an advance of 5 and
one lit pixel. -/
def lowRenderer : Renderer :=
  ⟨true, true, some ⟨1, 8, 4, [⟨0x41, 0, 0, 5, ⟨1, 1, [0x80]⟩⟩]⟩, 0, -32768, 10000, 10000⟩

/-- A renderer with both callbacks, the pen at (32767, 10), the largest `int16_t` column,
and a font of line height 1 whose one glyph, for the letter A, has an advance of 5 and
one lit pixel. -/
def rightEdgeRenderer : Renderer :=
  ⟨true, true, some ⟨1, 8, 1, [⟨0x41, 0, 0, 5, ⟨1, 1, [0x80]⟩⟩]⟩, 32767, 10, 10000, 10000⟩

/-- The bit the row-padded layout assigns to column `c` of row `r` of a bitmap of width
`w`: bit `7 - c mod 8` of data byte `r * ceil(w / 8) + floor(c / 8)`. -/
def rowPaddedBit (data : List Nat) (w r c : Nat) : Bool :=
  (data.getD (r * ((w + 7) / 8) + c / 8) 0 % 256).testBit (7 - c % 8)

/-- One blit: the origin and the bitmap handed to `drawBitmap`. -/
structure Blit where
  x : Int
  y : Int
  bitmap : smart_font_bitmap_t
deriving DecidableEq, Repr

/-- The arguments of the `drawBitmap` call of the second pass of `print` (lines 242–254),
as `drawBitmap` receives them. -/
def printBlitGlyph (sf : Renderer) (prev_symbol : Option smart_font_symbol_t)
    (current_symbol : smart_font_symbol_t) (next_symbol : Option smart_font_symbol_t) : Blit :=
  { x := toInt16 (sf._currentX + current_symbol.offset_x),
    y := toInt16 (sf._currentY + printOffsetY prev_symbol current_symbol next_symbol),
    bitmap := current_symbol.bitmap }

/-- Second pass of `print` (lines 224–259) with every `drawBitmap` call recorded instead of
executed: the same walk as `printDrawLoop`, with its cached lookahead, returning the
renderer after the pass and the blits in call order. -/
def printDrawBlits :
    Nat → List Nat → Renderer → Nat → Option smart_font_symbol_t →
    Option smart_font_symbol_t → Option (Renderer × List Blit)
  | 0, _, _, _, _, _ => none
  | fuel + 1, current_str, sf, next_size, next_symbol, prev_symbol =>
    match current_str.head? with
    | none => none
    | some c =>
      if c % 256 = 0 then some (sf, [])
      else
        match printCurrentSymbol sf current_str next_size next_symbol with
        | none => none
        | some (size, current_symbol) =>
          let current_str := current_str.drop size
          match current_symbol with
          | none => printDrawBlits fuel current_str sf next_size next_symbol prev_symbol
          | some sym =>
            match findSymbol sf._font current_str with
            | none => none
            | some (next_size, next_symbol) =>
              match printDrawBlits fuel current_str
                  { sf with _currentX := toInt16 (sf._currentX + sym.cur_dist) }
                  next_size next_symbol (some sym) with
              | none => none
              | some (sf', blits) =>
                some (sf', printBlitGlyph sf prev_symbol sym next_symbol :: blits)

/-- Running the blits `blits` in order through `drawBitmap`, continuing from `calls`. -/
def execBlits (drawCb : Bool) : List Blit → List PixelCall → Option (List PixelCall)
  | [], calls => some calls
  | b :: bs, calls =>
    match drawBitmap drawCb b.x b.y b.bitmap calls with
    | none => none
    | some calls => execBlits drawCb bs calls

/-- The vertical offset of the reference pass: `offset_y + bitmap.height` for a glyph of the
second overhead tier for which `shouldPadding` is false, `offset_y` otherwise. -/
def referenceOffset (prev : Option smart_font_symbol_t) (g : smart_font_symbol_t)
    (next : Option smart_font_symbol_t) : Int :=
  if isOverheadLv2 g = true ∧ shouldPadding prev (some g) next = false then
    g.offset_y + g.bitmap.height
  else g.offset_y

/-- The lookup result of the character that follows, if there is one. -/
def nextLookup (font : Option smart_font_info_t) : List (List Nat) → Option smart_font_symbol_t
  | [] => none
  | c :: _ => findSymbolSearch font (charCode c)

/-- The reference draw pass, in plain integer arithmetic: every character is decoded and
looked up afresh, in order; each resolved glyph `g` is blitted at
`(penX + g.offset_x, penY + off)`, `off` being `referenceOffset prev g next` with `prev`
the most recently resolved glyph and `next` the lookup result of the character right
after `g`; then `penX` advances by `g.cur_dist`. -/
def referenceBlitsExact (font : Option smart_font_info_t) (penY : Int) :
    Int → Option smart_font_symbol_t → List (List Nat) → List Blit
  | _, _, [] => []
  | penX, prev, c :: cs =>
    match findSymbolSearch font (charCode c) with
    | none => referenceBlitsExact font penY penX prev cs
    | some g =>
      { x := penX + g.offset_x, y := penY + referenceOffset prev g (nextLookup font cs),
        bitmap := g.bitmap }
        :: referenceBlitsExact font penY (penX + g.cur_dist) (some g) cs

/-- The reference draw pass over an `int16_t` pen: as `referenceBlitsExact`, with the two
coordinates of every origin and the advanced pen column converted to `int16_t`. -/
def referenceBlits (font : Option smart_font_info_t) (penY : Int) :
    Int → Option smart_font_symbol_t → List (List Nat) → List Blit
  | _, _, [] => []
  | penX, prev, c :: cs =>
    match findSymbolSearch font (charCode c) with
    | none => referenceBlits font penY penX prev cs
    | some g =>
      { x := toInt16 (penX + g.offset_x),
        y := toInt16 (penY + referenceOffset prev g (nextLookup font cs)),
        bitmap := g.bitmap }
        :: referenceBlits font penY (toInt16 (penX + g.cur_dist)) (some g) cs

/-- No conversion to `int16_t` changes a value in the reference pass from pen column
`penX`: every origin and every advanced pen column is an `int16_t` value. -/
def ReferenceInRange (font : Option smart_font_info_t) (penY : Int) :
    Int → Option smart_font_symbol_t → List (List Nat) → Prop
  | _, _, [] => True
  | penX, prev, c :: cs =>
    match findSymbolSearch font (charCode c) with
    | none => ReferenceInRange font penY penX prev cs
    | some g =>
      (-32768 ≤ penX + g.offset_x ∧ penX + g.offset_x ≤ 32767) ∧
      (-32768 ≤ penY + referenceOffset prev g (nextLookup font cs) ∧
        penY + referenceOffset prev g (nextLookup font cs) ≤ 32767) ∧
      (-32768 ≤ penX + g.cur_dist ∧ penX + g.cur_dist ≤ 32767) ∧
      ReferenceInRange font penY (penX + g.cur_dist) (some g) cs

instance (font : Option smart_font_info_t) (penY penX : Int)
    (prev : Option smart_font_symbol_t) (chars : List (List Nat)) :
    Decidable (ReferenceInRange font penY penX prev chars) := by
  induction chars generalizing penX prev with
  | nil => unfold ReferenceInRange; infer_instance
  | cons c cs ih =>
    unfold ReferenceInRange
    cases findSymbolSearch font (charCode c) with
    | none => exact ih penX prev
    | some g => exact instDecidableAnd

/-- The walk of `getWidth` (lines 268–274) with the glyphs it resolves recorded instead of
their advances added: the same scan as `getWidthLoop`, returning in order every non-null
`current_symbol`. -/
def getWidthGlyphs (font : Option smart_font_info_t) :
    Nat → List Nat → Option (List smart_font_symbol_t)
  | 0, _ => none
  | fuel + 1, current_str =>
    match current_str.head? with
    | none => none
    | some c =>
      if c % 256 = 0 then some []
      else
        match findSymbol font current_str with
        | none => none
        | some (size, current_symbol) =>
          let current_str := current_str.drop size
          match current_symbol with
          | none => getWidthGlyphs font fuel current_str
          | some sym => (getWidthGlyphs font fuel current_str).map (fun gs => sym :: gs)

/-- The walk of the first pass of `print` (lines 202–216) with the glyphs it resolves
recorded instead of erased: the same scan as `printClearLoop`, returning in order every
non-null `current_symbol`. -/
def printClearGlyphs : Nat → List Nat → Renderer → Option (List smart_font_symbol_t)
  | 0, _, _ => none
  | fuel + 1, current_str, sf =>
    match current_str.head? with
    | none => none
    | some c =>
      if c % 256 = 0 then some []
      else
        match findSymbol sf._font current_str with
        | none => none
        | some (size, current_symbol) =>
          let current_str := current_str.drop size
          match current_symbol with
          | none => printClearGlyphs fuel current_str sf
          | some sym =>
            (printClearGlyphs fuel current_str
              { sf with _currentX := toInt16 (sf._currentX + sym.cur_dist) }).map
              (fun gs => sym :: gs)

/-- The walk of the second pass of `print` (lines 224–259) with the glyphs it resolves
recorded instead of drawn: the same scan as `printDrawLoop`, with its cached lookahead,
returning in order every non-null `current_symbol` together with the `next_symbol`
looked up for it. -/
def printDrawSteps :
    Nat → List Nat → Renderer → Nat → Option smart_font_symbol_t →
    Option (List (smart_font_symbol_t × Option smart_font_symbol_t))
  | 0, _, _, _, _ => none
  | fuel + 1, current_str, sf, next_size, next_symbol =>
    match current_str.head? with
    | none => none
    | some c =>
      if c % 256 = 0 then some []
      else
        match printCurrentSymbol sf current_str next_size next_symbol with
        | none => none
        | some (size, current_symbol) =>
          let current_str := current_str.drop size
          match current_symbol with
          | none => printDrawSteps fuel current_str sf next_size next_symbol
          | some sym =>
            match findSymbol sf._font current_str with
            | none => none
            | some (next_size, next_symbol) =>
              (printDrawSteps fuel current_str
                { sf with _currentX := toInt16 (sf._currentX + sym.cur_dist) }
                next_size next_symbol).map (fun steps => (sym, next_symbol) :: steps)

/-- The erase rectangles of the glyphs `gs`, one after the other from the pen of `sf`: what
the body of the first pass of `print` (lines 205–215) does for one glyph, for each glyph
of `gs` in turn. -/
def eraseRun (font : smart_font_info_t) :
    Renderer → List smart_font_symbol_t → List PixelCall → Option (Renderer × List PixelCall)
  | sf, [], calls => some (sf, calls)
  | sf, g :: gs, calls =>
    match printClearGlyph sf font g calls with
    | none => none
    | some calls =>
      eraseRun font { sf with _currentX := toInt16 (sf._currentX + g.cur_dist) } gs calls

/-- The blits of the glyphs of `steps`, one after the other from the pen of `sf`: what the
body of the second pass of `print` (lines 242–257) does for one glyph and its looked-up
successor, for each entry of `steps` in turn, `prev` being the glyph before. -/
def drawRun :
    Renderer → Option smart_font_symbol_t →
    List (smart_font_symbol_t × Option smart_font_symbol_t) → List PixelCall →
    Option (Renderer × List PixelCall)
  | sf, _, [], calls => some (sf, calls)
  | sf, prev, (g, next) :: steps, calls =>
    match printDrawGlyph sf prev g next calls with
    | none => none
    | some calls =>
      drawRun { sf with _currentX := toInt16 (sf._currentX + g.cur_dist) } (some g) steps calls

/-- The five characters `A`, U+0E31, U+0E48, U+0E33 and `C`: the first four are in
`demoFont`, the second and third with advance 0, and `C` is not. -/
def stackedText : List (List Nat) :=
  [[0x41], [0xe0, 0xb8, 0xb1], [0xe0, 0xb9, 0x88], [0xe0, 0xb8, 0xb3], [0x43]]

/-! # Properties -/

/-! ## Glyph lookup on sorted tables -/

theorem sortedTable_lt {symbols : List smart_font_symbol_t} (hs : SortedTable symbols)
    {i j : Nat} (hi : i < symbols.length) (hj : j < symbols.length) (hij : i < j) :
    symbols[i].utf8 < symbols[j].utf8 := by
  have := List.pairwise_iff_getElem.mp hs i j hi hj hij
  exact this

theorem bsearchLoop_spec (base : List smart_font_symbol_t) (key : Nat)
    (hs : SortedTable base) :
    ∀ (fuel l u : Nat), u ≤ base.length → u - l < fuel →
      (∀ i (hi : i < base.length), i < l → base[i].utf8 < key) →
      (∀ i (hi : i < base.length), u ≤ i → key < base[i].utf8) →
      match bsearchLoop symbol_compare key base fuel l u with
      | some g => g ∈ base ∧ g.utf8 = key
      | none => ∀ g ∈ base, g.utf8 ≠ key := by
  intro fuel
  induction fuel with
  | zero => intro l u _ h; omega
  | succ fuel ih =>
    intro l u hu hfuel hlo hhi
    unfold bsearchLoop
    by_cases hlu : l < u
    · have hidx : (l + u) / 2 < base.length := by omega
      simp only [hlu, if_true, List.getElem?_eq_getElem hidx]
      by_cases h1 : key < base[(l + u) / 2].utf8
      · have hc : symbol_compare key base[(l + u) / 2] < 0 := by
          simp [symbol_compare, h1]
        simp only [hc, if_true]
        apply ih l ((l + u) / 2) (by omega) (by omega) hlo
        intro i hi hge
        rcases Nat.eq_or_lt_of_le hge with heq | hlt
        · subst heq; exact h1
        · exact lt_trans h1 (sortedTable_lt hs hidx hi hlt)
      · by_cases h2 : key > base[(l + u) / 2].utf8
        · have hc1 : ¬ symbol_compare key base[(l + u) / 2] < 0 := by
            simp [symbol_compare, h1, h2]
          have hc2 : symbol_compare key base[(l + u) / 2] > 0 := by
            simp [symbol_compare, h1, h2]
          simp only [hc1, hc2, if_true, if_false]
          apply ih ((l + u) / 2 + 1) u hu (by omega) _ hhi
          intro i hi hlt
          rcases Nat.eq_or_lt_of_le (Nat.lt_succ_iff.mp hlt) with heq | hlt'
          · subst heq; exact h2
          · exact lt_trans (sortedTable_lt hs hi hidx hlt') h2
        · have hc1 : ¬ symbol_compare key base[(l + u) / 2] < 0 := by
            simp [symbol_compare, h1, h2]
          have hc2 : ¬ symbol_compare key base[(l + u) / 2] > 0 := by
            simp [symbol_compare, h1, h2]
          simp only [hc1, hc2, if_false]
          exact ⟨List.getElem_mem _, by omega⟩
    · simp only [hlu, if_false]
      intro g hg heq
      obtain ⟨i, hi, rfl⟩ := List.getElem_of_mem hg
      by_cases hil : i < l
      · have := hlo i hi hil; omega
      · have := hhi i hi (by omega); omega

theorem sortedTable_unique {symbols : List smart_font_symbol_t} (hs : SortedTable symbols)
    {g g' : smart_font_symbol_t} (hg : g ∈ symbols) (hg' : g' ∈ symbols)
    (h : g.utf8 = g'.utf8) : g = g' := by
  obtain ⟨i, hi, rfl⟩ := List.getElem_of_mem hg
  obtain ⟨j, hj, rfl⟩ := List.getElem_of_mem hg'
  rcases Nat.lt_trichotomy i j with hij | hij | hij
  · have := sortedTable_lt hs hi hj hij; omega
  · subst hij; rfl
  · have := sortedTable_lt hs hj hi hij; omega

/-- C1. On a table whose records are in strictly ascending codepoint order, of any size,
the table search of `findSymbol` returns the record whose codepoint is `c` when the table
holds one, wherever it sits, and returns `NULL` when no record has codepoint `c`. -/
theorem findSymbolSearch_sorted (f : smart_font_info_t) (c : Nat)
    (hcount : f.count = f.symbols.length) (hs : SortedTable f.symbols) :
    (∀ g ∈ f.symbols, g.utf8 = c → findSymbolSearch (some f) c = some g) ∧
    ((∀ g ∈ f.symbols, g.utf8 ≠ c) → findSymbolSearch (some f) c = none) := by
  have key := bsearchLoop_spec f.symbols c hs (f.count + 1) 0 f.count (by omega) (by omega)
    (by intro i _ h; omega) (by intro i hi h; omega)
  simp only [findSymbolSearch, bsearch]
  constructor
  · intro g hg hgc
    cases hres : bsearchLoop symbol_compare c f.symbols (f.count + 1) 0 f.count with
    | none => rw [hres] at key; exact absurd hgc (key g hg)
    | some g' =>
      rw [hres] at key
      rw [sortedTable_unique hs hg key.1 (by omega)]
  · intro hnone
    cases hres : bsearchLoop symbol_compare c f.symbols (f.count + 1) 0 f.count with
    | none => rfl
    | some g' => rw [hres] at key; exact absurd key.2 (hnone g' key.1)

theorem findSymbolSearch_sorted_witness :
    (∀ g ∈ (⟨3, 8, 8, [⟨0x41, 0, 0, 5, ⟨0, 0, []⟩⟩, ⟨0x42, 0, 0, 6, ⟨0, 0, []⟩⟩,
        ⟨0xe0b8b3, 0, 0, 7, ⟨0, 0, []⟩⟩]⟩ : smart_font_info_t).symbols,
      g.utf8 = 0x42 →
      findSymbolSearch (some ⟨3, 8, 8, [⟨0x41, 0, 0, 5, ⟨0, 0, []⟩⟩, ⟨0x42, 0, 0, 6, ⟨0, 0, []⟩⟩,
        ⟨0xe0b8b3, 0, 0, 7, ⟨0, 0, []⟩⟩]⟩) 0x42 = some g) ∧
    ((∀ g ∈ (⟨3, 8, 8, [⟨0x41, 0, 0, 5, ⟨0, 0, []⟩⟩, ⟨0x42, 0, 0, 6, ⟨0, 0, []⟩⟩,
        ⟨0xe0b8b3, 0, 0, 7, ⟨0, 0, []⟩⟩]⟩ : smart_font_info_t).symbols,
      g.utf8 ≠ 0x42) →
      findSymbolSearch (some ⟨3, 8, 8, [⟨0x41, 0, 0, 5, ⟨0, 0, []⟩⟩, ⟨0x42, 0, 0, 6, ⟨0, 0, []⟩⟩,
        ⟨0xe0b8b3, 0, 0, 7, ⟨0, 0, []⟩⟩]⟩) 0x42 = none) :=
  findSymbolSearch_sorted
    ⟨3, 8, 8, [⟨0x41, 0, 0, 5, ⟨0, 0, []⟩⟩, ⟨0x42, 0, 0, 6, ⟨0, 0, []⟩⟩,
      ⟨0xe0b8b3, 0, 0, 7, ⟨0, 0, []⟩⟩]⟩ 0x42 rfl (by simp [SortedTable])

/-! ## Codepoint decoder -/

set_option maxRecDepth 100000 in
theorem leadingOnes_shift :
    ∀ u < 256, 2 ≤ leadingOnes u →
      ((u <<< 1) % 256) &&& 0x80 ≠ 0 ∧ leadingOnes ((u <<< 1) % 256) = leadingOnes u - 1 := by
  decide

set_option maxRecDepth 100000 in
theorem leadingOnes_stop :
    ∀ u < 256, leadingOnes u = 1 → ((u <<< 1) % 256) &&& 0x80 = 0 := by
  decide

set_option maxRecDepth 100000 in
theorem leadingOnes_pos_iff :
    ∀ u < 256, (u &&& 0x80 ≠ 0 ↔ 1 ≤ leadingOnes u) := by
  decide

set_option maxRecDepth 100000 in
theorem leadingOnes_le : ∀ u < 256, leadingOnes u ≤ 8 := by
  decide

theorem getUtf8FormatLoop_spec (rest : List Nat) :
    ∀ (bs : List Nat) (fuel val u size : Nat), u < 256 → leadingOnes u = bs.length →
      1 ≤ bs.length → bs.length ≤ fuel → size + bs.length < 256 →
      getUtf8FormatLoop fuel (bs ++ rest) val u size
        = some (packU32 val bs, size + bs.length) := by
  intro bs
  induction bs with
  | nil => intro fuel val u size _ _ h; simp at h
  | cons c bs ih =>
    intro fuel val u size hu hlead _ hfuel hsize
    obtain ⟨fuel, rfl⟩ : ∃ f, fuel = f + 1 := ⟨fuel - 1, by simp at hfuel; omega⟩
    simp only [List.length_cons] at hlead hfuel hsize
    rw [List.cons_append, getUtf8FormatLoop]
    have hs1 : (size + 1) % 256 = size + 1 := Nat.mod_eq_of_lt (by omega)
    by_cases hk : 2 ≤ leadingOnes u
    · obtain ⟨h1, h2⟩ := leadingOnes_shift u hu hk
      simp only [h1, ne_eq, not_false_eq_true, if_true, hs1]
      have hlt : (u <<< 1) % 256 < 256 := Nat.mod_lt _ (by norm_num)
      rw [ih fuel _ _ _ hlt (by omega) (by omega) (by omega) (by omega)]
      simp only [packU32, List.foldl_cons, List.length_cons]
      congr 2
      omega
    · have h1 := leadingOnes_stop u hu (by omega)
      have hnil : bs = [] := List.length_eq_zero.mp (by omega)
      subst hnil
      simp only [h1, ne_eq, not_true_eq_false, if_false, hs1]
      simp [packU32]

theorem shiftLeft_or (a b n : Nat) : (a ||| b) <<< n = a <<< n ||| b <<< n := by
  apply Nat.eq_of_testBit_eq
  intro i
  simp only [Nat.testBit_shiftLeft, Nat.testBit_or]
  by_cases h : n ≤ i <;> simp [h]

theorem packU32_eq_packBE :
    ∀ (bs : List Nat) (v j : Nat), (∀ b ∈ bs, b < 256) → v < 2 ^ (8 * j) →
      j + bs.length ≤ 4 → packU32 v bs = (v <<< (8 * bs.length)) ||| packBE bs := by
  intro bs
  induction bs with
  | nil => intro v j _ _ _; simp [packU32, packBE]
  | cons b bs ih =>
    intro v j hb hv hj
    simp only [List.length_cons] at hj
    have hb256 : b < 256 := hb b (List.mem_cons_self _ _)
    have hshift : v <<< 8 < 2 ^ (8 * (j + 1)) := by
      rw [Nat.shiftLeft_eq, Nat.mul_add, Nat.pow_add]
      exact Nat.mul_lt_mul_of_pos_right hv (by norm_num)
    have hle : 2 ^ (8 * (j + 1)) ≤ 2 ^ 32 := Nat.pow_le_pow_right (by norm_num) (by omega)
    have hmod : (v <<< 8) % 2 ^ 32 = v <<< 8 := Nat.mod_eq_of_lt (lt_of_lt_of_le hshift hle)
    have hbmod : b % 256 = b := Nat.mod_eq_of_lt hb256
    have hb' : b < 2 ^ (8 * (j + 1)) :=
      lt_of_lt_of_le hb256 (by
        calc 256 = 2 ^ 8 := by norm_num
          _ ≤ 2 ^ (8 * (j + 1)) := Nat.pow_le_pow_right (by norm_num) (by omega))
    have hv' : v <<< 8 ||| b < 2 ^ (8 * (j + 1)) := Nat.or_lt_two_pow hshift hb'
    have step : packU32 v (b :: bs) = packU32 (v <<< 8 ||| b) bs := by
      simp only [packU32, List.foldl_cons, hmod, hbmod]
    rw [step, ih (v <<< 8 ||| b) (j + 1) (fun x hx => hb x (List.mem_cons_of_mem _ hx)) hv'
      (by omega)]
    simp only [packBE, List.length_cons, shiftLeft_or, Nat.or_assoc]
    rw [← Nat.shiftLeft_add]
    congr 2
    omega

theorem getUtf8Format_spec (c : Nat) (bs rest : List Nat) (hc : c < 256)
    (hlen : leadingOnes c = (c :: bs).length) :
    getUtf8Format (c :: bs ++ rest) = some (packU32 0 (c :: bs), (c :: bs).length) := by
  have hmod : c % 256 = c := Nat.mod_eq_of_lt hc
  have hpos : 1 ≤ leadingOnes c := by rw [hlen]; simp
  have hbit : c &&& 0x80 ≠ 0 := (leadingOnes_pos_iff c hc).mpr hpos
  have h8 := leadingOnes_le c hc
  simp only [getUtf8Format, List.cons_append, List.head?_cons, hmod]
  rw [if_pos hbit]
  have := getUtf8FormatLoop_spec rest (c :: bs) 8 0 c 0 hc hlen (by simp) (by omega) (by omega)
  simpa using this

set_option maxRecDepth 100000 in
theorem high_bit_iff : ∀ c < 256, ((c &&& 0x80 > 0) ↔ 0x80 ≤ c) := by
  decide

theorem findSymbolDecode_char (c rest : List Nat) (hc : IsChar c) :
    findSymbolDecode (c ++ rest) = some (packU32 0 c, c.length) := by
  obtain ⟨hbytes, hlen⟩ := hc
  cases c with
  | nil => simp at hlen
  | cons b bs =>
    have hb := hbytes b (List.mem_cons_self _ _)
    have hmod : b % 256 = b := Nat.mod_eq_of_lt hb.2
    simp only [List.head?_cons, Option.map_some', Option.some.injEq, byteLength] at hlen
    by_cases hlow : b < 0x80
    · rw [if_pos hlow] at hlen
      have hnil : bs = [] :=
        List.length_eq_zero.mp (by simp only [List.length_cons] at hlen; omega)
      subst hnil
      have hbit : ¬ (b &&& 0x80 > 0) := fun h => by
        have := (high_bit_iff b hb.2).mp h; omega
      simp [findSymbolDecode, isUtf8, hmod, hbit, packU32]
    · rw [if_neg hlow] at hlen
      have hbit : b &&& 0x80 > 0 := (high_bit_iff b hb.2).mpr (by omega)
      have := getUtf8Format_spec b bs rest hb.2 hlen
      simp only [findSymbolDecode, isUtf8, List.cons_append, List.head?_cons, hmod, hbit,
        if_true]
      simpa using this

theorem findSymbolDecode_high (b : Nat) (l : List Nat) (hb : b < 256) (hhigh : 0x80 ≤ b) :
    findSymbolDecode (b :: l) = getUtf8Format (b :: l) := by
  have hbit : b &&& 0x80 > 0 := (high_bit_iff b hb).mpr hhigh
  simp [findSymbolDecode, isUtf8, Nat.mod_eq_of_lt hb, hbit]

/-- C2. For `k` in {2, 3, 4} and a lead byte with exactly `k` leading 1-bits, `getUtf8Format`
and the decoding step of `findSymbol` report the byte length `k` and the big-endian
packing of the `k` bytes at the read position, whatever the `k - 1` bytes after the
lead byte are and whatever follows them; `findSymbol` returns the size `k` and looks
that codepoint up. -/
theorem getUtf8Format_multibyte (k b0 : Nat) (tail rest : List Nat)
    (hk : k = 2 ∨ k = 3 ∨ k = 4) (hb0 : b0 < 256) (hlead : leadingOnes b0 = k)
    (hlen : (b0 :: tail).length = k) (htail : ∀ b ∈ tail, b < 256) :
    getUtf8Format (b0 :: tail ++ rest) = some (packBE (b0 :: tail), k) ∧
    findSymbolDecode (b0 :: tail ++ rest) = some (packBE (b0 :: tail), k) ∧
    ∀ font, findSymbol font (b0 :: tail ++ rest)
      = some (k, findSymbolSearch font (packBE (b0 :: tail))) := by
  have hhigh : 0x80 ≤ b0 :=
    (high_bit_iff b0 hb0).mp (Nat.pos_of_ne_zero
      ((leadingOnes_pos_iff b0 hb0).mpr (by omega)))
  have hbytes : ∀ b ∈ b0 :: tail, b < 256 := by
    intro b hb
    rcases List.mem_cons.mp hb with h | h
    · exact h ▸ hb0
    · exact htail b h
  have hpack := packU32_eq_packBE (b0 :: tail) 0 0 hbytes (by norm_num) (by omega)
  have hget := getUtf8Format_spec b0 tail rest hb0 (by omega)
  rw [hpack, hlen] at hget
  simp only [Nat.zero_shiftLeft, Nat.zero_or] at hget
  have hdec : findSymbolDecode (b0 :: tail ++ rest) = some (packBE (b0 :: tail), k) := by
    rw [List.cons_append, findSymbolDecode_high b0 _ hb0 hhigh]
    exact hget
  refine ⟨hget, hdec, ?_⟩
  intro font
  rw [List.cons_append] at hdec
  simp only [findSymbol, List.cons_append, hdec]

theorem getUtf8Format_multibyte_witness :
    getUtf8Format (0xe0 :: [0xb8, 0xb3] ++ [0x41, 0]) = some (packBE (0xe0 :: [0xb8, 0xb3]), 3) ∧
    findSymbolDecode (0xe0 :: [0xb8, 0xb3] ++ [0x41, 0])
      = some (packBE (0xe0 :: [0xb8, 0xb3]), 3) ∧
    ∀ font, findSymbol font (0xe0 :: [0xb8, 0xb3] ++ [0x41, 0])
      = some (3, findSymbolSearch font (packBE (0xe0 :: [0xb8, 0xb3]))) :=
  getUtf8Format_multibyte 3 0xe0 [0xb8, 0xb3] [0x41, 0] (by decide) (by decide) (by decide)
    (by decide) (by decide)

/-- C3. For a byte `b` below `0x80` at the read position the decoder reports byte length 1
and codepoint `b`, whatever bytes follow: in the decoding step of `findSymbol`, in
`getUtf8Format`, and in the size `findSymbol` returns. -/
theorem findSymbolDecode_single (b : Nat) (rest : List Nat) (hb : b < 0x80) :
    findSymbolDecode (b :: rest) = some (b, 1) ∧
    getUtf8Format (b :: rest) = some (b, 1) ∧
    ∀ font, findSymbol font (b :: rest) = some (1, findSymbolSearch font b) := by
  have hb256 : b < 256 := by omega
  have hmod : b % 256 = b := Nat.mod_eq_of_lt hb256
  have hbit : ¬ (b &&& 0x80 > 0) := fun h => by
    have := (high_bit_iff b hb256).mp h; omega
  have hbit0 : b &&& 0x80 = 0 := by omega
  have h1 : findSymbolDecode (b :: rest) = some (b, 1) := by
    simp [findSymbolDecode, isUtf8, hmod, hbit0]
  refine ⟨h1, ?_, ?_⟩
  · simp [getUtf8Format, hmod, hbit0]
  · intro font
    simp [findSymbol, h1]

theorem findSymbolDecode_single_witness :
    findSymbolDecode (0x41 :: [0xe0, 0]) = some (0x41, 1) ∧
    getUtf8Format (0x41 :: [0xe0, 0]) = some (0x41, 1) ∧
    ∀ font, findSymbol font (0x41 :: [0xe0, 0]) = some (1, findSymbolSearch font 0x41) :=
  findSymbolDecode_single 0x41 [0xe0, 0] (by decide)

/-! ## Width measurer -/

theorem toInt16_add_left (a b : Int) : toInt16 (toInt16 a + b) = toInt16 (a + b) := by
  unfold toInt16; omega

theorem toInt16_of_range (a : Int) (h1 : -32768 ≤ a) (h2 : a ≤ 32767) : toInt16 a = a := by
  unfold toInt16; omega

theorem cstring_nil (rest : List Nat) : cstring [] rest = 0 :: rest := by
  simp [cstring]

theorem cstring_cons (c : List Nat) (cs : List (List Nat)) (rest : List Nat) :
    cstring (c :: cs) rest = c ++ cstring cs rest := by
  simp [cstring]

theorem isChar_head {c : List Nat} (hc : IsChar c) (t : List Nat) :
    ∃ b, (c ++ t).head? = some b ∧ b % 256 ≠ 0 := by
  obtain ⟨hbytes, hlen⟩ := hc
  cases c with
  | nil => simp at hlen
  | cons b bs =>
    have hb := hbytes b (List.mem_cons_self _ _)
    refine ⟨b, by simp, ?_⟩
    rw [Nat.mod_eq_of_lt hb.2]; omega

theorem isChar_length_pos {c : List Nat} (hc : IsChar c) : 1 ≤ c.length := by
  obtain ⟨_, hlen⟩ := hc
  cases c with
  | nil => simp at hlen
  | cons b bs => simp

theorem findSymbol_char (font : Option smart_font_info_t) (c t : List Nat) (hc : IsChar c) :
    findSymbol font (c ++ t) = some (c.length, findSymbolSearch font (charCode c)) := by
  simp [findSymbol, findSymbolDecode_char c t hc, charCode]

theorem cstring_length (chars : List (List Nat)) (rest : List Nat)
    (hchars : ∀ c ∈ chars, IsChar c) : chars.length < (cstring chars rest).length := by
  induction chars with
  | nil => simp [cstring]
  | cons c cs ih =>
    have h1 := isChar_length_pos (hchars c (List.mem_cons_self _ _))
    have h2 := ih (fun x hx => hchars x (List.mem_cons_of_mem _ hx))
    rw [cstring_cons, List.length_append, List.length_cons]
    omega

theorem getWidthLoop_spec (font : Option smart_font_info_t) (rest : List Nat) :
    ∀ (chars : List (List Nat)) (fuel : Nat) (width : Int),
      (∀ c ∈ chars, IsChar c) → chars.length < fuel →
      getWidthLoop font fuel (cstring chars rest) width
        = some ((resolvedGlyphs font chars).foldl
            (fun w g => toInt16 (w + g.cur_dist)) width) := by
  intro chars
  induction chars with
  | nil =>
    intro fuel width _ hfuel
    obtain ⟨fuel, rfl⟩ : ∃ f, fuel = f + 1 := ⟨fuel - 1, by simp at hfuel; omega⟩
    simp [getWidthLoop, cstring, resolvedGlyphs]
  | cons c cs ih =>
    intro fuel width hchars hfuel
    obtain ⟨fuel, rfl⟩ : ∃ f, fuel = f + 1 := ⟨fuel - 1, by simp at hfuel; omega⟩
    have hc := hchars c (List.mem_cons_self _ _)
    have hcs : ∀ x ∈ cs, IsChar x := fun x hx => hchars x (List.mem_cons_of_mem _ hx)
    obtain ⟨b, hhead, hb⟩ := isChar_head hc (cstring cs rest)
    have hfuel' : cs.length < fuel := by simp at hfuel; omega
    rw [cstring_cons, getWidthLoop]
    simp only [hhead, hb, if_false, findSymbol_char font c _ hc, List.drop_left]
    cases hfind : findSymbolSearch font (charCode c) with
    | none =>
      simp only [ih fuel width hcs hfuel', resolvedGlyphs, List.filterMap_cons, hfind]
    | some g =>
      simp only [ih fuel _ hcs hfuel', resolvedGlyphs, List.filterMap_cons, hfind,
        List.foldl_cons]

theorem foldl_toInt16 (gs : List smart_font_symbol_t) :
    ∀ (w : Int), toInt16 (gs.foldl (fun w g => toInt16 (w + g.cur_dist)) w)
      = toInt16 (w + ((gs.map (fun g => g.cur_dist)).sum : Nat)) := by
  induction gs with
  | nil => intro w; simp
  | cons g gs ih =>
    intro w
    simp only [List.foldl_cons, List.map_cons, List.sum_cons, ih, toInt16_add_left]
    congr 1
    push_cast
    ring

theorem foldl_toInt16_zero (gs : List smart_font_symbol_t) :
    gs.foldl (fun w g => toInt16 (w + g.cur_dist)) 0
      = toInt16 ((gs.map (fun g => g.cur_dist)).sum : Nat) := by
  have h := foldl_toInt16 gs 0
  rw [zero_add] at h
  rw [← h]
  cases gs using List.reverseRecOn with
  | nil => simp [toInt16]
  | append_singleton gs g =>
    simp only [List.foldl_append, List.foldl_cons, List.foldl_nil]
    unfold toInt16; omega

/-- C4, as stated, fails: with an advance of 40000 for the letter A, the string "A" is
well formed, the advances of its resolved glyphs sum to 40000, and `getWidth`
returns -25536. -/
theorem getWidth_sum_counterexample :
    (∀ c ∈ [[0x41]], IsChar c) ∧
    advanceSum wideRenderer._font [[0x41]] = 40000 ∧
    getWidth wideRenderer (cstring [[0x41]] []) = some (-25536) ∧
    getWidth wideRenderer (cstring [[0x41]] [])
      ≠ some ((advanceSum wideRenderer._font [[0x41]] : Nat) : Int) := by
  decide

/-- C4, amended. `getWidth` of the empty string is 0, and for every renderer (with or
without a font) and every well-formed string, `getWidth` returns the sum of the advance
fields of the glyphs of the string that resolve in the table, in order, absent
characters adding nothing, converted to `int16_t`: reduced modulo `2 ^ 16` into
`-32768 … 32767`.  It is the sum itself whenever the sum is at most 32767. -/
theorem getWidth_wraps (sf : Renderer) (chars : List (List Nat)) (rest : List Nat)
    (hchars : ∀ c ∈ chars, IsChar c) :
    getWidth sf (cstring [] rest) = some 0 ∧
    getWidth sf (cstring chars rest)
      = some (toInt16 ((advanceSum sf._font chars : Nat) : Int)) ∧
    (advanceSum sf._font chars ≤ 32767 →
      getWidth sf (cstring chars rest) = some ((advanceSum sf._font chars : Nat) : Int)) := by
  have hgen : ∀ cs : List (List Nat), (∀ c ∈ cs, IsChar c) →
      getWidth sf (cstring cs rest)
        = some (toInt16 ((advanceSum sf._font cs : Nat) : Int)) := by
    intro cs hcs
    have hfuel : cs.length < (cstring cs rest).length + 1 := by
      have := cstring_length cs rest hcs; omega
    rw [getWidth, getWidthLoop_spec sf._font rest cs _ 0 hcs hfuel, foldl_toInt16_zero]
    rfl
  refine ⟨?_, hgen chars hchars, ?_⟩
  · rw [hgen [] (by simp)]
    simp [advanceSum, resolvedGlyphs, toInt16]
  · intro hsum
    rw [hgen chars hchars, toInt16_of_range _ (by omega) (by omega)]

theorem getWidth_wraps_witness :
    getWidth demoRenderer (cstring [] [7]) = some 0 ∧
    getWidth demoRenderer (cstring [[0x41], [0x42], [0xe0, 0xb8, 0xb3]] [7])
      = some (toInt16 ((advanceSum demoRenderer._font
          [[0x41], [0x42], [0xe0, 0xb8, 0xb3]] : Nat) : Int)) ∧
    (advanceSum demoRenderer._font [[0x41], [0x42], [0xe0, 0xb8, 0xb3]] ≤ 32767 →
      getWidth demoRenderer (cstring [[0x41], [0x42], [0xe0, 0xb8, 0xb3]] [7])
        = some ((advanceSum demoRenderer._font
            [[0x41], [0x42], [0xe0, 0xb8, 0xb3]] : Nat) : Int)) :=
  getWidth_wraps demoRenderer [[0x41], [0x42], [0xe0, 0xb8, 0xb3]] [7] (by decide)

/-! ## Text renderer: frame properties and the pixel surface -/

theorem forInt16_inv {σ : Type} (P : σ → Prop) (body : Int → σ → Option σ) (bound : Int)
    (hbody : ∀ v st st', P st → body v st = some st' → P st') :
    ∀ (fuel : Nat) (v : Int) (st st' : σ), P st →
      forInt16 body bound fuel v st = some st' → P st' := by
  intro fuel
  induction fuel with
  | zero =>
    intro v st st' hP h
    unfold forInt16 at h
    split at h
    · exact absurd h (by simp)
    · simp only [Option.some.injEq] at h; exact h ▸ hP
  | succ fuel ih =>
    intro v st st' hP h
    unfold forInt16 at h
    split at h
    · split at h
      · exact absurd h (by simp)
      · next st1 hb => exact ih _ st1 st' (hbody v st st1 hP hb) h
    · simp only [Option.some.injEq] at h; exact h ▸ hP

theorem Extends.refl (p : PixelCall → Bool) (calls : List PixelCall) : Extends p calls calls :=
  ⟨[], by simp, by simp⟩

theorem Extends.trans {p : PixelCall → Bool} {a b c : List PixelCall}
    (h1 : Extends p a b) (h2 : Extends p b c) : Extends p a c := by
  obtain ⟨m1, rfl, hm1⟩ := h1
  obtain ⟨m2, rfl, hm2⟩ := h2
  refine ⟨m1 ++ m2, by simp, ?_⟩
  intro e he
  rcases List.mem_append.mp he with h | h
  · exact hm1 e h
  · exact hm2 e h

theorem Extends.snoc {p : PixelCall → Bool} (calls : List PixelCall) (e : PixelCall)
    (he : p e = true) : Extends p calls (calls ++ [e]) :=
  ⟨[e], rfl, by simpa using he⟩

theorem printClearGlyph_extends (sf : Renderer) (font : smart_font_info_t)
    (sym : smart_font_symbol_t) (calls calls' : List PixelCall)
    (h : printClearGlyph sf font sym calls = some calls') :
    Extends (fun e => !e.isDraw) calls calls' := by
  unfold printClearGlyph at h
  split at h
  · refine forInt16_inv (fun c => Extends (fun e => !e.isDraw) calls c) _ _ ?_ _ _ _ _
      (Extends.refl _ _) h
    intro y c c' hc hrow
    refine forInt16_inv (fun c => Extends (fun e => !e.isDraw) calls c) _ _ ?_ _ _ _ _ hc hrow
    intro x d d' hd hpix
    simp only [Option.some.injEq] at hpix
    subst hpix
    exact hd.trans (Extends.snoc _ _ rfl)
  · simp only [Option.some.injEq] at h; subst h; exact Extends.refl _ _

theorem drawBitmapPixel_extends (drawCb : Bool) (data : List Nat) (y x : Int)
    (st st' : BlitState) (h : drawBitmapPixel drawCb data y x st = some st') :
    Extends PixelCall.isDraw st.calls st'.calls := by
  unfold drawBitmapPixel at h
  cases hd : data[st.data_ptr]? with
  | none => simp [hd] at h
  | some byte =>
    simp only [hd] at h
    by_cases hbit : (byte % 256) &&& (1 <<< st.current_bit) > 0 <;>
      by_cases hcb : drawCb = true <;>
      by_cases hpos : st.current_bit > 0 <;>
      simp only [hbit, hcb, hpos, if_true, if_false, Option.some.injEq] at h <;>
      subst h <;>
      first
        | exact Extends.refl _ _
        | exact Extends.snoc _ _ rfl

theorem drawBitmap_extends (drawCb : Bool) (x y : Int) (bitmap : smart_font_bitmap_t)
    (calls calls' : List PixelCall) (h : drawBitmap drawCb x y bitmap calls = some calls') :
    Extends PixelCall.isDraw calls calls' := by
  unfold drawBitmap at h
  simp only at h
  split at h
  · exact absurd h (by simp)
  · next st hloop =>
    simp only [Option.some.injEq] at h
    subst h
    refine forInt16_inv (fun s => Extends PixelCall.isDraw calls s.calls) _ _ ?_ _ _ _ _
      (Extends.refl _ _) hloop
    intro cy s s' hs hrow
    refine forInt16_inv (fun s => Extends PixelCall.isDraw calls s.calls) _ _ ?_ _ _ _ _
      hs hrow
    intro cx t t' ht hpix
    exact ht.trans (drawBitmapPixel_extends _ _ _ _ _ _ hpix)

theorem setPos_currentX (sf : Renderer) (x : Int) (a b : Int) :
    setPos { sf with _currentX := x } a b = setPos sf a b := rfl

theorem printClearLoop_frame (font : smart_font_info_t) :
    ∀ (fuel : Nat) (str : List Nat) (sf : Renderer) (calls : List PixelCall)
      (r : Renderer × List PixelCall),
      printClearLoop font fuel str sf calls = some r →
      Extends (fun e => !e.isDraw) calls r.2 ∧ r.1._currentY = sf._currentY ∧
        ∀ a b, setPos r.1 a b = setPos sf a b := by
  intro fuel
  induction fuel with
  | zero => intro str sf calls r h; simp [printClearLoop] at h
  | succ fuel ih =>
    intro str sf calls r h
    unfold printClearLoop at h
    cases hhead : str.head? with
    | none => simp [hhead] at h
    | some c =>
      simp only [hhead] at h
      by_cases hc : c % 256 = 0
      · simp only [hc, if_true, Option.some.injEq] at h
        subst h
        exact ⟨Extends.refl _ _, rfl, fun _ _ => rfl⟩
      · simp only [hc, if_false] at h
        cases hfind : findSymbol sf._font str with
        | none => simp [hfind] at h
        | some p =>
          obtain ⟨size, cur⟩ := p
          simp only [hfind] at h
          cases cur with
          | none => exact ih _ _ _ _ h
          | some sym =>
            simp only at h
            cases hclear : printClearGlyph sf font sym calls with
            | none => simp [hclear] at h
            | some calls1 =>
              simp only [hclear] at h
              obtain ⟨h1, h2, h3⟩ := ih _ _ _ _ h
              exact ⟨(printClearGlyph_extends _ _ _ _ _ hclear).trans h1, h2, h3⟩

theorem printDrawGlyph_extends (sf : Renderer) (prev : Option smart_font_symbol_t)
    (sym : smart_font_symbol_t) (next : Option smart_font_symbol_t)
    (calls calls' : List PixelCall) (h : printDrawGlyph sf prev sym next calls = some calls') :
    Extends PixelCall.isDraw calls calls' :=
  drawBitmap_extends _ _ _ _ _ _ h

theorem printOverflowCheck_eq (sf : Renderer) (sym : smart_font_symbol_t)
    (calls : List PixelCall) : printOverflowCheck sf sym calls = calls := by
  unfold printOverflowCheck; split <;> rfl

theorem printDrawLoop_frame :
    ∀ (fuel : Nat) (str : List Nat) (sf : Renderer) (next_size : Nat)
      (next_symbol prev_symbol : Option smart_font_symbol_t) (calls : List PixelCall)
      (r : Renderer × List PixelCall),
      printDrawLoop fuel str sf next_size next_symbol prev_symbol calls = some r →
      Extends PixelCall.isDraw calls r.2 ∧ r.1._currentY = sf._currentY ∧
        ∀ a b, setPos r.1 a b = setPos sf a b := by
  intro fuel
  induction fuel with
  | zero => intro str sf ns nsym prev calls r h; simp [printDrawLoop] at h
  | succ fuel ih =>
    intro str sf ns nsym prev calls r h
    unfold printDrawLoop at h
    cases hhead : str.head? with
    | none => simp [hhead] at h
    | some c =>
      simp only [hhead] at h
      by_cases hc : c % 256 = 0
      · simp only [hc, if_true, Option.some.injEq] at h
        subst h
        exact ⟨Extends.refl _ _, rfl, fun _ _ => rfl⟩
      · simp only [hc, if_false] at h
        cases hcur : printCurrentSymbol sf str ns nsym with
        | none => simp [hcur] at h
        | some p =>
          obtain ⟨size, cur⟩ := p
          simp only [hcur] at h
          cases cur with
          | none => exact ih _ _ _ _ _ _ _ h
          | some sym =>
            simp only [printOverflowCheck_eq] at h
            cases hnext : findSymbol sf._font (List.drop size str) with
            | none => simp [hnext] at h
            | some q =>
              obtain ⟨ns1, nsym1⟩ := q
              simp only [hnext] at h
              cases hdraw : printDrawGlyph sf prev sym nsym1 calls with
              | none => simp [hdraw] at h
              | some calls1 =>
                simp only [hdraw] at h
                obtain ⟨h1, h2, h3⟩ := ih _ _ _ _ _ _ _ h
                exact ⟨(printDrawGlyph_extends _ _ _ _ _ _ hdraw).trans h1, h2, h3⟩

theorem mem_paint_clears (cl : List PixelCall) (hcl : ∀ e ∈ cl, (!e.isDraw) = true) :
    ∀ (S : Finset (Int × Int)) (q : Int × Int),
      q ∈ paint cl S ↔ q ∈ S ∧ PixelCall.clear q.1 q.2 ∉ cl := by
  induction cl with
  | nil => intro S q; simp [paint]
  | cons e cl ih =>
    intro S q
    have he := hcl e (List.mem_cons_self _ _)
    have ih' := ih (fun x hx => hcl x (List.mem_cons_of_mem _ hx))
    cases e with
    | draw x y => simp [PixelCall.isDraw] at he
    | clear x y =>
      have : paint (PixelCall.clear x y :: cl) S = paint cl (S.erase (x, y)) := rfl
      rw [this, ih']
      simp only [Finset.mem_erase, List.mem_cons, PixelCall.clear.injEq, not_or, ne_eq]
      constructor
      · rintro ⟨⟨h1, h2⟩, h3⟩
        refine ⟨h2, ?_, h3⟩
        rintro ⟨hx, hy⟩
        exact h1 (Prod.ext hx hy)
      · rintro ⟨h2, h1, h3⟩
        refine ⟨⟨?_, h2⟩, h3⟩
        intro hq
        exact h1 ⟨congrArg Prod.fst hq, congrArg Prod.snd hq⟩

theorem mem_paint_draws (dr : List PixelCall) (hdr : ∀ e ∈ dr, e.isDraw = true) :
    ∀ (S : Finset (Int × Int)) (q : Int × Int),
      q ∈ paint dr S ↔ q ∈ S ∨ PixelCall.draw q.1 q.2 ∈ dr := by
  induction dr with
  | nil => intro S q; simp [paint]
  | cons e dr ih =>
    intro S q
    have he := hdr e (List.mem_cons_self _ _)
    have ih' := ih (fun x hx => hdr x (List.mem_cons_of_mem _ hx))
    cases e with
    | clear x y => simp [PixelCall.isDraw] at he
    | draw x y =>
      have : paint (PixelCall.draw x y :: dr) S = paint dr (insert (x, y) S) := rfl
      rw [this, ih']
      simp only [Finset.mem_insert, List.mem_cons, PixelCall.draw.injEq]
      constructor
      · rintro (⟨h | h⟩ | h)
        · exact Or.inr (Or.inl ⟨congrArg Prod.fst h, congrArg Prod.snd h⟩)
        · exact Or.inl h
        · exact Or.inr (Or.inr h)
      · rintro (h | ⟨hx, hy⟩ | h)
        · exact Or.inl (Or.inr h)
        · exact Or.inl (Or.inl (Prod.ext hx hy))
        · exact Or.inr h

theorem paint_append (a b : List PixelCall) (S : Finset (Int × Int)) :
    paint (a ++ b) S = paint b (paint a S) := by
  simp [paint, List.foldl_append]

theorem paint_erase_draw_idem (cl dr : List PixelCall)
    (hcl : ∀ e ∈ cl, (!e.isDraw) = true) (hdr : ∀ e ∈ dr, e.isDraw = true)
    (S : Finset (Int × Int)) :
    paint (cl ++ dr) (paint (cl ++ dr) S) = paint (cl ++ dr) S := by
  ext q
  simp only [paint_append, mem_paint_draws dr hdr, mem_paint_clears cl hcl]
  tauto

theorem print_frame (sf : Renderer) (str : List Nat) (r : Renderer × List PixelCall)
    (h : print sf str = some r) :
    (∃ cl dr, r.2 = cl ++ dr ∧ (∀ e ∈ cl, (!e.isDraw) = true) ∧ (∀ e ∈ dr, e.isDraw = true)) ∧
    r.1._currentY = sf._currentY ∧ ∀ a b, setPos r.1 a b = setPos sf a b := by
  unfold print at h
  cases hfont : sf._font with
  | none =>
    simp only [hfont, Option.some.injEq] at h
    subst h
    exact ⟨⟨[], [], rfl, by simp, by simp⟩, rfl, fun _ _ => rfl⟩
  | some font =>
    simp only [hfont] at h
    cases hpass1 : printClearLoop font (str.length + 1) str sf [] with
    | none => simp [hpass1] at h
    | some r1 =>
      obtain ⟨sf1, calls1⟩ := r1
      simp only [hpass1] at h
      obtain ⟨⟨cl, hcl, hcl'⟩, _, hset1⟩ := printClearLoop_frame _ _ _ _ _ _ hpass1
      obtain ⟨⟨dr, hdr, hdr'⟩, hy2, hset2⟩ := printDrawLoop_frame _ _ _ _ _ _ _ _ h
      simp only [List.nil_append] at hcl
      refine ⟨⟨cl, dr, by rw [hdr, hcl], hcl', hdr'⟩, hy2, ?_⟩
      intro a b
      rw [hset2 a b]
      exact hset1 a b

/-! ## Text renderer: pen position -/

theorem resolvedGlyphs_cons_none (font : Option smart_font_info_t) (c : List Nat)
    (cs : List (List Nat)) (h : findSymbolSearch font (charCode c) = none) :
    resolvedGlyphs font (c :: cs) = resolvedGlyphs font cs := by
  simp [resolvedGlyphs, List.filterMap_cons, h]

theorem resolvedGlyphs_cons_some (font : Option smart_font_info_t) (c : List Nat)
    (cs : List (List Nat)) (g : smart_font_symbol_t)
    (h : findSymbolSearch font (charCode c) = some g) :
    resolvedGlyphs font (c :: cs) = g :: resolvedGlyphs font cs := by
  simp [resolvedGlyphs, List.filterMap_cons, h]

theorem resolvedGlyphs_none (chars : List (List Nat)) : resolvedGlyphs none chars = [] := by
  induction chars with
  | nil => rfl
  | cons c cs ih => rw [resolvedGlyphs_cons_none none c cs rfl, ih]

theorem printDrawLoop_pen (rest : List Nat) :
    ∀ (chars : List (List Nat)) (fuel : Nat) (sf : Renderer) (next_size : Nat)
      (next_symbol prev_symbol : Option smart_font_symbol_t) (calls : List PixelCall)
      (r : Renderer × List PixelCall),
      (∀ c ∈ chars, IsChar c) →
      (next_symbol = none ∨
        findSymbol sf._font (cstring chars rest) = some (next_size, next_symbol)) →
      printDrawLoop fuel (cstring chars rest) sf next_size next_symbol prev_symbol calls
        = some r →
      r.1._currentX = penAfter sf._currentX (resolvedGlyphs sf._font chars) := by
  intro chars
  induction chars with
  | nil =>
    intro fuel sf ns nsym prev calls r _ _ h
    cases fuel with
    | zero => simp [printDrawLoop] at h
    | succ fuel =>
      simp only [printDrawLoop, cstring_nil, List.head?_cons, Nat.zero_mod, if_true,
        Option.some.injEq] at h
      subst h
      simp [penAfter, resolvedGlyphs]
  | cons c cs ih =>
    intro fuel sf ns nsym prev calls r hchars hinv h
    have hc := hchars c (List.mem_cons_self _ _)
    have hcs : ∀ x ∈ cs, IsChar x := fun x hx => hchars x (List.mem_cons_of_mem _ hx)
    obtain ⟨b, hhead, hb⟩ := isChar_head hc (cstring cs rest)
    have hfind := findSymbol_char sf._font c (cstring cs rest) hc
    rw [cstring_cons] at h hinv
    have hcur : printCurrentSymbol sf (c ++ cstring cs rest) ns nsym
        = some (c.length, findSymbolSearch sf._font (charCode c)) := by
      unfold printCurrentSymbol
      cases nsym with
      | none => exact hfind
      | some n =>
        rcases hinv with h0 | h0
        · simp at h0
        · rw [hfind] at h0
          simp only [Option.some.injEq, Prod.mk.injEq] at h0
          simp only [Option.some.injEq, Prod.mk.injEq]
          exact ⟨h0.1.symm, h0.2.symm⟩
    cases fuel with
    | zero => simp [printDrawLoop] at h
    | succ fuel =>
      unfold printDrawLoop at h
      simp only [hhead, hb, if_false, hcur, List.drop_left] at h
      cases hsearch : findSymbolSearch sf._font (charCode c) with
      | none =>
        simp only [hsearch] at h
        have hnone : nsym = none := by
          cases nsym with
          | none => rfl
          | some n =>
            rcases hinv with h0 | h0
            · exact h0
            · rw [hfind, hsearch] at h0
              simp at h0
        rw [resolvedGlyphs_cons_none _ _ _ hsearch]
        exact ih fuel sf ns nsym prev calls r hcs (Or.inl hnone) h
      | some g =>
        simp only [hsearch, printOverflowCheck_eq] at h
        cases hnext : findSymbol sf._font (cstring cs rest) with
        | none => simp [hnext] at h
        | some q =>
          obtain ⟨ns1, nsym1⟩ := q
          simp only [hnext] at h
          cases hdraw : printDrawGlyph sf prev g nsym1 calls with
          | none => simp [hdraw] at h
          | some calls1 =>
            simp only [hdraw] at h
            rw [resolvedGlyphs_cons_some _ _ _ _ hsearch]
            have := ih fuel { sf with _currentX := toInt16 (sf._currentX + g.cur_dist) } ns1 nsym1
              (some g) calls1 r hcs (Or.inr hnext) h
            rw [this]
            rfl

theorem penAfter_eq (x : Int) (gs : List smart_font_symbol_t)
    (h1 : -32768 ≤ x) (h2 : x ≤ 32767) :
    penAfter x gs = toInt16 (x + ((gs.map (fun g => g.cur_dist)).sum : Nat)) := by
  have h := foldl_toInt16 gs x
  rw [← h]
  unfold penAfter
  cases gs using List.reverseRecOn with
  | nil => simp only [List.foldl_nil]; unfold toInt16; omega
  | append_singleton gs g =>
    simp only [List.foldl_append, List.foldl_cons, List.foldl_nil]
    unfold toInt16; omega

/-! ## Stacking classifier and vertical placement -/

theorem toInt16_add_right (a b : Int) : toInt16 (a + toInt16 b) = toInt16 (a + b) := by
  unfold toInt16; omega

/-- C8, as stated, fails: with the pen at row 32767 and a mark of `offset_y = 1` after a
glyph of the first overhead tier, `shouldPadding` is true, `penY + offset_y` is 32768,
and the blit starts at row -32768, where its one lit pixel is drawn; printing the two
characters U+0E31 U+0E48 from that pen position makes exactly this one call. -/
theorem stacking_collapse_counterexample :
    isOverheadLv1 demoLv1 = true ∧ isOverheadLv2 lowMark = true ∧
    shouldPadding (some demoLv1) (some lowMark) none = true ∧
    edgeRenderer._currentY + lowMark.offset_y = 32768 ∧
    printDrawGlyph edgeRenderer (some demoLv1) lowMark none []
      = drawBitmap true 0 (-32768) lowMark.bitmap [] ∧
    printDrawGlyph edgeRenderer (some demoLv1) lowMark none []
      = some [PixelCall.draw 0 (-32768)] ∧
    (print edgeRenderer (cstring [[0xe0, 0xb8, 0xb1], [0xe0, 0xb9, 0x88]] [])).map
      (fun r => r.2) = some [PixelCall.draw 0 (-32768)] := by
  decide

/-- C8, amended. For every `prev` of the first overhead tier, every `curr` of the second
and `next` absent, `shouldPadding` returns true, and the draw pass of `print` blits the
bitmap of `curr` at the vertical origin `penY + curr.offset_y` converted to `int16_t`,
the bitmap height not added; that origin is `penY + curr.offset_y` itself whenever
this sum is an `int16_t` value. -/
theorem stacking_collapse (sf : Renderer) (prev curr : smart_font_symbol_t)
    (calls : List PixelCall)
    (hprev : isOverheadLv1 prev = true) (hcurr : isOverheadLv2 curr = true) :
    shouldPadding (some prev) (some curr) none = true ∧
    printOffsetY (some prev) curr none = curr.offset_y ∧
    printDrawGlyph sf (some prev) curr none calls
      = drawBitmap sf._drawPixel (toInt16 (sf._currentX + curr.offset_x))
          (toInt16 (sf._currentY + curr.offset_y)) curr.bitmap calls ∧
    (-32768 ≤ sf._currentY + curr.offset_y → sf._currentY + curr.offset_y ≤ 32767 →
      toInt16 (sf._currentY + curr.offset_y) = sf._currentY + curr.offset_y) := by
  have h1 : shouldPadding (some prev) (some curr) none = true := by
    simp [shouldPadding, hprev, hcurr]
  have h2 : printOffsetY (some prev) curr none = curr.offset_y := by
    simp [printOffsetY, hcurr, h1]
  refine ⟨h1, h2, ?_, fun ha hb => toInt16_of_range _ ha hb⟩
  simp only [printDrawGlyph, h2]

theorem stacking_collapse_witness :
    shouldPadding (some demoLv1) (some lowMark) none = true ∧
    printOffsetY (some demoLv1) lowMark none = lowMark.offset_y ∧
    printDrawGlyph demoRenderer (some demoLv1) lowMark none []
      = drawBitmap demoRenderer._drawPixel (toInt16 (demoRenderer._currentX + lowMark.offset_x))
          (toInt16 (demoRenderer._currentY + lowMark.offset_y)) lowMark.bitmap [] ∧
    (-32768 ≤ demoRenderer._currentY + lowMark.offset_y →
      demoRenderer._currentY + lowMark.offset_y ≤ 32767 →
      toInt16 (demoRenderer._currentY + lowMark.offset_y)
        = demoRenderer._currentY + lowMark.offset_y) :=
  stacking_collapse demoRenderer demoLv1 lowMark [] (by decide) (by decide)

/-- C9, as stated, fails: with the pen at row 32767, no previous glyph and a mark of
`offset_y = 0` and bitmap height 1, `shouldPadding` is false,
`penY + offset_y + height` is 32768, and the blit starts at row -32768, where its one
lit pixel is drawn; printing the one character U+0E48 from that pen position makes
exactly this one call. -/
theorem stacking_lift_counterexample :
    isOverheadLv2 flatMark = true ∧
    shouldPadding none (some flatMark) none = false ∧
    edgeRendererFlat._currentY + flatMark.offset_y + flatMark.bitmap.height = 32768 ∧
    printDrawGlyph edgeRendererFlat none flatMark none []
      = drawBitmap true 0 (-32768) flatMark.bitmap [] ∧
    printDrawGlyph edgeRendererFlat none flatMark none []
      = some [PixelCall.draw 0 (-32768)] ∧
    (print edgeRendererFlat (cstring [[0xe0, 0xb9, 0x88]] [])).map
      (fun r => r.2) = some [PixelCall.draw 0 (-32768)] := by
  decide

/-- C9, amended. With `prev` absent, for every `curr` of the second overhead tier and every
`next`, absent or present, that is not in the placeholder set, `shouldPadding` returns
false, and the draw pass of `print` blits the bitmap of `curr` at the vertical origin
`penY + curr.offset_y + curr.bitmap.height` converted to `int16_t`; that origin is the
sum itself whenever `curr.offset_y + curr.bitmap.height` and the whole sum are
`int16_t` values. -/
theorem stacking_lift (sf : Renderer) (curr : smart_font_symbol_t)
    (next : Option smart_font_symbol_t) (calls : List PixelCall)
    (hcurr : isOverheadLv2 curr = true)
    (hnext : ∀ n, next = some n → isPadding n = false) :
    shouldPadding none (some curr) next = false ∧
    printDrawGlyph sf none curr next calls
      = drawBitmap sf._drawPixel (toInt16 (sf._currentX + curr.offset_x))
          (toInt16 (sf._currentY + curr.offset_y + curr.bitmap.height)) curr.bitmap calls ∧
    (-32768 ≤ sf._currentY + curr.offset_y + curr.bitmap.height →
      sf._currentY + curr.offset_y + curr.bitmap.height ≤ 32767 →
      toInt16 (sf._currentY + curr.offset_y + curr.bitmap.height)
        = sf._currentY + curr.offset_y + curr.bitmap.height) := by
  have h1 : shouldPadding none (some curr) next = false := by
    cases next <;> simp [shouldPadding]
  have h2 : printOffsetY none curr next = toInt16 (curr.offset_y + curr.bitmap.height) := by
    simp [printOffsetY, hcurr, h1]
  refine ⟨h1, ?_, fun ha hb => toInt16_of_range _ ha hb⟩
  simp only [printDrawGlyph, h2, toInt16_add_right, add_assoc]

theorem stacking_lift_witness :
    shouldPadding none (some flatMark) (some demoLv1) = false ∧
    printDrawGlyph demoRenderer none flatMark (some demoLv1) []
      = drawBitmap demoRenderer._drawPixel
          (toInt16 (demoRenderer._currentX + flatMark.offset_x))
          (toInt16 (demoRenderer._currentY + flatMark.offset_y + flatMark.bitmap.height))
          flatMark.bitmap [] ∧
    (-32768 ≤ demoRenderer._currentY + flatMark.offset_y + flatMark.bitmap.height →
      demoRenderer._currentY + flatMark.offset_y + flatMark.bitmap.height ≤ 32767 →
      toInt16 (demoRenderer._currentY + flatMark.offset_y + flatMark.bitmap.height)
        = demoRenderer._currentY + flatMark.offset_y + flatMark.bitmap.height) :=
  stacking_lift demoRenderer flatMark (some demoLv1) [] (by decide) (by decide)

/-- C10, as stated, fails: with `prev` absent, `curr` the tone mark U+0E48 of the second
overhead tier and `next` the vowel U+0E33 of the placeholder set, `shouldPadding`
returns false. -/
theorem shouldPadding_rule_counterexample :
    isOverheadLv2 flatMark = true ∧ isPadding demoPadding = true ∧
    shouldPadding none (some flatMark) (some demoPadding) = false := by
  decide

/-- C10, amended. For every `prev` that exists, every `curr` and every optional `next`, if
`curr` is in the second overhead tier and `prev` is in the first overhead tier or `next`
exists and is in the placeholder set, then `shouldPadding` returns true. -/
theorem shouldPadding_rule (prev curr : smart_font_symbol_t)
    (next : Option smart_font_symbol_t) (hcurr : isOverheadLv2 curr = true)
    (h : isOverheadLv1 prev = true ∨ ∃ n, next = some n ∧ isPadding n = true) :
    shouldPadding (some prev) (some curr) next = true := by
  rcases h with h | ⟨n, rfl, hn⟩
  · cases next <;> simp [shouldPadding, hcurr, h]
  · simp [shouldPadding, hcurr, hn]

theorem shouldPadding_rule_witness :
    shouldPadding (some demoPadding) (some flatMark) (some demoPadding) = true :=
  shouldPadding_rule demoPadding flatMark (some demoPadding) (by decide)
    (Or.inr ⟨demoPadding, rfl, by decide⟩)

/-! ## Bitmap blitter -/

theorem forInt16_eq_iterRange {σ : Type} (body : Int → σ → Option σ) (bound : Int)
    (hbound : bound ≤ 32767) :
    ∀ (n fuel : Nat) (v : Int) (st : σ), -32768 ≤ v → (bound - v).toNat = n → n ≤ fuel →
      forInt16 body bound fuel v st = iterRange body n v st := by
  intro n
  induction n with
  | zero =>
    intro fuel v st _ hn _
    have hv : ¬ v < bound := by omega
    cases fuel <;> simp [forInt16, iterRange, hv]
  | succ n ih =>
    intro fuel v st hv hn hfuel
    obtain ⟨fuel, rfl⟩ : ∃ f, fuel = f + 1 := ⟨fuel - 1, by omega⟩
    have hlt : v < bound := by omega
    have hnext : toInt16 (v + 1) = v + 1 := toInt16_of_range _ (by omega) (by omega)
    simp only [forInt16, iterRange, hlt, if_true, hnext]
    cases body v st with
    | none => rfl
    | some st' => exact ih fuel (v + 1) st' (by omega) (by omega) (by omega)

set_option maxRecDepth 100000 in
theorem and_shift_testBit :
    ∀ m < 256, ∀ k < 8, (m &&& (1 <<< k) > 0) = (m.testBit k = true) := by
  decide

theorem drawBitmapPixel_at (drawCb : Bool) (data : List Nat) (y x : Int) (p : Nat)
    (calls : List PixelCall) (hp : p < 8 * data.length) :
    drawBitmapPixel drawCb data y x (blitAt p calls)
      = some (blitAt (p + 1)
          (calls ++ if drawCb then (if streamBit data p then [PixelCall.draw x y] else [])
            else [])) := by
  have hidx : p / 8 < data.length := by omega
  have hbit := and_shift_testBit (data[p / 8] % 256) (Nat.mod_lt _ (by norm_num))
    (7 - p % 8) (by omega)
  have hsb : streamBit data p = (data[p / 8] % 256).testBit (7 - p % 8) := by
    simp [streamBit, List.getD_eq_getElem?_getD, List.getElem?_eq_getElem hidx]
  simp only [drawBitmapPixel, blitAt, List.getElem?_eq_getElem hidx, hbit, hsb]
  by_cases hlast : p % 8 = 7
  · have h1 : ¬ (7 - p % 8 > 0) := by omega
    have h2 : 7 - (p + 1) % 8 = 7 := by omega
    have h3 : (p + 1) / 8 = p / 8 + 1 := by omega
    simp only [h1, if_false, h2, h3]
    cases (data[p / 8] % 256).testBit (7 - p % 8) <;> cases drawCb <;> simp
  · have h1 : 7 - p % 8 > 0 := by omega
    have h2 : 7 - (p + 1) % 8 = 7 - p % 8 - 1 := by omega
    have h3 : (p + 1) / 8 = p / 8 := by omega
    simp only [h1, if_true, h2, h3]
    cases (data[p / 8] % 256).testBit (7 - p % 8) <;> cases drawCb <;> simp

theorem rowCalls_succ (data : List Nat) (x y : Int) (p n : Nat) :
    rowCalls data x y p (n + 1)
      = (if streamBit data p then [PixelCall.draw x y] else [])
        ++ rowCalls data (x + 1) y (p + 1) n := by
  have hfun : ((fun i : Nat =>
        if streamBit data (p + i) then some (PixelCall.draw (x + i) y) else none) ∘ Nat.succ)
      = (fun i : Nat =>
        if streamBit data (p + 1 + i) then some (PixelCall.draw (x + 1 + i) y) else none) := by
    funext i
    simp only [Function.comp, Nat.succ_eq_add_one]
    have h1 : p + (i + 1) = p + 1 + i := by omega
    have h2 : x + ((i + 1 : Nat) : Int) = x + 1 + (i : Int) := by push_cast; ring
    rw [h1, h2]
  simp only [rowCalls, List.range_succ_eq_map, List.filterMap_cons, List.filterMap_map, hfun,
    Nat.add_zero, Nat.cast_zero, add_zero]
  cases hbit : streamBit data p <;> simp

theorem iterRange_row (drawCb : Bool) (data : List Nat) (y : Int) :
    ∀ (n : Nat) (x : Int) (p : Nat) (calls : List PixelCall), p + n ≤ 8 * data.length →
      iterRange (drawBitmapPixel drawCb data y) n x (blitAt p calls)
        = some (blitAt (p + n) (calls ++ if drawCb then rowCalls data x y p n else [])) := by
  intro n
  induction n with
  | zero => intro x p calls _; simp [iterRange, rowCalls]
  | succ n ih =>
    intro x p calls hp
    simp only [iterRange, drawBitmapPixel_at drawCb data y x p calls (by omega)]
    rw [ih (x + 1) (p + 1) _ (by omega), rowCalls_succ, List.append_assoc]
    have hp1 : p + 1 + n = p + (n + 1) := by omega
    rw [hp1]
    cases drawCb <;> simp

theorem range_succ_flatMap {β : Type} (f : Nat → List β) (m : Nat) :
    (List.range (m + 1)).flatMap f = f 0 ++ (List.range m).flatMap (fun r => f (r + 1)) := by
  rw [List.range_succ_eq_map, List.flatMap_cons]
  congr 1
  induction (List.range m) with
  | nil => rfl
  | cons a l ih => simp only [List.map_cons, List.flatMap_cons, ih, Nat.succ_eq_add_one]

theorem iterRange_rows (drawCb : Bool) (data : List Nat) (x : Int) (w : Nat)
    (hx : -32768 ≤ x) (hxw : x + w ≤ 32767) :
    ∀ (m : Nat) (y : Int) (p : Nat) (calls : List PixelCall), p + m * w ≤ 8 * data.length →
      iterRange
          (fun current_y st =>
            forInt16 (drawBitmapPixel drawCb data current_y) (x + w) 65536 x st)
          m y (blitAt p calls)
        = some (blitAt (p + m * w)
            (calls ++ if drawCb then (List.range m).flatMap
              (fun r => rowCalls data x (y + r) (p + r * w) w) else [])) := by
  intro m
  induction m with
  | zero => intro y p calls _; simp [iterRange]
  | succ m ih =>
    intro y p calls hp
    have hrow : p + w ≤ 8 * data.length := by
      have : p + (m * w + w) ≤ 8 * data.length := by rw [← Nat.succ_mul]; exact hp
      omega
    have hp1 : p + w + m * w ≤ 8 * data.length := by
      have : p + (m * w + w) ≤ 8 * data.length := by rw [← Nat.succ_mul]; exact hp
      omega
    simp only [iterRange]
    rw [forInt16_eq_iterRange _ _ hxw w 65536 x _ hx (by omega) (by omega),
      iterRange_row drawCb data y w x p calls hrow]
    simp only []
    rw [ih (y + 1) (p + w) _ hp1, range_succ_flatMap, List.append_assoc]
    have hfun : (fun r : Nat => rowCalls data x (y + 1 + (r : Int)) (p + w + r * w) w)
        = (fun r : Nat => rowCalls data x (y + ((r + 1 : Nat) : Int)) (p + (r + 1) * w) w) := by
      funext r
      have h1 : y + 1 + (r : Int) = y + ((r + 1 : Nat) : Int) := by push_cast; ring
      have h2 : p + w + r * w = p + (r + 1) * w := by rw [Nat.succ_mul]; omega
      rw [h1, h2]
    rw [hfun]
    have hend : p + w + m * w = p + (m + 1) * w := by rw [Nat.succ_mul]; omega
    rw [hend]
    cases drawCb <;> simp

theorem drawBitmap_eq_blitCalls (drawCb : Bool) (x y : Int) (bitmap : smart_font_bitmap_t)
    (calls : List PixelCall) (hx : -32768 ≤ x) (hy : -32768 ≤ y)
    (hxw : x + bitmap.width ≤ 32767) (hyh : y + bitmap.height ≤ 32767)
    (hdata : bitmap.width * bitmap.height ≤ 8 * bitmap.data.length) :
    drawBitmap drawCb x y bitmap calls
      = some (calls ++ if drawCb then
          blitCalls bitmap.data x y bitmap.width bitmap.height else []) := by
  have hinit : ({ current_bit := 7, data_ptr := 0, calls := calls } : BlitState)
      = blitAt 0 calls := rfl
  have hrows := iterRange_rows drawCb bitmap.data x bitmap.width hx hxw bitmap.height y 0 calls
    (by rw [Nat.zero_add, Nat.mul_comm]; exact hdata)
  simp only [drawBitmap, hinit]
  rw [forInt16_eq_iterRange _ _ hyh bitmap.height 65536 y _ hy (by omega) (by omega), hrows]
  simp [blitAt, blitCalls]

theorem mem_rowCalls (data : List Nat) (x y : Int) (p n : Nat) (e : PixelCall) :
    e ∈ rowCalls data x y p n
      ↔ ∃ c, c < n ∧ streamBit data (p + c) = true ∧ e = PixelCall.draw (x + c) y := by
  simp only [rowCalls, List.mem_filterMap, List.mem_range]
  constructor
  · rintro ⟨c, hc, h⟩
    by_cases hbit : streamBit data (p + c) = true
    · simp only [hbit, if_true, Option.some.injEq] at h
      exact ⟨c, hc, hbit, h.symm⟩
    · simp [hbit] at h
  · rintro ⟨c, hc, hbit, rfl⟩
    exact ⟨c, hc, by simp [hbit]⟩

theorem mem_blitCalls (data : List Nat) (x y : Int) (w h : Nat) (e : PixelCall) :
    e ∈ blitCalls data x y w h
      ↔ ∃ r c, r < h ∧ c < w ∧ streamBit data (r * w + c) = true ∧
          e = PixelCall.draw (x + c) (y + r) := by
  simp only [blitCalls, List.mem_flatMap, List.mem_range, mem_rowCalls]
  constructor
  · rintro ⟨r, hr, c, hc, hbit, rfl⟩
    exact ⟨r, c, hr, hc, hbit, rfl⟩
  · rintro ⟨r, c, hr, hc, hbit, rfl⟩
    exact ⟨r, hr, c, hc, hbit, rfl⟩

theorem pairwise_rowCalls (data : List Nat) (x y : Int) (p n : Nat) :
    (rowCalls data x y p n).Pairwise rowMajorBefore := by
  unfold rowCalls
  rw [List.pairwise_filterMap]
  refine (List.pairwise_lt_range n).imp ?_
  intro a b hab e he e' he'
  by_cases h1 : streamBit data (p + a) = true
  · by_cases h2 : streamBit data (p + b) = true
    · simp only [h1, h2, if_true, Option.mem_def, Option.some.injEq] at he he'
      subst he he'
      right
      exact ⟨rfl, by simp only [PixelCall.x]; omega⟩
    · simp [h2] at he'
  · simp [h1] at he

theorem pairwise_blitCalls (data : List Nat) (x y : Int) (w h : Nat) :
    (blitCalls data x y w h).Pairwise rowMajorBefore := by
  unfold blitCalls
  rw [List.pairwise_flatMap]
  refine ⟨fun r _ => pairwise_rowCalls _ _ _ _ _, ?_⟩
  refine (List.pairwise_lt_range h).imp ?_
  intro a b hab e he e' he'
  obtain ⟨c, _, _, rfl⟩ := (mem_rowCalls _ _ _ _ _ _).mp he
  obtain ⟨c', _, _, rfl⟩ := (mem_rowCalls _ _ _ _ _ _).mp he'
  left
  simp only [PixelCall.y]
  omega

theorem rowMajorBefore_irrefl (a : PixelCall) : ¬ rowMajorBefore a a := by
  unfold rowMajorBefore; omega

theorem nodup_of_pairwise_rowMajor (l : List PixelCall) (h : l.Pairwise rowMajorBefore) :
    l.Nodup := by
  refine h.imp ?_
  intro a b hab heq
  subst heq
  exact rowMajorBefore_irrefl a hab

/-- C7. With a draw callback set, for every bitmap of width `w` and height `h` whose data
holds the `w * h` bits, and every `int16_t` origin `(x, y)` with `x + w` and `y + h`
within the `int16_t` range, `drawBitmap` returns, and the `drawPixel` calls it makes
are, in row-major order, one call at `(x + c, y + r)` for exactly those `c < w`,
`r < h` whose bit `r * w + c` is set in the data read as one MSB-first bit stream:
every call lies in `[x, x + w) × [y, y + h)` and no coordinate is drawn twice.  In
particular the all-ones 8 by 8 bitmap at (0, 0) gives exactly 64 calls, one for each
pair of `[0, 8) × [0, 8)`, all distinct. -/
theorem drawBitmap_calls (x y : Int) (bitmap : smart_font_bitmap_t)
    (calls : List PixelCall) (hx : -32768 ≤ x) (hy : -32768 ≤ y)
    (hxw : x + bitmap.width ≤ 32767) (hyh : y + bitmap.height ≤ 32767)
    (hdata : bitmap.width * bitmap.height ≤ 8 * bitmap.data.length) :
    (∃ drawn, drawBitmap true x y bitmap calls = some (calls ++ drawn) ∧
      drawn = blitCalls bitmap.data x y bitmap.width bitmap.height ∧
      (∀ e ∈ drawn, e.isDraw = true ∧ x ≤ e.x ∧ e.x < x + bitmap.width ∧
        y ≤ e.y ∧ e.y < y + bitmap.height) ∧
      (∀ c r : Nat, c < bitmap.width → r < bitmap.height →
        (PixelCall.draw (x + c) (y + r) ∈ drawn
          ↔ streamBit bitmap.data (r * bitmap.width + c) = true)) ∧
      drawn.Pairwise rowMajorBefore ∧ drawn.Nodup) ∧
    (drawBitmap true 0 0 fullBitmap [] = some fullCalls ∧ fullCalls.length = 64 ∧
      fullCalls.Nodup ∧
      ∀ c r : Nat, c < 8 → r < 8 → PixelCall.draw c r ∈ fullCalls) := by
  constructor
  · have hdraw := drawBitmap_eq_blitCalls true x y bitmap calls hx hy hxw hyh hdata
    simp only [if_true] at hdraw
    refine ⟨_, hdraw, rfl, ?_, ?_,
      pairwise_blitCalls _ _ _ _ _, nodup_of_pairwise_rowMajor _ (pairwise_blitCalls _ _ _ _ _)⟩
    · intro e he
      obtain ⟨r, c, hr, hc, _, rfl⟩ := (mem_blitCalls _ _ _ _ _ _).mp he
      simp only [PixelCall.isDraw, PixelCall.x, PixelCall.y]
      refine ⟨trivial, ?_, ?_, ?_, ?_⟩ <;> omega
    · intro c r hc hr
      rw [mem_blitCalls]
      constructor
      · rintro ⟨r', c', _, _, hbit, heq⟩
        simp only [PixelCall.draw.injEq] at heq
        have h1 : c' = c := by omega
        have h2 : r' = r := by omega
        subst h1 h2
        exact hbit
      · intro hbit
        exact ⟨r, c, hr, hc, hbit, rfl⟩
  · have hfull := drawBitmap_eq_blitCalls true 0 0 fullBitmap [] (by decide) (by decide)
      (by decide) (by decide) (by decide)
    simp only [if_true] at hfull
    refine ⟨?_, by decide, by decide, ?_⟩
    · rw [hfull]; decide
    · intro c r hc hr
      simp only [fullCalls, List.mem_flatMap, List.mem_range, List.mem_map]
      exact ⟨r, hr, c, hc, rfl⟩

theorem drawBitmap_calls_witness :
    (∃ drawn, drawBitmap true 10 18 ⟨3, 2, [0xb4]⟩ [PixelCall.clear 10 18]
        = some ([PixelCall.clear 10 18] ++ drawn) ∧
      drawn = blitCalls (⟨3, 2, [0xb4]⟩ : smart_font_bitmap_t).data 10 18
        (⟨3, 2, [0xb4]⟩ : smart_font_bitmap_t).width
        (⟨3, 2, [0xb4]⟩ : smart_font_bitmap_t).height ∧
      (∀ e ∈ drawn, e.isDraw = true ∧ 10 ≤ e.x ∧
        e.x < 10 + (⟨3, 2, [0xb4]⟩ : smart_font_bitmap_t).width ∧
        18 ≤ e.y ∧ e.y < 18 + (⟨3, 2, [0xb4]⟩ : smart_font_bitmap_t).height) ∧
      (∀ c r : Nat, c < (⟨3, 2, [0xb4]⟩ : smart_font_bitmap_t).width →
        r < (⟨3, 2, [0xb4]⟩ : smart_font_bitmap_t).height →
        (PixelCall.draw (10 + c) (18 + r) ∈ drawn
          ↔ streamBit (⟨3, 2, [0xb4]⟩ : smart_font_bitmap_t).data
              (r * (⟨3, 2, [0xb4]⟩ : smart_font_bitmap_t).width + c) = true)) ∧
      drawn.Pairwise rowMajorBefore ∧ drawn.Nodup) ∧
    (drawBitmap true 0 0 fullBitmap [] = some fullCalls ∧ fullCalls.length = 64 ∧
      fullCalls.Nodup ∧
      ∀ c r : Nat, c < 8 → r < 8 → PixelCall.draw c r ∈ fullCalls) :=
  drawBitmap_calls 10 18 ⟨3, 2, [0xb4]⟩ [PixelCall.clear 10 18] (by decide) (by decide)
    (by decide) (by decide) (by decide)

/-! ## Text renderer: termination -/

theorem toInt16_ge (v : Int) : -32768 ≤ toInt16 v := by
  unfold toInt16; omega

theorem toInt16_le (v : Int) : toInt16 v ≤ 32767 := by
  unfold toInt16; omega

theorem iterRange_returns {σ : Type} (body : Int → σ → Option σ)
    (hbody : ∀ v st, ∃ st', body v st = some st') :
    ∀ (n : Nat) (v : Int) (st : σ), ∃ st', iterRange body n v st = some st' := by
  intro n
  induction n with
  | zero => intro v st; exact ⟨st, rfl⟩
  | succ n ih =>
    intro v st
    obtain ⟨st1, h1⟩ := hbody v st
    obtain ⟨st2, h2⟩ := ih (v + 1) st1
    exact ⟨st2, by simp only [iterRange, h1, h2]⟩

theorem forInt16_returns {σ : Type} (body : Int → σ → Option σ) (bound v : Int) (st : σ)
    (hbound : bound ≤ 32767) (hv : -32768 ≤ v)
    (hbody : ∀ v st, ∃ st', body v st = some st') :
    ∃ st', forInt16 body bound 65536 v st = some st' := by
  rw [forInt16_eq_iterRange body bound hbound (bound - v).toNat 65536 v st hv rfl (by omega)]
  exact iterRange_returns body hbody _ _ _

theorem printClearGlyph_returns (sf : Renderer) (font : smart_font_info_t)
    (g : smart_font_symbol_t) (calls : List PixelCall)
    (hy : sf._currentY ≤ 32767) (hfit : sf._currentX + g.cur_dist ≤ 32767) :
    ∃ calls', printClearGlyph sf font g calls = some calls' := by
  unfold printClearGlyph
  split
  · refine forInt16_returns _ _ _ _ hy (toInt16_ge _) ?_
    intro y c
    refine forInt16_returns _ _ _ _ hfit (toInt16_ge _) ?_
    intro x d
    exact ⟨_, rfl⟩
  · exact ⟨calls, rfl⟩

theorem printDrawGlyph_returns (sf : Renderer) (prev : Option smart_font_symbol_t)
    (g : smart_font_symbol_t) (next : Option smart_font_symbol_t) (calls : List PixelCall)
    (hfit : GlyphFits sf g) :
    ∃ calls', printDrawGlyph sf prev g next calls = some calls' := by
  obtain ⟨_, hw, hh1, hh2, hdata⟩ := hfit
  have hoff : printOffsetY prev g next = g.offset_y ∨
      printOffsetY prev g next = toInt16 (g.offset_y + g.bitmap.height) := by
    unfold printOffsetY
    split
    · split
      · exact Or.inl rfl
      · exact Or.inr rfl
    · exact Or.inl rfl
  unfold printDrawGlyph
  rcases hoff with h | h <;> rw [h]
  · exact ⟨_, drawBitmap_eq_blitCalls _ _ _ _ _ (toInt16_ge _) (toInt16_ge _) hw hh1 hdata⟩
  · exact ⟨_, drawBitmap_eq_blitCalls _ _ _ _ _ (toInt16_ge _) (toInt16_ge _) hw hh2 hdata⟩

theorem printClearLoop_returns (font : smart_font_info_t) (rest : List Nat) :
    ∀ (chars : List (List Nat)) (fuel : Nat) (sf : Renderer) (calls : List PixelCall),
      (∀ c ∈ chars, IsChar c) → chars.length < fuel → sf._currentY ≤ 32767 →
      Fits sf (resolvedGlyphs sf._font chars) →
      ∃ r, printClearLoop font fuel (cstring chars rest) sf calls = some r := by
  intro chars
  induction chars with
  | nil =>
    intro fuel sf calls _ hfuel _ _
    obtain ⟨fuel, rfl⟩ : ∃ f, fuel = f + 1 := ⟨fuel - 1, by simp at hfuel; omega⟩
    exact ⟨(sf, calls), by simp [printClearLoop, cstring_nil]⟩
  | cons c cs ih =>
    intro fuel sf calls hchars hfuel hy hfits
    obtain ⟨fuel, rfl⟩ : ∃ f, fuel = f + 1 := ⟨fuel - 1, by simp at hfuel; omega⟩
    have hc := hchars c (List.mem_cons_self _ _)
    have hcs : ∀ x ∈ cs, IsChar x := fun x hx => hchars x (List.mem_cons_of_mem _ hx)
    obtain ⟨b, hhead, hb⟩ := isChar_head hc (cstring cs rest)
    have hfuel1 : cs.length < fuel := by simp at hfuel; omega
    rw [cstring_cons, printClearLoop]
    simp only [hhead, hb, if_false, findSymbol_char sf._font c _ hc, List.drop_left]
    cases hsearch : findSymbolSearch sf._font (charCode c) with
    | none =>
      rw [resolvedGlyphs_cons_none _ _ _ hsearch] at hfits
      exact ih fuel sf calls hcs hfuel1 hy hfits
    | some g =>
      rw [resolvedGlyphs_cons_some _ _ _ _ hsearch] at hfits
      obtain ⟨hg, hrest⟩ := hfits
      obtain ⟨calls1, hclear⟩ := printClearGlyph_returns sf font g calls hy hg.1
      simp only [hclear]
      exact ih fuel _ calls1 hcs hfuel1 hy hrest

theorem findSymbol_cstring (font : Option smart_font_info_t) (rest : List Nat)
    (chars : List (List Nat)) (hchars : ∀ c ∈ chars, IsChar c) :
    ∃ q, findSymbol font (cstring chars rest) = some q := by
  cases chars with
  | nil =>
    rw [cstring_nil]
    exact ⟨(1, findSymbolSearch font 0), by simp [findSymbol, findSymbolDecode, isUtf8]⟩
  | cons c cs =>
    rw [cstring_cons]
    exact ⟨_, findSymbol_char font c _ (hchars c (List.mem_cons_self _ _))⟩

theorem printDrawLoop_returns (rest : List Nat) :
    ∀ (chars : List (List Nat)) (fuel : Nat) (sf : Renderer) (next_size : Nat)
      (next_symbol prev_symbol : Option smart_font_symbol_t) (calls : List PixelCall),
      (∀ c ∈ chars, IsChar c) → chars.length < fuel →
      (next_symbol = none ∨
        findSymbol sf._font (cstring chars rest) = some (next_size, next_symbol)) →
      Fits sf (resolvedGlyphs sf._font chars) →
      ∃ r, printDrawLoop fuel (cstring chars rest) sf next_size next_symbol prev_symbol calls
        = some r := by
  intro chars
  induction chars with
  | nil =>
    intro fuel sf ns nsym prev calls _ hfuel _ _
    obtain ⟨fuel, rfl⟩ : ∃ f, fuel = f + 1 := ⟨fuel - 1, by simp at hfuel; omega⟩
    exact ⟨(sf, calls), by simp [printDrawLoop, cstring_nil]⟩
  | cons c cs ih =>
    intro fuel sf ns nsym prev calls hchars hfuel hinv hfits
    obtain ⟨fuel, rfl⟩ : ∃ f, fuel = f + 1 := ⟨fuel - 1, by simp at hfuel; omega⟩
    have hc := hchars c (List.mem_cons_self _ _)
    have hcs : ∀ x ∈ cs, IsChar x := fun x hx => hchars x (List.mem_cons_of_mem _ hx)
    obtain ⟨b, hhead, hb⟩ := isChar_head hc (cstring cs rest)
    have hfuel1 : cs.length < fuel := by simp at hfuel; omega
    have hfind := findSymbol_char sf._font c (cstring cs rest) hc
    rw [cstring_cons] at hinv
    have hcur : printCurrentSymbol sf (c ++ cstring cs rest) ns nsym
        = some (c.length, findSymbolSearch sf._font (charCode c)) := by
      unfold printCurrentSymbol
      cases nsym with
      | none => exact hfind
      | some n =>
        rcases hinv with h0 | h0
        · simp at h0
        · rw [hfind] at h0
          simp only [Option.some.injEq, Prod.mk.injEq] at h0
          simp only [Option.some.injEq, Prod.mk.injEq]
          exact ⟨h0.1.symm, h0.2.symm⟩
    rw [cstring_cons, printDrawLoop]
    simp only [hhead, hb, if_false, hcur, List.drop_left]
    cases hsearch : findSymbolSearch sf._font (charCode c) with
    | none =>
      have hnone : nsym = none := by
        cases nsym with
        | none => rfl
        | some n =>
          rcases hinv with h0 | h0
          · exact h0
          · rw [hfind, hsearch] at h0
            simp at h0
      rw [resolvedGlyphs_cons_none _ _ _ hsearch] at hfits
      exact ih fuel sf ns nsym prev calls hcs hfuel1 (Or.inl hnone) hfits
    | some g =>
      rw [resolvedGlyphs_cons_some _ _ _ _ hsearch] at hfits
      obtain ⟨hg, hrest⟩ := hfits
      obtain ⟨q, hnext⟩ := findSymbol_cstring sf._font rest cs hcs
      obtain ⟨ns1, nsym1⟩ := q
      obtain ⟨calls1, hdraw⟩ := printDrawGlyph_returns sf prev g nsym1 calls hg
      simp only [printOverflowCheck_eq, hnext, hdraw]
      exact ih fuel { sf with _currentX := toInt16 (sf._currentX + g.cur_dist) } ns1 nsym1
        (some g) calls1 hcs hfuel1 (Or.inr hnext) hrest

/-- On a well-formed string `print` returns, provided the pen row is an `int16_t` value and
every resolved glyph fits at the pen position it is reached with: with `str.length + 1`
units of fuel both passes run to the terminating NUL. -/
theorem print_returns (sf : Renderer) (chars : List (List Nat)) (rest : List Nat)
    (hchars : ∀ c ∈ chars, IsChar c) (hy : sf._currentY ≤ 32767)
    (hfits : Fits sf (resolvedGlyphs sf._font chars)) :
    (print sf (cstring chars rest)).isSome = true := by
  have hfuel : chars.length < (cstring chars rest).length + 1 := by
    have := cstring_length chars rest hchars; omega
  unfold print
  cases hfont : sf._font with
  | none => rfl
  | some font =>
    obtain ⟨r1, hpass1⟩ := printClearLoop_returns font rest chars _ sf [] hchars hfuel hy hfits
    obtain ⟨sf1, calls1⟩ := r1
    obtain ⟨_, _, hset1⟩ := printClearLoop_frame _ _ _ _ _ _ hpass1
    have hback : ({ sf1 with _currentX := sf._currentX, _currentY := sf._currentY }
        : Renderer) = sf := hset1 sf._currentX sf._currentY
    obtain ⟨r2, hpass2⟩ := printDrawLoop_returns rest chars _ sf 0 none none calls1 hchars
      hfuel (Or.inl rfl) hfits
    simp only [hpass1, hback, hpass2, Option.isSome_some]

/-! ## Text renderer: what `print` leaves behind -/

/-- C5, as stated, fails: printing the string "A" from the pen position (10, 20) with
`demoFont` returns with the pen at (15, 20). -/
theorem print_pen_counterexample :
    (∀ c ∈ [[0x41]], IsChar c) ∧
    (demoRenderer._currentX, demoRenderer._currentY) = (10, 20) ∧
    (print demoRenderer (cstring [[0x41]] [])).map
      (fun r => (r.1._currentX, r.1._currentY)) = some (15, 20) := by
  decide

/-- C5, amended. For every renderer with the pen at an `int16_t` position `(x, y)` and
every well-formed string: `print` returns whenever every resolved glyph fits at the pen
position it is reached with; and whenever `print` returns, the pen Y is `y` and the pen
X is `x` plus the sum of the advances of the glyphs of the string that resolve in the
table, converted to `int16_t`; with no font set the pen stays at `(x, y)`. -/
theorem print_pen (sf : Renderer) (chars : List (List Nat)) (rest : List Nat)
    (hchars : ∀ c ∈ chars, IsChar c)
    (hx1 : -32768 ≤ sf._currentX) (hx2 : sf._currentX ≤ 32767)
    (hy : sf._currentY ≤ 32767) :
    (Fits sf (resolvedGlyphs sf._font chars) →
      (print sf (cstring chars rest)).isSome = true) ∧
    ∀ r, print sf (cstring chars rest) = some r →
      r.1._currentY = sf._currentY ∧
      r.1._currentX = toInt16 (sf._currentX + ((advanceSum sf._font chars : Nat) : Int)) ∧
      (sf._font = none → r.1._currentX = sf._currentX) := by
  refine ⟨print_returns sf chars rest hchars hy, ?_⟩
  intro r hr
  obtain ⟨_, hy, _⟩ := print_frame sf _ r hr
  have hX : r.1._currentX = penAfter sf._currentX (resolvedGlyphs sf._font chars) := by
    have hr1 := hr
    unfold print at hr1
    cases hfont : sf._font with
    | none =>
      simp only [hfont, Option.some.injEq] at hr1
      subst hr1
      simp [penAfter, resolvedGlyphs_none]
    | some font =>
      simp only [hfont] at hr1
      cases hpass1 : printClearLoop font ((cstring chars rest).length + 1)
          (cstring chars rest) sf [] with
      | none => simp [hpass1] at hr1
      | some r1 =>
        obtain ⟨sf1, calls1⟩ := r1
        simp only [hpass1] at hr1
        obtain ⟨_, _, hset1⟩ := printClearLoop_frame _ _ _ _ _ _ hpass1
        have hback : ({ sf1 with _currentX := sf._currentX, _currentY := sf._currentY }
            : Renderer) = sf := hset1 sf._currentX sf._currentY
        rw [hback] at hr1
        rw [← hfont]
        exact printDrawLoop_pen rest chars _ sf 0 none none calls1 r hchars (Or.inl rfl) hr1
  refine ⟨hy, ?_, ?_⟩
  · rw [hX, penAfter_eq _ _ hx1 hx2]; rfl
  · intro hfont
    rw [hX, hfont]
    simp [penAfter, resolvedGlyphs_none]

theorem print_pen_witness :
    (∀ c ∈ [[0x41], [0x42], [0xe0, 0xb8, 0xb3]], IsChar c) ∧
    Fits demoRenderer (resolvedGlyphs demoRenderer._font [[0x41], [0x42], [0xe0, 0xb8, 0xb3]]) ∧
    (Fits demoRenderer
        (resolvedGlyphs demoRenderer._font [[0x41], [0x42], [0xe0, 0xb8, 0xb3]]) →
      (print demoRenderer (cstring [[0x41], [0x42], [0xe0, 0xb8, 0xb3]] [0x41])).isSome
        = true) ∧
    ∀ r, print demoRenderer (cstring [[0x41], [0x42], [0xe0, 0xb8, 0xb3]] [0x41]) = some r →
      r.1._currentY = demoRenderer._currentY ∧
      r.1._currentX = toInt16 (demoRenderer._currentX +
        ((advanceSum demoRenderer._font [[0x41], [0x42], [0xe0, 0xb8, 0xb3]] : Nat) : Int)) ∧
      (demoRenderer._font = none → r.1._currentX = demoRenderer._currentX) :=
  ⟨by decide, by decide,
    print_pen demoRenderer [[0x41], [0x42], [0xe0, 0xb8, 0xb3]] [0x41] (by decide) (by decide)
      (by decide) (by decide)⟩

/-- C6. `print` is idempotent on the pixel surface. For every renderer, well-formed string
and initial surface: `print` returns whenever the pen row is an `int16_t` value and
every resolved glyph fits at the pen position it is reached with; and whenever `print`
returns from a pen position, resetting the pen to that position and printing the same
string again returns as well and leaves the set of lit pixels exactly as the first
call left it. -/
theorem print_idempotent (sf : Renderer) (chars : List (List Nat)) (rest : List Nat)
    (S : Finset (Int × Int)) (hchars : ∀ c ∈ chars, IsChar c) :
    (sf._currentY ≤ 32767 → Fits sf (resolvedGlyphs sf._font chars) →
      (print sf (cstring chars rest)).isSome = true) ∧
    ∀ r, print sf (cstring chars rest) = some r →
      ∃ r2, print (setPos r.1 sf._currentX sf._currentY) (cstring chars rest) = some r2 ∧
        paint r2.2 (paint r.2 S) = paint r.2 S := by
  refine ⟨fun hy hfits => print_returns sf chars rest hchars hy hfits, ?_⟩
  intro r hr
  obtain ⟨⟨cl, dr, hcalls, hcl, hdr⟩, _, hset⟩ := print_frame sf _ r hr
  have hback : setPos r.1 sf._currentX sf._currentY = sf := by
    rw [hset]; rfl
  refine ⟨r, by rw [hback]; exact hr, ?_⟩
  rw [hcalls]
  exact paint_erase_draw_idem cl dr hcl hdr S

theorem print_idempotent_witness :
    (∀ c ∈ [[0x41], [0xe0, 0xb8, 0xb1], [0xe0, 0xb9, 0x88]], IsChar c) ∧
    Fits demoRenderer (resolvedGlyphs demoRenderer._font
      [[0x41], [0xe0, 0xb8, 0xb1], [0xe0, 0xb9, 0x88]]) ∧
    (demoRenderer._currentY ≤ 32767 →
      Fits demoRenderer (resolvedGlyphs demoRenderer._font
        [[0x41], [0xe0, 0xb8, 0xb1], [0xe0, 0xb9, 0x88]]) →
      (print demoRenderer
        (cstring [[0x41], [0xe0, 0xb8, 0xb1], [0xe0, 0xb9, 0x88]] [])).isSome = true) ∧
    ∀ r, print demoRenderer (cstring [[0x41], [0xe0, 0xb8, 0xb1], [0xe0, 0xb9, 0x88]] [])
        = some r →
      ∃ r2, print (setPos r.1 demoRenderer._currentX demoRenderer._currentY)
          (cstring [[0x41], [0xe0, 0xb8, 0xb1], [0xe0, 0xb9, 0x88]] []) = some r2 ∧
        paint r2.2 (paint r.2 {(10, 18), (11, 18), (0, 0)})
          = paint r.2 {(10, 18), (11, 18), (0, 0)} :=
  ⟨by decide, by decide,
    print_idempotent demoRenderer [[0x41], [0xe0, 0xb8, 0xb1], [0xe0, 0xb9, 0x88]] []
      {(10, 18), (11, 18), (0, 0)} (by decide)⟩

/-! ## Stacking classifier: the suppression predicate -/

/-- C19. A mark with no preceding glyph is never collapsed: `shouldPadding` with `prev`
absent is false for every `curr` and every optional `next`; and `shouldPadding` is
true exactly when `prev` exists, `curr` is in the second overhead tier, and `prev` is in
the first overhead tier or `next` exists and is in the placeholder set.  Membership in
a tier is membership of the codepoint in the matching constant table. -/
theorem shouldPadding_iff :
    (∀ (curr : smart_font_symbol_t) (next : Option smart_font_symbol_t),
      shouldPadding none (some curr) next = false) ∧
    (∀ (prev : Option smart_font_symbol_t) (curr : smart_font_symbol_t)
        (next : Option smart_font_symbol_t),
      shouldPadding prev (some curr) next = true ↔
        ∃ p, prev = some p ∧ isOverheadLv2 curr = true ∧
          (isOverheadLv1 p = true ∨ ∃ n, next = some n ∧ isPadding n = true)) ∧
    (∀ s : smart_font_symbol_t,
      (isOverheadLv1 s = true ↔ s.utf8 ∈ overhead_lv1_symbol) ∧
      (isOverheadLv2 s = true ↔ s.utf8 ∈ overhead_lv2_symbol) ∧
      (isPadding s = true ↔ s.utf8 ∈ padding_symbol)) := by
  refine ⟨?_, ?_, ?_⟩
  · intro curr next
    cases next <;> rfl
  · intro prev curr next
    cases prev with
    | none => cases next <;> simp [shouldPadding]
    | some p =>
      cases next with
      | none => simp [shouldPadding]
      | some n => simp [shouldPadding]
  · intro s
    refine ⟨?_, ?_, ?_⟩
    · simp [isOverheadLv1, OVERHEAD_LV1_SYMBOL_LEN, overhead_lv1_symbol, List.range_succ]
      tauto
    · simp [isOverheadLv2, OVERHEAD_LV2_SYMBOL_LEN, overhead_lv2_symbol, List.range_succ]
      tauto
    · simp [isPadding, PADDING_SYMBOL_LEN, padding_symbol, List.range_succ]
      exact eq_comm

/-! ## Text renderer: resolution and the no-font state -/

theorem printClearLoop_setResolution (font : smart_font_info_t) (w h : Nat) :
    ∀ (fuel : Nat) (str : List Nat) (sf : Renderer) (calls : List PixelCall),
      printClearLoop font fuel str (setResolution sf w h) calls
        = (printClearLoop font fuel str sf calls).map
            (fun r => (setResolution r.1 w h, r.2)) := by
  intro fuel
  induction fuel with
  | zero => intro str sf calls; rfl
  | succ fuel ih =>
    intro str sf calls
    unfold printClearLoop
    cases hhead : str.head? with
    | none => rfl
    | some c =>
      by_cases hc : c % 256 = 0
      · simp only [hc, if_true, Option.map_some']
      · simp only [hc, if_false]
        have hf : (setResolution sf w h)._font = sf._font := rfl
        rw [hf]
        cases hfind : findSymbol sf._font str with
        | none => rfl
        | some p =>
          obtain ⟨size, cur⟩ := p
          cases cur with
          | none => exact ih _ _ _
          | some sym =>
            have hg : printClearGlyph (setResolution sf w h) font sym calls
                = printClearGlyph sf font sym calls := rfl
            simp only [hg]
            cases hclear : printClearGlyph sf font sym calls with
            | none => rfl
            | some calls1 =>
              exact ih _ { sf with _currentX := toInt16 (sf._currentX + sym.cur_dist) } _

theorem printDrawLoop_setResolution (w h : Nat) :
    ∀ (fuel : Nat) (str : List Nat) (sf : Renderer) (next_size : Nat)
      (next_symbol prev_symbol : Option smart_font_symbol_t) (calls : List PixelCall),
      printDrawLoop fuel str (setResolution sf w h) next_size next_symbol prev_symbol calls
        = (printDrawLoop fuel str sf next_size next_symbol prev_symbol calls).map
            (fun r => (setResolution r.1 w h, r.2)) := by
  intro fuel
  induction fuel with
  | zero => intro str sf ns nsym prev calls; rfl
  | succ fuel ih =>
    intro str sf ns nsym prev calls
    unfold printDrawLoop
    cases hhead : str.head? with
    | none => rfl
    | some c =>
      by_cases hc : c % 256 = 0
      · simp only [hc, if_true, Option.map_some']
      · simp only [hc, if_false]
        have hcur : printCurrentSymbol (setResolution sf w h) str ns nsym
            = printCurrentSymbol sf str ns nsym := rfl
        rw [hcur]
        cases hsel : printCurrentSymbol sf str ns nsym with
        | none => rfl
        | some p =>
          obtain ⟨size, cur⟩ := p
          cases cur with
          | none => exact ih _ _ _ _ _ _
          | some sym =>
            have hf : (setResolution sf w h)._font = sf._font := rfl
            simp only [printOverflowCheck_eq, hf]
            cases hnext : findSymbol sf._font (List.drop size str) with
            | none => rfl
            | some q =>
              obtain ⟨ns1, nsym1⟩ := q
              have hg : printDrawGlyph (setResolution sf w h) prev sym nsym1 calls
                  = printDrawGlyph sf prev sym nsym1 calls := rfl
              simp only [hg]
              cases hdraw : printDrawGlyph sf prev sym nsym1 calls with
              | none => rfl
              | some calls1 =>
                exact ih _ { sf with _currentX := toInt16 (sf._currentX + sym.cur_dist) }
                  _ _ _ _

theorem print_setResolution (sf : Renderer) (w h : Nat) (str : List Nat) :
    print (setResolution sf w h) str
      = (print sf str).map (fun r => (setResolution r.1 w h, r.2)) := by
  unfold print
  have hf : (setResolution sf w h)._font = sf._font := rfl
  rw [hf]
  cases hfont : sf._font with
  | none => rfl
  | some font =>
    simp only [printClearLoop_setResolution]
    cases hpass1 : printClearLoop font (str.length + 1) str sf [] with
    | none => rfl
    | some r1 =>
      obtain ⟨sf1, calls1⟩ := r1
      simp only [Option.map_some']
      exact printDrawLoop_setResolution w h _ _
        { sf1 with _currentX := sf._currentX, _currentY := sf._currentY } _ _ _ _

/-- C16. The configured resolution has no effect on rendering: for every renderer, every
string and any two resolution settings applied with `setResolution`, `print` makes the
same sequence of `clearPixel` and `drawPixel` calls and ends with the same pen position
(or returns under neither setting); the renderers after the two calls differ in
nothing but the stored resolution; and the display-width overflow check of the draw
pass leaves everything as it was. -/
theorem print_resolution_independent (sf : Renderer) (str : List Nat) (w1 h1 w2 h2 : Nat) :
    printObserved (setResolution sf w1 h1) str = printObserved (setResolution sf w2 h2) str ∧
    print (setResolution sf w1 h1) str
      = (print (setResolution sf w2 h2) str).map (fun r => (setResolution r.1 w1 h1, r.2)) ∧
    ∀ (g : smart_font_symbol_t) (calls : List PixelCall),
      printOverflowCheck (setResolution sf w1 h1) g calls = calls := by
  refine ⟨?_, ?_, fun g calls => printOverflowCheck_eq _ g calls⟩
  · simp only [printObserved, print_setResolution]
    cases print sf str <;> rfl
  · simp only [print_setResolution]
    cases print sf str <;> rfl

/-- C11. With no font configured, every lookup reports not-found, `print` of any string
returns at once with no callback invoked and the renderer unchanged (pen, resolution,
font, callbacks), and `getWidth` of every well-formed string returns 0. -/
theorem no_font_noop (sf : Renderer) (chars : List (List Nat)) (rest : List Nat)
    (hfont : sf._font = none) (hchars : ∀ c ∈ chars, IsChar c) :
    (∀ data, findSymbolSearch sf._font data = none) ∧
    (∀ c ∈ chars, ∀ t, findSymbol sf._font (c ++ t) = some (c.length, none)) ∧
    resolvedGlyphs sf._font chars = [] ∧
    print sf (cstring chars rest) = some (sf, []) ∧
    getWidth sf (cstring chars rest) = some 0 := by
  have hsearch : ∀ data, findSymbolSearch sf._font data = none := by
    intro data; rw [hfont]; rfl
  refine ⟨hsearch, ?_, by rw [hfont]; exact resolvedGlyphs_none chars, ?_, ?_⟩
  · intro c hc t
    rw [findSymbol_char sf._font c t (hchars c hc), hsearch]
  · simp only [print, hfont]
  · have hfuel : chars.length < (cstring chars rest).length + 1 := by
      have := cstring_length chars rest hchars; omega
    rw [getWidth, getWidthLoop_spec sf._font rest chars _ 0 hchars hfuel, hfont,
      resolvedGlyphs_none]
    rfl

theorem no_font_noop_witness :
    (∀ data, findSymbolSearch (setFont demoRenderer none)._font data = none) ∧
    (∀ c ∈ [[0x41], [0xe0, 0xb8, 0xb3]], ∀ t,
      findSymbol (setFont demoRenderer none)._font (c ++ t) = some (c.length, none)) ∧
    resolvedGlyphs (setFont demoRenderer none)._font [[0x41], [0xe0, 0xb8, 0xb3]] = [] ∧
    print (setFont demoRenderer none) (cstring [[0x41], [0xe0, 0xb8, 0xb3]] [])
      = some (setFont demoRenderer none, []) ∧
    getWidth (setFont demoRenderer none) (cstring [[0x41], [0xe0, 0xb8, 0xb3]] []) = some 0 :=
  no_font_noop (setFont demoRenderer none) [[0x41], [0xe0, 0xb8, 0xb3]] [] rfl (by decide)

/-! ## Text renderer: the erase pass and the width measurer -/

theorem intRange_succ (a b : Int) (n : Nat) (h : (b - a).toNat = n + 1) :
    intRange a b = a :: intRange (a + 1) b := by
  have h1 : (b - (a + 1)).toNat = n := by omega
  simp only [intRange, h, h1, List.range_succ_eq_map, List.map_cons, List.map_map,
    Nat.cast_zero, add_zero]
  congr 1
  apply List.map_congr_left
  intro i _
  simp only [Function.comp, Nat.succ_eq_add_one]
  push_cast
  ring

theorem intRange_empty (a b : Int) (h : (b - a).toNat = 0) : intRange a b = [] := by
  simp [intRange, h]

theorem iterRange_clearRow (y : Int) :
    ∀ (n : Nat) (v bound : Int) (calls : List PixelCall), (bound - v).toNat = n →
      iterRange (fun x calls => some (calls ++ [PixelCall.clear x y])) n v calls
        = some (calls ++ (intRange v bound).map (fun x => PixelCall.clear x y)) := by
  intro n
  induction n with
  | zero =>
    intro v bound calls hn
    simp [iterRange, intRange_empty v bound hn]
  | succ n ih =>
    intro v bound calls hn
    simp only [iterRange]
    rw [ih (v + 1) bound _ (by omega), intRange_succ v bound n hn]
    simp

theorem forInt16_diverges {σ : Type} (body : Int → σ → Option σ) (bound : Int)
    (hbound : 32767 < bound) (hbody : ∀ v st, ∃ st', body v st = some st') :
    ∀ (fuel : Nat) (v : Int) (st : σ), v ≤ 32767 → forInt16 body bound fuel v st = none := by
  intro fuel
  induction fuel with
  | zero =>
    intro v st hv
    have : v < bound := by omega
    simp [forInt16, this]
  | succ fuel ih =>
    intro v st hv
    have hlt : v < bound := by omega
    obtain ⟨st1, h1⟩ := hbody v st
    simp only [forInt16, hlt, if_true, h1]
    exact ih _ _ (toInt16_le _)

theorem iterRange_clearRows (x0 x1 : Int) (hx0 : -32768 ≤ x0) (hx1 : x1 ≤ 32767) :
    ∀ (n : Nat) (v bound : Int) (calls : List PixelCall), (bound - v).toNat = n →
      iterRange
          (fun y calls =>
            forInt16 (fun x calls => some (calls ++ [PixelCall.clear x y])) x1 65536 x0 calls)
          n v calls
        = some (calls ++ eraseRect x0 x1 v bound) := by
  intro n
  induction n with
  | zero =>
    intro v bound calls hn
    simp [iterRange, eraseRect, intRange_empty v bound hn]
  | succ n ih =>
    intro v bound calls hn
    simp only [iterRange]
    rw [forInt16_eq_iterRange _ _ hx1 (x1 - x0).toNat 65536 x0 _ hx0 rfl (by omega),
      iterRange_clearRow v _ x0 x1 calls rfl]
    simp only []
    rw [ih (v + 1) bound _ (by omega)]
    simp only [eraseRect, intRange_succ v bound n hn, List.flatMap_cons, List.append_assoc]

theorem printClearGlyph_eq (sf : Renderer) (font : smart_font_info_t)
    (g : smart_font_symbol_t) (calls calls' : List PixelCall) (hy : sf._currentY ≤ 32767)
    (h : printClearGlyph sf font g calls = some calls') :
    calls' = calls ++ glyphErase sf font g := by
  unfold printClearGlyph at h
  unfold glyphErase
  by_cases hcb : sf._clearPixel = true
  · simp only [hcb, if_true] at h ⊢
    rw [forInt16_eq_iterRange _ _ hy _ 65536 _ _ (toInt16_ge _) rfl
      (by have := toInt16_ge (sf._currentY - font.height); omega)] at h
    by_cases hb : sf._currentX + g.cur_dist ≤ 32767
    · rw [iterRange_clearRows _ _ (toInt16_ge _) hb _ _ _ _ rfl] at h
      simp only [Option.some.injEq] at h
      exact h.symm
    · cases hn : (sf._currentY - toInt16 (sf._currentY - font.height)).toNat with
      | zero =>
        rw [hn] at h
        simp only [iterRange, Option.some.injEq] at h
        simp [eraseRect, intRange_empty _ _ hn, h]
      | succ n =>
        rw [hn] at h
        simp only [iterRange] at h
        rw [forInt16_diverges _ _ (by omega) (fun v st => ⟨_, rfl⟩) _ _ _ (toInt16_le _)] at h
        simp at h
  · simp only [hcb] at h ⊢
    simp at h
    simp [h]

theorem eraseCalls_cons (sf : Renderer) (font : smart_font_info_t) (g : smart_font_symbol_t)
    (gs : List smart_font_symbol_t) :
    eraseCalls sf font (g :: gs)
      = glyphErase sf font g
        ++ eraseCalls { sf with _currentX := toInt16 (sf._currentX + g.cur_dist) } font gs := by
  unfold eraseCalls glyphErase
  cases sf._clearPixel <;> simp [eraseSequence]

theorem penAfter_cons (x : Int) (g : smart_font_symbol_t) (gs : List smart_font_symbol_t) :
    penAfter x (g :: gs) = penAfter (toInt16 (x + g.cur_dist)) gs := rfl

theorem printClearLoop_eq (font : smart_font_info_t) (rest : List Nat) :
    ∀ (chars : List (List Nat)) (fuel : Nat) (sf : Renderer) (calls : List PixelCall)
      (r : Renderer × List PixelCall),
      (∀ c ∈ chars, IsChar c) → sf._currentY ≤ 32767 →
      printClearLoop font fuel (cstring chars rest) sf calls = some r →
      r = ({ sf with _currentX := penAfter sf._currentX (resolvedGlyphs sf._font chars) },
           calls ++ eraseCalls sf font (resolvedGlyphs sf._font chars)) := by
  intro chars
  induction chars with
  | nil =>
    intro fuel sf calls r _ _ h
    cases fuel with
    | zero => simp [printClearLoop] at h
    | succ fuel =>
      simp only [printClearLoop, cstring_nil, List.head?_cons, Nat.zero_mod, if_true,
        Option.some.injEq] at h
      subst h
      simp [penAfter, resolvedGlyphs, eraseCalls, eraseSequence]
  | cons c cs ih =>
    intro fuel sf calls r hchars hy h
    have hc := hchars c (List.mem_cons_self _ _)
    have hcs : ∀ x ∈ cs, IsChar x := fun x hx => hchars x (List.mem_cons_of_mem _ hx)
    obtain ⟨b, hhead, hb⟩ := isChar_head hc (cstring cs rest)
    cases fuel with
    | zero => simp [printClearLoop] at h
    | succ fuel =>
      rw [cstring_cons, printClearLoop] at h
      simp only [hhead, hb, if_false, findSymbol_char sf._font c _ hc, List.drop_left] at h
      cases hsearch : findSymbolSearch sf._font (charCode c) with
      | none =>
        simp only [hsearch] at h
        rw [resolvedGlyphs_cons_none _ _ _ hsearch]
        exact ih fuel sf calls r hcs hy h
      | some g =>
        simp only [hsearch] at h
        cases hclear : printClearGlyph sf font g calls with
        | none => simp [hclear] at h
        | some calls1 =>
          simp only [hclear] at h
          have hcalls1 := printClearGlyph_eq sf font g calls calls1 hy hclear
          have := ih fuel { sf with _currentX := toInt16 (sf._currentX + g.cur_dist) } calls1 r
            hcs hy h
          rw [this, resolvedGlyphs_cons_some _ _ _ _ hsearch, eraseCalls_cons, penAfter_cons,
            hcalls1, List.append_assoc]

theorem filter_clear_append (cl dr : List PixelCall)
    (hcl : ∀ e ∈ cl, (!e.isDraw) = true) (hdr : ∀ e ∈ dr, e.isDraw = true) :
    (cl ++ dr).filter (fun e => !e.isDraw) = cl := by
  rw [List.filter_append, List.filter_eq_self.mpr hcl, List.filter_eq_nil_iff.mpr, List.append_nil]
  intro e he
  simp [hdr e he]

theorem print_erase_eq (sf : Renderer) (font : smart_font_info_t)
    (chars : List (List Nat)) (rest : List Nat) (r : Renderer × List PixelCall)
    (hfont : sf._font = some font) (hchars : ∀ c ∈ chars, IsChar c)
    (hy : sf._currentY ≤ 32767) (hr : print sf (cstring chars rest) = some r) :
    ∃ dr, r.2 = eraseCalls sf font (resolvedGlyphs sf._font chars) ++ dr ∧
      (∀ e ∈ dr, e.isDraw = true) ∧
      printClearLoop font ((cstring chars rest).length + 1) (cstring chars rest) sf []
        = some ({ sf with _currentX := penAfter sf._currentX (resolvedGlyphs sf._font chars) },
            eraseCalls sf font (resolvedGlyphs sf._font chars)) ∧
      printDrawLoop ((cstring chars rest).length + 1) (cstring chars rest) sf 0 none none
        (eraseCalls sf font (resolvedGlyphs sf._font chars)) = some r := by
  unfold print at hr
  simp only [hfont] at hr
  cases hpass1 : printClearLoop font ((cstring chars rest).length + 1)
      (cstring chars rest) sf [] with
  | none => simp [hpass1] at hr
  | some r1 =>
    have h1 := printClearLoop_eq font rest chars _ sf [] r1 hchars hy hpass1
    simp only [List.nil_append] at h1
    subst h1
    simp only [hpass1] at hr
    obtain ⟨⟨dr, hdr, hdr'⟩, _, _⟩ := printDrawLoop_frame _ _ _ _ _ _ _ _ hr
    exact ⟨dr, hdr, hdr', by rw [hfont], hr⟩

/-- C13, as stated, fails: with the pen at (0, -32768), line height 4 and the letter A of
advance 5, the rectangle `[0, 5) × [-32772, -32768)` of the claim has 20 coordinates,
and `print` of the string "A" makes no `clearPixel` call at all: its only call is the
`drawPixel` of the glyph. -/
theorem print_erase_counterexample :
    (∀ c ∈ [[0x41]], IsChar c) ∧
    (eraseRect (lowRenderer._currentX + 0) (lowRenderer._currentX + 5)
      (lowRenderer._currentY - 4) lowRenderer._currentY).length = 20 ∧
    (print lowRenderer (cstring [[0x41]] [])).map (fun r => r.2)
      = some [PixelCall.draw 0 (-32768)] ∧
    (print lowRenderer (cstring [[0x41]] [])).map
      (fun r => r.2.filter (fun e => !e.isDraw)) = some [] := by
  decide

/-- C13, amended. For every renderer with a font and a clear callback, its pen row an
`int16_t` value, and every well-formed string: `print` returns whenever every resolved
glyph fits at the pen position it is reached with; and whenever `print` returns, its
`clearPixel` calls all precede its `drawPixel` calls and are the concatenation, over
the glyphs of the string that resolve in the table, in order, of every coordinate of
the rectangle `[penX + offset_x, penX + cur_dist) × [y0 - font.height, y0)`, row by
row, with the left edge `penX + offset_x` and the top edge `y0 - font.height`
converted to `int16_t`, `penX` being `x0` advanced by the previously resolved glyphs
in `int16_t` arithmetic.  Absent characters add no call and do not move `penX`; the
height of every rectangle is the line height of the font. -/
theorem print_erase_calls (sf : Renderer) (font : smart_font_info_t)
    (chars : List (List Nat)) (rest : List Nat)
    (hfont : sf._font = some font) (hclear : sf._clearPixel = true)
    (hchars : ∀ c ∈ chars, IsChar c) (hy : sf._currentY ≤ 32767) :
    (Fits sf (resolvedGlyphs sf._font chars) →
      (print sf (cstring chars rest)).isSome = true) ∧
    ∀ r, print sf (cstring chars rest) = some r →
      r.2.filter (fun e => !e.isDraw)
        = eraseSequence font.height sf._currentY sf._currentX
            (resolvedGlyphs sf._font chars) ∧
      ∃ dr, r.2 = eraseSequence font.height sf._currentY sf._currentX
            (resolvedGlyphs sf._font chars) ++ dr ∧
        ∀ e ∈ dr, e.isDraw = true := by
  refine ⟨print_returns sf chars rest hchars hy, ?_⟩
  intro r hr
  obtain ⟨dr, hcalls, hdr, hpass1, _⟩ :=
    print_erase_eq sf font chars rest r hfont hchars hy hr
  have hcl : ∀ e ∈ eraseCalls sf font (resolvedGlyphs sf._font chars),
      (!e.isDraw) = true := by
    obtain ⟨⟨more, hmore, hall⟩, _, _⟩ := printClearLoop_frame _ _ _ _ _ _ hpass1
    simp only [List.nil_append] at hmore
    rw [hmore]
    exact hall
  have herase : eraseCalls sf font (resolvedGlyphs sf._font chars)
      = eraseSequence font.height sf._currentY sf._currentX
          (resolvedGlyphs sf._font chars) := by
    simp [eraseCalls, hclear]
  rw [herase] at hcalls hcl
  exact ⟨by rw [hcalls]; exact filter_clear_append _ _ hcl hdr, dr, hcalls, hdr⟩

theorem print_erase_calls_witness :
    (∀ c ∈ [[0x41], [0x42], [0xe0, 0xb8, 0xb3]], IsChar c) ∧
    Fits demoRenderer (resolvedGlyphs demoRenderer._font [[0x41], [0x42], [0xe0, 0xb8, 0xb3]]) ∧
    ((Fits demoRenderer
        (resolvedGlyphs demoRenderer._font [[0x41], [0x42], [0xe0, 0xb8, 0xb3]]) →
      (print demoRenderer (cstring [[0x41], [0x42], [0xe0, 0xb8, 0xb3]] [])).isSome = true) ∧
    ∀ r, print demoRenderer (cstring [[0x41], [0x42], [0xe0, 0xb8, 0xb3]] []) = some r →
      r.2.filter (fun e => !e.isDraw)
        = eraseSequence demoFont.height demoRenderer._currentY demoRenderer._currentX
            (resolvedGlyphs demoRenderer._font [[0x41], [0x42], [0xe0, 0xb8, 0xb3]]) ∧
      ∃ dr, r.2 = eraseSequence demoFont.height demoRenderer._currentY demoRenderer._currentX
            (resolvedGlyphs demoRenderer._font [[0x41], [0x42], [0xe0, 0xb8, 0xb3]]) ++ dr ∧
        ∀ e ∈ dr, e.isDraw = true) :=
  ⟨by decide, by decide,
    print_erase_calls demoRenderer demoFont [[0x41], [0x42], [0xe0, 0xb8, 0xb3]] [] rfl rfl
      (by decide) (by decide)⟩

/-! ## Decoder progress, string bounds and the row layout -/

set_option maxRecDepth 100000 in
theorem leadingOnes_high : ∀ u < 256, 0x80 ≤ u → 1 ≤ leadingOnes u := by
  decide

theorem getUtf8FormatLoop_size :
    ∀ (fuel : Nat) (str : List Nat) (val u size v n : Nat), u < 256 → 1 ≤ leadingOnes u →
      size + leadingOnes u < 256 →
      getUtf8FormatLoop fuel str val u size = some (v, n) → n = size + leadingOnes u := by
  intro fuel
  induction fuel with
  | zero => intro str val u size v n _ _ _ h; simp [getUtf8FormatLoop] at h
  | succ fuel ih =>
    intro str val u size v n hu hlead hsize h
    cases str with
    | nil => simp [getUtf8FormatLoop] at h
    | cons c rest =>
      have h8 := leadingOnes_le u hu
      have hs1 : (size + 1) % 256 = size + 1 := Nat.mod_eq_of_lt (by omega)
      rw [getUtf8FormatLoop] at h
      by_cases hk : 2 ≤ leadingOnes u
      · obtain ⟨h1, h2⟩ := leadingOnes_shift u hu hk
        simp only [h1, ne_eq, not_false_eq_true, if_true, hs1] at h
        have hlt : (u <<< 1) % 256 < 256 := Nat.mod_lt _ (by norm_num)
        have h8' := leadingOnes_le _ hlt
        have := ih rest _ ((u <<< 1) % 256) (size + 1) v n hlt (by omega) (by omega) h
        omega
      · have h1 := leadingOnes_stop u hu (by omega)
        simp only [h1, ne_eq, not_true_eq_false, if_false, hs1, Option.some.injEq,
          Prod.mk.injEq] at h
        omega

theorem findSymbolDecode_size (b : Nat) (rest : List Nat) (v n : Nat) (hb : b < 256)
    (h : findSymbolDecode (b :: rest) = some (v, n)) : n = byteLength b := by
  have hmod : b % 256 = b := Nat.mod_eq_of_lt hb
  unfold byteLength
  by_cases hlow : b < 0x80
  · have hbit : ¬ (b &&& 0x80 > 0) := fun h => by
      have := (high_bit_iff b hb).mp h; omega
    have hbit0 : b &&& 0x80 = 0 := by omega
    simp [findSymbolDecode, isUtf8, hmod, hbit0] at h
    rw [if_pos hlow]
    exact h.2.symm
  · rw [if_neg hlow]
    have hlead := leadingOnes_high b hb (by omega)
    rw [findSymbolDecode_high b rest hb (by omega)] at h
    have hbit : b &&& 0x80 ≠ 0 := (leadingOnes_pos_iff b hb).mpr hlead
    simp only [getUtf8Format, List.head?_cons, hmod] at h
    rw [if_pos hbit] at h
    have h8 := leadingOnes_le b hb
    have := getUtf8FormatLoop_size 8 (b :: rest) 0 b 0 v n hb hlead (by omega) h
    omega

theorem byteLength_bounds (b : Nat) (hb : b < 256) : 1 ≤ byteLength b ∧ byteLength b ≤ 8 := by
  unfold byteLength
  by_cases hlow : b < 0x80
  · rw [if_pos hlow]; omega
  · rw [if_neg hlow]
    exact ⟨leadingOnes_high b hb (by omega), leadingOnes_le b hb⟩

theorem findSymbolDecode_returns (b : Nat) (rest : List Nat) (hb : b < 256)
    (hlen : byteLength b ≤ (b :: rest).length) :
    ∃ v, findSymbolDecode (b :: rest) = some (v, byteLength b) := by
  have hmod : b % 256 = b := Nat.mod_eq_of_lt hb
  unfold byteLength at hlen ⊢
  by_cases hlow : b < 0x80
  · have hbit : ¬ (b &&& 0x80 > 0) := fun h => by
      have := (high_bit_iff b hb).mp h; omega
    have hbit0 : b &&& 0x80 = 0 := by omega
    rw [if_pos hlow]
    exact ⟨b, by simp [findSymbolDecode, isUtf8, hmod, hbit0]⟩
  · rw [if_neg hlow] at hlen ⊢
    have hlead := leadingOnes_high b hb (by omega)
    have hsplit : b :: rest
        = b :: rest.take (leadingOnes b - 1) ++ rest.drop (leadingOnes b - 1) := by
      rw [List.cons_append, List.take_append_drop]
    have hl : leadingOnes b = (b :: rest.take (leadingOnes b - 1)).length := by
      simp only [List.length_cons, List.length_take] at hlen ⊢
      omega
    rw [hsplit, List.cons_append, findSymbolDecode_high b _ hb (by omega), ← List.cons_append,
      getUtf8Format_spec b _ _ hb hl, ← hl]
    exact ⟨_, rfl⟩

theorem printClearGlyph_diverges (sf : Renderer) (font : smart_font_info_t)
    (g : smart_font_symbol_t) (calls : List PixelCall) (hcb : sf._clearPixel = true)
    (hrow : toInt16 (sf._currentY - font.height) < sf._currentY)
    (hbound : 32767 < sf._currentX + g.cur_dist) :
    printClearGlyph sf font g calls = none := by
  have hinner : ∀ (y : Int) (c : List PixelCall),
      forInt16 (fun x calls => some (calls ++ [PixelCall.clear x y]))
        (sf._currentX + g.cur_dist) 65536 (toInt16 (sf._currentX + g.offset_x)) c = none :=
    fun y c => forInt16_diverges _ _ hbound (fun v st => ⟨_, rfl⟩) _ _ _ (toInt16_le _)
  unfold printClearGlyph
  rw [if_pos hcb]
  have hfuel : (65536 : Nat) = 65535 + 1 := rfl
  rw [hfuel, forInt16]
  simp only [hrow, if_true, hinner]

theorem printClearLoop_diverges (font : smart_font_info_t) (fuel : Nat) (str : List Nat)
    (sf : Renderer) (calls : List PixelCall) (c size : Nat) (g : smart_font_symbol_t)
    (hhead : str.head? = some c) (hc : c % 256 ≠ 0)
    (hfind : findSymbol sf._font str = some (size, some g))
    (hglyph : printClearGlyph sf font g calls = none) :
    printClearLoop font (fuel + 1) str sf calls = none := by
  rw [printClearLoop]
  simp only [hhead, hc, if_false, hfind, hglyph]

theorem print_none_of_clear (sf : Renderer) (font : smart_font_info_t) (str : List Nat)
    (hfont : sf._font = some font)
    (h : printClearLoop font (str.length + 1) str sf [] = none) : print sf str = none := by
  unfold print
  simp only [hfont, h]

/-- C18, as stated, fails for `print`: with the pen at column 32767 and the letter A of
advance 5, the string "A" is well formed and `getWidth` returns 5, but `print` does not
return: the column loop of the erase rectangle runs against the bound
`32767 + 5 = 32772`, which no `int16_t` counter reaches. -/
theorem print_terminates_counterexample :
    (∀ c ∈ [[0x41]], IsChar c) ∧
    getWidth rightEdgeRenderer (cstring [[0x41]] []) = some 5 ∧
    rightEdgeRenderer._currentX + 5 = 32772 ∧
    print rightEdgeRenderer (cstring [[0x41]] []) = none :=
  ⟨by decide, by decide, by decide,
    print_none_of_clear rightEdgeRenderer ⟨1, 8, 1, [⟨0x41, 0, 0, 5, ⟨1, 1, [0x80]⟩⟩]⟩ _ rfl
      (printClearLoop_diverges _ _ _ _ _ 0x41 1 ⟨0x41, 0, 0, 5, ⟨1, 1, [0x80]⟩⟩
        (by decide) (by decide) (by decide)
        (printClearGlyph_diverges _ _ _ _ rfl (by decide) (by decide)))⟩

/-- C18, amended. For every byte `b` at the read position the decoder, whenever the buffer
holds the bytes it reads, reports a byte length between 1 and 8: 1 when `b < 0x80`,
otherwise the number of leading 1-bits of `b`; so a round of a scanning loop leaves
strictly fewer bytes ahead of the read cursor.  On every well-formed string `getWidth`
returns, and `print` returns whenever the pen row is an `int16_t` value and every
resolved glyph fits, inside the `int16_t` range, at the pen position it is reached
with. -/
theorem decoder_progress (sf : Renderer) (chars : List (List Nat)) (rest : List Nat)
    (hchars : ∀ c ∈ chars, IsChar c) (hy : sf._currentY ≤ 32767) :
    (∀ b tail v n, b < 256 → findSymbolDecode (b :: tail) = some (v, n) →
      n = byteLength b ∧ 1 ≤ n ∧ n ≤ 8 ∧ (b < 0x80 → n = 1) ∧
        (0x80 ≤ b → n = leadingOnes b)) ∧
    (∀ b tail, b < 256 → byteLength b ≤ (b :: tail).length →
      ∃ v, findSymbolDecode (b :: tail) = some (v, byteLength b)) ∧
    (∀ font b tail n g, b < 256 → findSymbol font (b :: tail) = some (n, g) →
      ((b :: tail).drop n).length < (b :: tail).length) ∧
    (getWidth sf (cstring chars rest)).isSome = true ∧
    (Fits sf (resolvedGlyphs sf._font chars) →
      (print sf (cstring chars rest)).isSome = true) := by
  have hsize : ∀ b tail v n, b < 256 → findSymbolDecode (b :: tail) = some (v, n) →
      n = byteLength b ∧ 1 ≤ n ∧ n ≤ 8 ∧ (b < 0x80 → n = 1) ∧
        (0x80 ≤ b → n = leadingOnes b) := by
    intro b tail v n hb h
    have hn := findSymbolDecode_size b tail v n hb h
    have hbd := byteLength_bounds b hb
    refine ⟨hn, by omega, by omega, ?_, ?_⟩
    · intro hlow; rw [hn, byteLength, if_pos hlow]
    · intro hhigh; rw [hn, byteLength, if_neg (by omega)]
  refine ⟨hsize, fun b tail hb hlen => findSymbolDecode_returns b tail hb hlen, ?_, ?_,
    print_returns sf chars rest hchars hy⟩
  · intro font b tail n g hb h
    unfold findSymbol at h
    cases hdec : findSymbolDecode (b :: tail) with
    | none => simp [hdec] at h
    | some p =>
      obtain ⟨v, m⟩ := p
      simp only [hdec, Option.some.injEq, Prod.mk.injEq] at h
      obtain ⟨_, hm1, _⟩ := hsize b tail v m hb hdec
      rw [← h.1]
      simp only [List.length_drop, List.length_cons]
      omega
  · have hfuel : chars.length < (cstring chars rest).length + 1 := by
      have := cstring_length chars rest hchars; omega
    rw [getWidth, getWidthLoop_spec sf._font rest chars _ 0 hchars hfuel]
    rfl

theorem decoder_progress_witness :
    (∀ c ∈ [[0x41], [0xe0, 0xb8, 0xb3], [0xff, 1, 2, 3, 4, 5, 6, 7]], IsChar c) ∧
    Fits demoRenderer (resolvedGlyphs demoRenderer._font
      [[0x41], [0xe0, 0xb8, 0xb3], [0xff, 1, 2, 3, 4, 5, 6, 7]]) ∧
    ((∀ b tail v n, b < 256 → findSymbolDecode (b :: tail) = some (v, n) →
      n = byteLength b ∧ 1 ≤ n ∧ n ≤ 8 ∧ (b < 0x80 → n = 1) ∧
        (0x80 ≤ b → n = leadingOnes b)) ∧
    (∀ b tail, b < 256 → byteLength b ≤ (b :: tail).length →
      ∃ v, findSymbolDecode (b :: tail) = some (v, byteLength b)) ∧
    (∀ font b tail n g, b < 256 → findSymbol font (b :: tail) = some (n, g) →
      ((b :: tail).drop n).length < (b :: tail).length) ∧
    (getWidth demoRenderer
      (cstring [[0x41], [0xe0, 0xb8, 0xb3], [0xff, 1, 2, 3, 4, 5, 6, 7]] [])).isSome = true ∧
    (Fits demoRenderer (resolvedGlyphs demoRenderer._font
        [[0x41], [0xe0, 0xb8, 0xb3], [0xff, 1, 2, 3, 4, 5, 6, 7]]) →
      (print demoRenderer
        (cstring [[0x41], [0xe0, 0xb8, 0xb3], [0xff, 1, 2, 3, 4, 5, 6, 7]] [])).isSome
          = true)) :=
  ⟨by decide, by decide,
    decoder_progress demoRenderer [[0x41], [0xe0, 0xb8, 0xb3], [0xff, 1, 2, 3, 4, 5, 6, 7]] []
      (by decide) (by decide)⟩

/-- C12, as stated, fails: in the buffer `e0 00 41 42` the string ends at index 1, and the
byte at position 0 is not the terminator.  Decoding there reports byte length 3, which
moves the cursor to index 3, beyond the terminator; the codepoint changes with the byte
at index 2, which lies past the terminator; and when the buffer ends with the
terminator the read at index 2 falls outside it.  Inside a complete character the same
happens: at position 1 of the string `e0 e0 e0` the decoder reads the terminator at
index 3 and reports byte length 3. -/
theorem decoder_overrun_counterexample :
    findSymbolDecode [0xe0, 0, 0x41, 0x42] = some (0xe00041, 3) ∧
    findSymbolDecode [0xe0, 0, 0x99, 0x42] = some (0xe00099, 3) ∧
    findSymbolDecode [0xe0, 0] = none ∧
    (∀ font, (findSymbol font [0xe0, 0, 0x41, 0x42]).map (fun r => r.1) = some 3) ∧
    IsChar [0xe0, 0xe0, 0xe0] ∧
    findSymbolDecode ((cstring [[0xe0, 0xe0, 0xe0]] [0x41]).drop 1) = some (0xe0e000, 3) := by
  refine ⟨by decide, by decide, by decide, ?_, by decide, by decide⟩
  intro font
  have h : findSymbolDecode [0xe0, 0, 0x41, 0x42] = some (0xe00041, 3) := by decide
  simp [findSymbol, h]

theorem flatten_append_cons_length (pre post : List (List Nat)) (c : List Nat) :
    pre.flatten.length + c.length ≤ (pre ++ c :: post).flatten.length := by
  simp only [List.flatten_append, List.flatten_cons, List.length_append]
  omega

theorem cstring_terminator (chars : List (List Nat)) (rest : List Nat) :
    (cstring chars rest)[chars.flatten.length]? = some 0 := by
  unfold cstring
  rw [List.getElem?_append_right (le_refl _)]
  simp

theorem isChar_bytes_nonzero (chars : List (List Nat)) (hchars : ∀ c ∈ chars, IsChar c) :
    ∀ b ∈ chars.flatten, b ≠ 0 := by
  intro b hb
  obtain ⟨c, hc, hbc⟩ := List.mem_flatten.mp hb
  have := (hchars c hc).1 b hbc
  omega

/-- C12, amended. In every well-formed string the first NUL is the terminator, at the index
where the characters end, and at every character start, the positions the scanning
loops decode at, the decoder reads only the bytes of that character, all of them before
the terminator: it returns the same codepoint and byte length whatever follows the
character and even when the buffer ends with the character; and the byte length moves
the cursor to the start of the next character or to the terminator, never beyond. -/
theorem decoder_within_string (pre post : List (List Nat)) (c rest : List Nat)
    (hchars : ∀ x ∈ pre ++ c :: post, IsChar x) :
    cstring (pre ++ c :: post) rest = pre.flatten ++ (c ++ cstring post rest) ∧
    (∀ b ∈ (pre ++ c :: post).flatten, b ≠ 0) ∧
    (cstring (pre ++ c :: post) rest)[(pre ++ c :: post).flatten.length]? = some 0 ∧
    findSymbolDecode (c ++ cstring post rest) = some (charCode c, c.length) ∧
    (∀ t, findSymbolDecode (c ++ t) = some (charCode c, c.length)) ∧
    findSymbolDecode c = some (charCode c, c.length) ∧
    (∀ font, findSymbol font (c ++ cstring post rest)
      = some (c.length, findSymbolSearch font (charCode c))) ∧
    (c ++ cstring post rest).drop c.length = cstring post rest ∧
    pre.flatten.length + c.length ≤ (pre ++ c :: post).flatten.length := by
  have hc : IsChar c := hchars c (by simp)
  have hdec : ∀ t, findSymbolDecode (c ++ t) = some (charCode c, c.length) :=
    fun t => findSymbolDecode_char c t hc
  refine ⟨by simp [cstring], isChar_bytes_nonzero _ hchars, cstring_terminator _ _, hdec _,
    hdec, ?_, fun font => findSymbol_char font c _ hc, List.drop_left _ _,
    flatten_append_cons_length pre post c⟩
  have := hdec []
  rwa [List.append_nil] at this

theorem decoder_within_string_witness :
    cstring ([[0x41]] ++ [0xe0, 0xb8, 0xb3] :: [[0x42]]) [7]
      = [[0x41]].flatten ++ ([0xe0, 0xb8, 0xb3] ++ cstring [[0x42]] [7]) ∧
    (∀ b ∈ ([[0x41]] ++ [0xe0, 0xb8, 0xb3] :: [[0x42]]).flatten, b ≠ 0) ∧
    (cstring ([[0x41]] ++ [0xe0, 0xb8, 0xb3] :: [[0x42]]) [7])[
      ([[0x41]] ++ [0xe0, 0xb8, 0xb3] :: [[0x42]]).flatten.length]? = some 0 ∧
    findSymbolDecode ([0xe0, 0xb8, 0xb3] ++ cstring [[0x42]] [7])
      = some (charCode [0xe0, 0xb8, 0xb3], [0xe0, 0xb8, 0xb3].length) ∧
    (∀ t, findSymbolDecode ([0xe0, 0xb8, 0xb3] ++ t)
      = some (charCode [0xe0, 0xb8, 0xb3], [0xe0, 0xb8, 0xb3].length)) ∧
    findSymbolDecode [0xe0, 0xb8, 0xb3]
      = some (charCode [0xe0, 0xb8, 0xb3], [0xe0, 0xb8, 0xb3].length) ∧
    (∀ font, findSymbol font ([0xe0, 0xb8, 0xb3] ++ cstring [[0x42]] [7])
      = some ([0xe0, 0xb8, 0xb3].length, findSymbolSearch font (charCode [0xe0, 0xb8, 0xb3]))) ∧
    ([0xe0, 0xb8, 0xb3] ++ cstring [[0x42]] [7]).drop [0xe0, 0xb8, 0xb3].length
      = cstring [[0x42]] [7] ∧
    [[0x41]].flatten.length + [0xe0, 0xb8, 0xb3].length
      ≤ ([[0x41]] ++ [0xe0, 0xb8, 0xb3] :: [[0x42]]).flatten.length :=
  decoder_within_string [[0x41]] [[0x42]] [0xe0, 0xb8, 0xb3] [7] (by decide)

/-- C15, as stated, fails: for the 3 by 2 bitmap with data bytes `e0 e0`, one byte a row
with the three leading bits set and the padding bits clear, the row-padded layout lights
all three pixels of row 1 from byte 1, but `drawBitmap` reads row 1 from bits 4 to 2 of
byte 0 and draws none of them.  It also fails at an origin whose `x + w` leaves the
`int16_t` range: there the walk does not stop after the last column and `drawBitmap`
has no result. -/
theorem drawBitmap_row_layout_counterexample :
    rowPaddedBit [0xe0, 0xe0] 3 1 0 = true ∧
    rowPaddedBit [0xe0, 0xe0] 3 1 1 = true ∧
    rowPaddedBit [0xe0, 0xe0] 3 1 2 = true ∧
    drawBitmap true 0 0 ⟨3, 2, [0xe0, 0xe0]⟩ []
      = some [PixelCall.draw 0 0, PixelCall.draw 1 0, PixelCall.draw 2 0] ∧
    drawBitmap true 32767 0 ⟨8, 1, [0xff]⟩ [] = none := by
  decide

theorem streamBit_eq_rowPaddedBit (data : List Nat) (w r c : Nat) (hw : w % 8 = 0)
    (hc : c < w) : streamBit data (r * w + c) = rowPaddedBit data w r c := by
  obtain ⟨k, rfl⟩ : ∃ k, w = 8 * k := ⟨w / 8, by omega⟩
  have h1 : (r * (8 * k) + c) / 8 = r * ((8 * k + 7) / 8) + c / 8 := by
    have : (8 * k + 7) / 8 = k := by omega
    rw [this]
    have : r * (8 * k) + c = 8 * (r * k) + c := by ring
    rw [this]
    omega
  have h2 : (r * (8 * k) + c) % 8 = c % 8 := by
    have : r * (8 * k) + c = 8 * (r * k) + c := by ring
    rw [this]
    omega
  simp only [streamBit, rowPaddedBit, h1, h2]

/-- C15, amended. With a draw callback set, for every bitmap of width `w` and height `h`
whose data holds the `w * h` bits and every `int16_t` origin `(x, y)` with `x + w` and
`y + h` within the `int16_t` range, `drawBitmap` returns and invokes `drawPixel` at
`(x + c, y + r)`, for `c < w` and `r < h`, if and only if bit number `r * w + c` of the
data read as one MSB-first bit stream is set: rows are not padded to whole bytes.  When
`w` is a multiple of 8 this is bit `7 - c mod 8` of data byte
`r * ceil(w / 8) + floor(c / 8)`, the row-padded layout. -/
theorem drawBitmap_row_layout (x y : Int) (bitmap : smart_font_bitmap_t)
    (calls : List PixelCall) (hx : -32768 ≤ x) (hy : -32768 ≤ y)
    (hxw : x + bitmap.width ≤ 32767) (hyh : y + bitmap.height ≤ 32767)
    (hdata : bitmap.width * bitmap.height ≤ 8 * bitmap.data.length) :
    ∃ drawn, drawBitmap true x y bitmap calls = some (calls ++ drawn) ∧
      (∀ c r : Nat, c < bitmap.width → r < bitmap.height →
        (PixelCall.draw (x + c) (y + r) ∈ drawn
          ↔ streamBit bitmap.data (r * bitmap.width + c) = true)) ∧
      (bitmap.width % 8 = 0 →
        ∀ c r : Nat, c < bitmap.width → r < bitmap.height →
          (PixelCall.draw (x + c) (y + r) ∈ drawn
            ↔ rowPaddedBit bitmap.data bitmap.width r c = true)) := by
  have hdraw := drawBitmap_eq_blitCalls true x y bitmap calls hx hy hxw hyh hdata
  simp only [if_true] at hdraw
  have hmem : ∀ c r : Nat, c < bitmap.width → r < bitmap.height →
      (PixelCall.draw (x + c) (y + r) ∈ blitCalls bitmap.data x y bitmap.width bitmap.height
        ↔ streamBit bitmap.data (r * bitmap.width + c) = true) := by
    intro c r hc hr
    rw [mem_blitCalls]
    constructor
    · rintro ⟨r', c', _, _, hbit, heq⟩
      simp only [PixelCall.draw.injEq] at heq
      have h1 : c' = c := by omega
      have h2 : r' = r := by omega
      subst h1 h2
      exact hbit
    · intro hbit
      exact ⟨r, c, hr, hc, hbit, rfl⟩
  refine ⟨_, hdraw, hmem, ?_⟩
  intro hw c r hc hr
  rw [hmem c r hc hr, streamBit_eq_rowPaddedBit _ _ _ _ hw hc]

theorem drawBitmap_row_layout_witness :
    ∃ drawn, drawBitmap true 10 18 ⟨8, 2, [0xb4, 0x81]⟩ [] = some ([] ++ drawn) ∧
      (∀ c r : Nat, c < (⟨8, 2, [0xb4, 0x81]⟩ : smart_font_bitmap_t).width →
        r < (⟨8, 2, [0xb4, 0x81]⟩ : smart_font_bitmap_t).height →
        (PixelCall.draw (10 + c) (18 + r) ∈ drawn
          ↔ streamBit (⟨8, 2, [0xb4, 0x81]⟩ : smart_font_bitmap_t).data
              (r * (⟨8, 2, [0xb4, 0x81]⟩ : smart_font_bitmap_t).width + c) = true)) ∧
      ((⟨8, 2, [0xb4, 0x81]⟩ : smart_font_bitmap_t).width % 8 = 0 →
        ∀ c r : Nat, c < (⟨8, 2, [0xb4, 0x81]⟩ : smart_font_bitmap_t).width →
          r < (⟨8, 2, [0xb4, 0x81]⟩ : smart_font_bitmap_t).height →
          (PixelCall.draw (10 + c) (18 + r) ∈ drawn
            ↔ rowPaddedBit (⟨8, 2, [0xb4, 0x81]⟩ : smart_font_bitmap_t).data
                (⟨8, 2, [0xb4, 0x81]⟩ : smart_font_bitmap_t).width r c = true)) :=
  drawBitmap_row_layout 10 18 ⟨8, 2, [0xb4, 0x81]⟩ [] (by decide) (by decide) (by decide)
    (by decide) (by decide)

/-! ## Text renderer: the draw pass against a reference pass -/

theorem bsearchLoop_key (key : Nat) (base : List smart_font_symbol_t) :
    ∀ (fuel l u : Nat) (g : smart_font_symbol_t),
      bsearchLoop symbol_compare key base fuel l u = some g → g.utf8 = key := by
  intro fuel
  induction fuel with
  | zero => intro l u g h; simp [bsearchLoop] at h
  | succ fuel ih =>
    intro l u g h
    unfold bsearchLoop at h
    by_cases hlu : l < u
    · simp only [hlu, if_true] at h
      cases hget : base[(l + u) / 2]? with
      | none => simp [hget] at h
      | some p =>
        simp only [hget] at h
        by_cases h1 : symbol_compare key p < 0
        · simp only [h1, if_true] at h
          exact ih _ _ _ h
        · by_cases h2 : symbol_compare key p > 0
          · simp only [h1, h2, if_true, if_false] at h
            exact ih _ _ _ h
          · simp only [h1, h2, if_false, Option.some.injEq] at h
            subst h
            unfold symbol_compare at h1 h2
            by_cases ha : key < p.utf8
            · simp [ha] at h1
            · by_cases hb : key > p.utf8
              · simp [ha, hb] at h2
              · omega
    · simp [hlu] at h

theorem findSymbolSearch_key (font : Option smart_font_info_t) (key : Nat)
    (g : smart_font_symbol_t) (h : findSymbolSearch font key = some g) : g.utf8 = key := by
  unfold findSymbolSearch at h
  cases font with
  | none => simp at h
  | some f => exact bsearchLoop_key key f.symbols _ _ _ g h

theorem isPadding_zero (n : smart_font_symbol_t) (h : n.utf8 = 0) : isPadding n = false := by
  simp [isPadding, PADDING_SYMBOL_LEN, padding_symbol, List.range_succ, h]

theorem shouldPadding_not_padding (prev : Option smart_font_symbol_t) (g n : smart_font_symbol_t)
    (hn : isPadding n = false) :
    shouldPadding prev (some g) (some n) = shouldPadding prev (some g) none := by
  cases prev <;> simp [shouldPadding, hn]

theorem toInt16_printOffsetY (y : Int) (prev : Option smart_font_symbol_t)
    (g : smart_font_symbol_t) (next : Option smart_font_symbol_t) :
    toInt16 (y + printOffsetY prev g next) = toInt16 (y + referenceOffset prev g next) := by
  unfold printOffsetY referenceOffset
  by_cases h2 : isOverheadLv2 g = true
  · by_cases hp : shouldPadding prev (some g) next = true
    · simp [h2, hp]
    · have hp' : shouldPadding prev (some g) next = false := by simpa using hp
      simp [h2, hp', toInt16_add_right]
  · simp [h2]

theorem referenceOffset_terminator (font : Option smart_font_info_t)
    (prev : Option smart_font_symbol_t) (g : smart_font_symbol_t) :
    referenceOffset prev g (findSymbolSearch font 0) = referenceOffset prev g none := by
  cases h : findSymbolSearch font 0 with
  | none => rfl
  | some n =>
    have hn := isPadding_zero n (findSymbolSearch_key font 0 n h)
    unfold referenceOffset
    rw [shouldPadding_not_padding prev g n hn]

theorem findSymbol_lookahead (font : Option smart_font_info_t) (rest : List Nat)
    (prev : Option smart_font_symbol_t) (g : smart_font_symbol_t)
    (cs : List (List Nat)) (hcs : ∀ c ∈ cs, IsChar c) :
    ∃ ns nsym, findSymbol font (cstring cs rest) = some (ns, nsym) ∧
      referenceOffset prev g nsym = referenceOffset prev g (nextLookup font cs) := by
  cases cs with
  | nil =>
    refine ⟨1, findSymbolSearch font 0, ?_, referenceOffset_terminator font prev g⟩
    rw [cstring_nil]
    simp [findSymbol, findSymbolDecode, isUtf8]
  | cons c cs =>
    refine ⟨c.length, findSymbolSearch font (charCode c), ?_, rfl⟩
    rw [cstring_cons]
    exact findSymbol_char font c _ (hcs c (List.mem_cons_self _ _))

theorem referenceBlits_cons_none (font : Option smart_font_info_t) (penY penX : Int)
    (prev : Option smart_font_symbol_t) (c : List Nat) (cs : List (List Nat))
    (h : findSymbolSearch font (charCode c) = none) :
    referenceBlits font penY penX prev (c :: cs) = referenceBlits font penY penX prev cs := by
  simp only [referenceBlits, h]

theorem referenceBlits_cons_some (font : Option smart_font_info_t) (penY penX : Int)
    (prev : Option smart_font_symbol_t) (c : List Nat) (cs : List (List Nat))
    (g : smart_font_symbol_t) (h : findSymbolSearch font (charCode c) = some g) :
    referenceBlits font penY penX prev (c :: cs)
      = { x := toInt16 (penX + g.offset_x),
          y := toInt16 (penY + referenceOffset prev g (nextLookup font cs)),
          bitmap := g.bitmap }
        :: referenceBlits font penY (toInt16 (penX + g.cur_dist)) (some g) cs := by
  simp only [referenceBlits, h]

theorem printDrawBlits_eq (rest : List Nat) :
    ∀ (chars : List (List Nat)) (fuel : Nat) (sf : Renderer) (next_size : Nat)
      (next_symbol prev_symbol : Option smart_font_symbol_t),
      (∀ c ∈ chars, IsChar c) → chars.length < fuel →
      (next_symbol = none ∨
        findSymbol sf._font (cstring chars rest) = some (next_size, next_symbol)) →
      printDrawBlits fuel (cstring chars rest) sf next_size next_symbol prev_symbol
        = some ({ sf with _currentX := penAfter sf._currentX (resolvedGlyphs sf._font chars) },
            referenceBlits sf._font sf._currentY sf._currentX prev_symbol chars) := by
  intro chars
  induction chars with
  | nil =>
    intro fuel sf ns nsym prev _ hfuel _
    obtain ⟨fuel, rfl⟩ : ∃ f, fuel = f + 1 := ⟨fuel - 1, by simp at hfuel; omega⟩
    simp [printDrawBlits, cstring_nil, penAfter, resolvedGlyphs, referenceBlits]
  | cons c cs ih =>
    intro fuel sf ns nsym prev hchars hfuel hinv
    obtain ⟨fuel, rfl⟩ : ∃ f, fuel = f + 1 := ⟨fuel - 1, by simp at hfuel; omega⟩
    have hc := hchars c (List.mem_cons_self _ _)
    have hcs : ∀ x ∈ cs, IsChar x := fun x hx => hchars x (List.mem_cons_of_mem _ hx)
    obtain ⟨b, hhead, hb⟩ := isChar_head hc (cstring cs rest)
    have hfuel1 : cs.length < fuel := by simp at hfuel; omega
    have hfind := findSymbol_char sf._font c (cstring cs rest) hc
    rw [cstring_cons] at hinv
    have hcur : printCurrentSymbol sf (c ++ cstring cs rest) ns nsym
        = some (c.length, findSymbolSearch sf._font (charCode c)) := by
      unfold printCurrentSymbol
      cases nsym with
      | none => exact hfind
      | some n =>
        rcases hinv with h0 | h0
        · simp at h0
        · rw [hfind] at h0
          simp only [Option.some.injEq, Prod.mk.injEq] at h0
          simp only [Option.some.injEq, Prod.mk.injEq]
          exact ⟨h0.1.symm, h0.2.symm⟩
    rw [cstring_cons, printDrawBlits]
    simp only [hhead, hb, if_false, hcur, List.drop_left]
    cases hsearch : findSymbolSearch sf._font (charCode c) with
    | none =>
      have hnone : nsym = none := by
        cases nsym with
        | none => rfl
        | some n =>
          rcases hinv with h0 | h0
          · exact h0
          · rw [hfind, hsearch] at h0
            simp at h0
      simp only []
      rw [ih fuel sf ns nsym prev hcs hfuel1 (Or.inl hnone),
        resolvedGlyphs_cons_none _ _ _ hsearch, referenceBlits_cons_none _ _ _ _ _ _ hsearch]
    | some g =>
      obtain ⟨ns1, nsym1, hnext, hoff⟩ := findSymbol_lookahead sf._font rest prev g cs hcs
      simp only [hnext]
      rw [ih fuel { sf with _currentX := toInt16 (sf._currentX + g.cur_dist) } ns1 nsym1
        (some g) hcs hfuel1 (Or.inr hnext)]
      simp only [resolvedGlyphs_cons_some _ _ _ _ hsearch,
        referenceBlits_cons_some _ _ _ _ _ _ _ hsearch, penAfter_cons, printBlitGlyph,
        toInt16_printOffsetY, hoff]

theorem printDrawLoop_eq_execBlits :
    ∀ (fuel : Nat) (str : List Nat) (sf : Renderer) (next_size : Nat)
      (next_symbol prev_symbol : Option smart_font_symbol_t) (calls : List PixelCall),
      printDrawLoop fuel str sf next_size next_symbol prev_symbol calls
        = match printDrawBlits fuel str sf next_size next_symbol prev_symbol with
          | none => none
          | some (sf', blits) =>
            (execBlits sf._drawPixel blits calls).map (fun c => (sf', c)) := by
  intro fuel
  induction fuel with
  | zero => intro str sf ns nsym prev calls; rfl
  | succ fuel ih =>
    intro str sf ns nsym prev calls
    rw [printDrawLoop, printDrawBlits]
    cases hhead : str.head? with
    | none => rfl
    | some c =>
      by_cases hc : c % 256 = 0
      · simp only [hc, if_true, execBlits, Option.map_some']
      · simp only [hc, if_false]
        cases hsel : printCurrentSymbol sf str ns nsym with
        | none => rfl
        | some p =>
          obtain ⟨size, cur⟩ := p
          cases cur with
          | none => exact ih _ _ _ _ _ _
          | some sym =>
            simp only [printOverflowCheck_eq]
            cases hnext : findSymbol sf._font (List.drop size str) with
            | none => rfl
            | some q =>
              obtain ⟨ns1, nsym1⟩ := q
              simp only []
              have hih := fun calls1 => ih (List.drop size str)
                { sf with _currentX := toInt16 (sf._currentX + sym.cur_dist) } ns1 nsym1
                (some sym) calls1
              cases htwin : printDrawBlits fuel (List.drop size str)
                  { sf with _currentX := toInt16 (sf._currentX + sym.cur_dist) } ns1 nsym1
                  (some sym) with
              | none =>
                simp only [htwin] at hih
                cases hdraw : printDrawGlyph sf prev sym nsym1 calls with
                | none => rfl
                | some calls1 => simp only [hih]
              | some tw =>
                obtain ⟨sf2, blits⟩ := tw
                simp only [htwin] at hih
                have hglyph : printDrawGlyph sf prev sym nsym1 calls
                    = drawBitmap sf._drawPixel (printBlitGlyph sf prev sym nsym1).x
                        (printBlitGlyph sf prev sym nsym1).y
                        (printBlitGlyph sf prev sym nsym1).bitmap calls := rfl
                simp only [execBlits, ← hglyph]
                cases hdraw : printDrawGlyph sf prev sym nsym1 calls with
                | none => rfl
                | some calls1 => simp only [hih]

theorem referenceBlits_exact (font : Option smart_font_info_t) (penY : Int) :
    ∀ (chars : List (List Nat)) (penX : Int) (prev : Option smart_font_symbol_t),
      ReferenceInRange font penY penX prev chars →
      referenceBlits font penY penX prev chars = referenceBlitsExact font penY penX prev chars := by
  intro chars
  induction chars with
  | nil => intro penX prev _; simp [referenceBlits, referenceBlitsExact]
  | cons c cs ih =>
    intro penX prev h
    unfold ReferenceInRange at h
    unfold referenceBlits referenceBlitsExact
    cases hsearch : findSymbolSearch font (charCode c) with
    | none =>
      simp only [hsearch] at h ⊢
      exact ih penX prev h
    | some g =>
      simp only [hsearch] at h ⊢
      obtain ⟨hx, hy, hp, hrest⟩ := h
      rw [toInt16_of_range _ hx.1 hx.2, toInt16_of_range _ hy.1 hy.2,
        toInt16_of_range _ hp.1 hp.2, ih _ _ hrest]

theorem print_eq_printDrawLoop (sf sf1 : Renderer) (font : smart_font_info_t)
    (str : List Nat) (calls1 : List PixelCall) (hfont : sf._font = some font)
    (hpass1 : printClearLoop font (str.length + 1) str sf [] = some (sf1, calls1)) :
    print sf str = printDrawLoop (str.length + 1) str sf 0 none none calls1 := by
  obtain ⟨_, _, hset⟩ := printClearLoop_frame _ _ _ _ _ _ hpass1
  have h : ({ sf1 with _currentX := sf._currentX, _currentY := sf._currentY } : Renderer)
      = sf := hset sf._currentX sf._currentY
  unfold print
  simp only [hfont, hpass1]
  rw [h]

/-- C14, as stated, fails: with the pen at (0, 32767), the second pass of `print` over the
two characters U+0E31 U+0E48 blits the bitmap of the tone mark at row -32768, and the
reference pass of the claim blits it at row `penY + off = 32768`. -/
theorem print_draw_reference_counterexample :
    (∀ c ∈ [[0xe0, 0xb8, 0xb1], [0xe0, 0xb9, 0x88]], IsChar c) ∧
    (printDrawBlits ((cstring [[0xe0, 0xb8, 0xb1], [0xe0, 0xb9, 0x88]] []).length + 1)
        (cstring [[0xe0, 0xb8, 0xb1], [0xe0, 0xb9, 0x88]] []) edgeRenderer 0 none none).map
      (fun r => r.2) = some [⟨0, 32767, demoLv1.bitmap⟩, ⟨0, -32768, lowMark.bitmap⟩] ∧
    referenceBlitsExact edgeRenderer._font edgeRenderer._currentY edgeRenderer._currentX none
        [[0xe0, 0xb8, 0xb1], [0xe0, 0xb9, 0x88]]
      = [⟨0, 32767, demoLv1.bitmap⟩, ⟨0, 32768, lowMark.bitmap⟩] ∧
    (print edgeRenderer (cstring [[0xe0, 0xb8, 0xb1], [0xe0, 0xb9, 0x88]] [])).map
      (fun r => r.2) = execBlits true [⟨0, 32767, demoLv1.bitmap⟩, ⟨0, -32768, lowMark.bitmap⟩] [] ∧
    (print edgeRenderer (cstring [[0xe0, 0xb8, 0xb1], [0xe0, 0xb9, 0x88]] [])).map
      (fun r => r.2) ≠ execBlits true [⟨0, 32767, demoLv1.bitmap⟩, ⟨0, 32768, lowMark.bitmap⟩] [] := by
  decide

/-- C14, amended. For every renderer with a font, every pen position and every well-formed
string, the blits of the second pass of `print`, which reuses the glyph and byte length
found by the lookahead, are in order those of the reference pass that decodes and looks
up every character afresh and blits each resolved glyph `g` at
`(penX + g.offset_x, penY + off)` with both coordinates converted to `int16_t`, `off`
being `g.offset_y + g.bitmap.height` when `g` is of the second overhead tier and
`shouldPadding prev g next` is false and `g.offset_y` otherwise, then advances `penX` by
`g.cur_dist` in `int16_t` arithmetic; the second pass, and `print` after its erase pass,
run exactly these blits through `drawBitmap`.  When no conversion changes a value, the
origins are the plain sums `(penX + g.offset_x, penY + off)`. -/
theorem print_draw_reference (sf : Renderer) (font : smart_font_info_t)
    (chars : List (List Nat)) (rest : List Nat)
    (hfont : sf._font = some font) (hchars : ∀ c ∈ chars, IsChar c) :
    printDrawBlits ((cstring chars rest).length + 1) (cstring chars rest) sf 0 none none
      = some ({ sf with _currentX := penAfter sf._currentX (resolvedGlyphs sf._font chars) },
          referenceBlits sf._font sf._currentY sf._currentX none chars) ∧
    (∀ calls, printDrawLoop ((cstring chars rest).length + 1) (cstring chars rest) sf 0
        none none calls
      = (execBlits sf._drawPixel
          (referenceBlits sf._font sf._currentY sf._currentX none chars) calls).map
          (fun c =>
            ({ sf with
                _currentX := penAfter sf._currentX (resolvedGlyphs sf._font chars) }, c))) ∧
    (∀ sf1 calls1,
      printClearLoop font ((cstring chars rest).length + 1) (cstring chars rest) sf []
        = some (sf1, calls1) →
      print sf (cstring chars rest)
        = (execBlits sf._drawPixel
            (referenceBlits sf._font sf._currentY sf._currentX none chars) calls1).map
            (fun c =>
              ({ sf with
                  _currentX := penAfter sf._currentX (resolvedGlyphs sf._font chars) }, c))) ∧
    (ReferenceInRange sf._font sf._currentY sf._currentX none chars →
      referenceBlits sf._font sf._currentY sf._currentX none chars
        = referenceBlitsExact sf._font sf._currentY sf._currentX none chars) := by
  have hblits := printDrawBlits_eq rest chars ((cstring chars rest).length + 1) sf 0 none none
    hchars (Nat.lt_succ_of_lt (cstring_length chars rest hchars)) (Or.inl rfl)
  have hloop : ∀ calls, printDrawLoop ((cstring chars rest).length + 1) (cstring chars rest)
      sf 0 none none calls
      = (execBlits sf._drawPixel
          (referenceBlits sf._font sf._currentY sf._currentX none chars) calls).map
          (fun c =>
            ({ sf with
                _currentX := penAfter sf._currentX (resolvedGlyphs sf._font chars) }, c)) := by
    intro calls
    rw [printDrawLoop_eq_execBlits, hblits]
  refine ⟨hblits, hloop, ?_, referenceBlits_exact _ _ _ _ _⟩
  intro sf1 calls1 hpass1
  rw [print_eq_printDrawLoop sf sf1 font _ calls1 hfont hpass1]
  exact hloop calls1

theorem print_draw_reference_witness :
    (∀ c ∈ [[0x41], [0xe0, 0xb8, 0xb1], [0xe0, 0xb9, 0x88], [0xe0, 0xb8, 0xb3], [0x42]],
      IsChar c) ∧
    ReferenceInRange demoRenderer._font demoRenderer._currentY demoRenderer._currentX none
      [[0x41], [0xe0, 0xb8, 0xb1], [0xe0, 0xb9, 0x88], [0xe0, 0xb8, 0xb3], [0x42]] ∧
    referenceBlitsExact demoRenderer._font demoRenderer._currentY demoRenderer._currentX none
      [[0x41], [0xe0, 0xb8, 0xb1], [0xe0, 0xb9, 0x88], [0xe0, 0xb8, 0xb3], [0x42]]
      = [⟨10, 18, ⟨3, 2, [0xb4]⟩⟩, ⟨12, 16, ⟨2, 1, [0xc0]⟩⟩, ⟨13, 14, ⟨1, 2, [0xc0]⟩⟩,
          ⟨15, 17, ⟨4, 3, [0x69, 0xf0]⟩⟩] ∧
    (printDrawBlits
        ((cstring [[0x41], [0xe0, 0xb8, 0xb1], [0xe0, 0xb9, 0x88], [0xe0, 0xb8, 0xb3], [0x42]]
          []).length + 1)
        (cstring [[0x41], [0xe0, 0xb8, 0xb1], [0xe0, 0xb9, 0x88], [0xe0, 0xb8, 0xb3], [0x42]] [])
        demoRenderer 0 none none
      = some ({ demoRenderer with
                  _currentX := penAfter demoRenderer._currentX
                    (resolvedGlyphs demoRenderer._font
                      [[0x41], [0xe0, 0xb8, 0xb1], [0xe0, 0xb9, 0x88], [0xe0, 0xb8, 0xb3],
                        [0x42]]) },
          referenceBlits demoRenderer._font demoRenderer._currentY demoRenderer._currentX none
            [[0x41], [0xe0, 0xb8, 0xb1], [0xe0, 0xb9, 0x88], [0xe0, 0xb8, 0xb3], [0x42]])) :=
  ⟨by decide, by decide, by decide,
    (print_draw_reference demoRenderer demoFont
      [[0x41], [0xe0, 0xb8, 0xb1], [0xe0, 0xb9, 0x88], [0xe0, 0xb8, 0xb3], [0x42]] [] rfl
      (by decide)).1⟩

/-! ## Text renderer: the glyph sequence of each pass -/

theorem getWidthLoop_eq_glyphs (font : Option smart_font_info_t) :
    ∀ (fuel : Nat) (str : List Nat) (width : Int),
      getWidthLoop font fuel str width
        = (getWidthGlyphs font fuel str).map (fun gs => penAfter width gs) := by
  intro fuel
  induction fuel with
  | zero => intro str width; rfl
  | succ fuel ih =>
    intro str width
    rw [getWidthLoop, getWidthGlyphs]
    cases hhead : str.head? with
    | none => rfl
    | some c =>
      by_cases hc : c % 256 = 0
      · simp only [hc, if_true, Option.map_some', penAfter, List.foldl_nil]
      · simp only [hc, if_false]
        cases hfind : findSymbol font str with
        | none => rfl
        | some p =>
          obtain ⟨size, cur⟩ := p
          cases cur with
          | none => exact ih _ _
          | some sym =>
            simp only [ih, Option.map_map]
            rfl

theorem printClearLoop_eq_eraseRun (font : smart_font_info_t) :
    ∀ (fuel : Nat) (str : List Nat) (sf : Renderer) (calls : List PixelCall),
      printClearLoop font fuel str sf calls
        = match printClearGlyphs fuel str sf with
          | none => none
          | some gs => eraseRun font sf gs calls := by
  intro fuel
  induction fuel with
  | zero => intro str sf calls; rfl
  | succ fuel ih =>
    intro str sf calls
    rw [printClearLoop, printClearGlyphs]
    cases hhead : str.head? with
    | none => rfl
    | some c =>
      by_cases hc : c % 256 = 0
      · simp only [hc, if_true, eraseRun]
      · simp only [hc, if_false]
        cases hfind : findSymbol sf._font str with
        | none => rfl
        | some p =>
          obtain ⟨size, cur⟩ := p
          cases cur with
          | none => exact ih _ _ _
          | some sym =>
            simp only []
            have hih := fun calls1 => ih (List.drop size str)
              { sf with _currentX := toInt16 (sf._currentX + sym.cur_dist) } calls1
            cases htwin : printClearGlyphs fuel (List.drop size str)
                { sf with _currentX := toInt16 (sf._currentX + sym.cur_dist) } with
            | none =>
              simp only [htwin] at hih
              cases hglyph : printClearGlyph sf font sym calls with
              | none => rfl
              | some calls1 => simp only [hih, Option.map_none']
            | some gs =>
              simp only [htwin] at hih
              simp only [Option.map_some', eraseRun]
              cases hglyph : printClearGlyph sf font sym calls with
              | none => rfl
              | some calls1 => simp only [hih]

theorem printDrawLoop_eq_drawRun :
    ∀ (fuel : Nat) (str : List Nat) (sf : Renderer) (next_size : Nat)
      (next_symbol prev_symbol : Option smart_font_symbol_t) (calls : List PixelCall),
      printDrawLoop fuel str sf next_size next_symbol prev_symbol calls
        = match printDrawSteps fuel str sf next_size next_symbol with
          | none => none
          | some steps => drawRun sf prev_symbol steps calls := by
  intro fuel
  induction fuel with
  | zero => intro str sf ns nsym prev calls; rfl
  | succ fuel ih =>
    intro str sf ns nsym prev calls
    rw [printDrawLoop, printDrawSteps]
    cases hhead : str.head? with
    | none => rfl
    | some c =>
      by_cases hc : c % 256 = 0
      · simp only [hc, if_true, drawRun]
      · simp only [hc, if_false]
        cases hsel : printCurrentSymbol sf str ns nsym with
        | none => rfl
        | some p =>
          obtain ⟨size, cur⟩ := p
          cases cur with
          | none => exact ih _ _ _ _ _ _
          | some sym =>
            simp only [printOverflowCheck_eq]
            cases hnext : findSymbol sf._font (List.drop size str) with
            | none => rfl
            | some q =>
              obtain ⟨ns1, nsym1⟩ := q
              simp only []
              have hih := fun calls1 => ih (List.drop size str)
                { sf with _currentX := toInt16 (sf._currentX + sym.cur_dist) } ns1 nsym1
                (some sym) calls1
              cases htwin : printDrawSteps fuel (List.drop size str)
                  { sf with _currentX := toInt16 (sf._currentX + sym.cur_dist) } ns1 nsym1 with
              | none =>
                simp only [htwin] at hih
                cases hdraw : printDrawGlyph sf prev sym nsym1 calls with
                | none => rfl
                | some calls1 => simp only [hih, Option.map_none']
              | some steps =>
                simp only [htwin] at hih
                simp only [Option.map_some', drawRun]
                cases hdraw : printDrawGlyph sf prev sym nsym1 calls with
                | none => rfl
                | some calls1 => simp only [hih]

theorem getWidthGlyphs_spec (font : Option smart_font_info_t) (rest : List Nat) :
    ∀ (chars : List (List Nat)) (fuel : Nat),
      (∀ c ∈ chars, IsChar c) → chars.length < fuel →
      getWidthGlyphs font fuel (cstring chars rest) = some (resolvedGlyphs font chars) := by
  intro chars
  induction chars with
  | nil =>
    intro fuel _ hfuel
    obtain ⟨fuel, rfl⟩ : ∃ f, fuel = f + 1 := ⟨fuel - 1, by simp at hfuel; omega⟩
    simp [getWidthGlyphs, cstring, resolvedGlyphs]
  | cons c cs ih =>
    intro fuel hchars hfuel
    obtain ⟨fuel, rfl⟩ : ∃ f, fuel = f + 1 := ⟨fuel - 1, by simp at hfuel; omega⟩
    have hc := hchars c (List.mem_cons_self _ _)
    have hcs : ∀ x ∈ cs, IsChar x := fun x hx => hchars x (List.mem_cons_of_mem _ hx)
    obtain ⟨b, hhead, hb⟩ := isChar_head hc (cstring cs rest)
    have hfuel1 : cs.length < fuel := by simp at hfuel; omega
    rw [cstring_cons, getWidthGlyphs]
    simp only [hhead, hb, if_false, findSymbol_char font c _ hc, List.drop_left]
    cases hfind : findSymbolSearch font (charCode c) with
    | none =>
      simp only [ih fuel hcs hfuel1, resolvedGlyphs_cons_none _ _ _ hfind]
    | some g =>
      simp only [ih fuel hcs hfuel1, resolvedGlyphs_cons_some _ _ _ _ hfind, Option.map_some']

theorem printClearGlyphs_spec (rest : List Nat) :
    ∀ (chars : List (List Nat)) (fuel : Nat) (sf : Renderer),
      (∀ c ∈ chars, IsChar c) → chars.length < fuel →
      printClearGlyphs fuel (cstring chars rest) sf = some (resolvedGlyphs sf._font chars) := by
  intro chars
  induction chars with
  | nil =>
    intro fuel sf _ hfuel
    obtain ⟨fuel, rfl⟩ : ∃ f, fuel = f + 1 := ⟨fuel - 1, by simp at hfuel; omega⟩
    simp [printClearGlyphs, cstring, resolvedGlyphs]
  | cons c cs ih =>
    intro fuel sf hchars hfuel
    obtain ⟨fuel, rfl⟩ : ∃ f, fuel = f + 1 := ⟨fuel - 1, by simp at hfuel; omega⟩
    have hc := hchars c (List.mem_cons_self _ _)
    have hcs : ∀ x ∈ cs, IsChar x := fun x hx => hchars x (List.mem_cons_of_mem _ hx)
    obtain ⟨b, hhead, hb⟩ := isChar_head hc (cstring cs rest)
    have hfuel1 : cs.length < fuel := by simp at hfuel; omega
    rw [cstring_cons, printClearGlyphs]
    simp only [hhead, hb, if_false, findSymbol_char sf._font c _ hc, List.drop_left]
    cases hfind : findSymbolSearch sf._font (charCode c) with
    | none =>
      simp only [ih fuel sf hcs hfuel1, resolvedGlyphs_cons_none _ _ _ hfind]
    | some g =>
      simp only [ih fuel _ hcs hfuel1, resolvedGlyphs_cons_some _ _ _ _ hfind,
        Option.map_some']

theorem printDrawSteps_spec (rest : List Nat) :
    ∀ (chars : List (List Nat)) (fuel : Nat) (sf : Renderer) (next_size : Nat)
      (next_symbol : Option smart_font_symbol_t),
      (∀ c ∈ chars, IsChar c) → chars.length < fuel →
      (next_symbol = none ∨
        findSymbol sf._font (cstring chars rest) = some (next_size, next_symbol)) →
      ∃ steps, printDrawSteps fuel (cstring chars rest) sf next_size next_symbol = some steps ∧
        steps.map (fun s => s.1) = resolvedGlyphs sf._font chars := by
  intro chars
  induction chars with
  | nil =>
    intro fuel sf ns nsym _ hfuel _
    obtain ⟨fuel, rfl⟩ : ∃ f, fuel = f + 1 := ⟨fuel - 1, by simp at hfuel; omega⟩
    exact ⟨[], by simp [printDrawSteps, cstring_nil], by simp [resolvedGlyphs]⟩
  | cons c cs ih =>
    intro fuel sf ns nsym hchars hfuel hinv
    obtain ⟨fuel, rfl⟩ : ∃ f, fuel = f + 1 := ⟨fuel - 1, by simp at hfuel; omega⟩
    have hc := hchars c (List.mem_cons_self _ _)
    have hcs : ∀ x ∈ cs, IsChar x := fun x hx => hchars x (List.mem_cons_of_mem _ hx)
    obtain ⟨b, hhead, hb⟩ := isChar_head hc (cstring cs rest)
    have hfuel1 : cs.length < fuel := by simp at hfuel; omega
    have hfind := findSymbol_char sf._font c (cstring cs rest) hc
    rw [cstring_cons] at hinv
    have hcur : printCurrentSymbol sf (c ++ cstring cs rest) ns nsym
        = some (c.length, findSymbolSearch sf._font (charCode c)) := by
      unfold printCurrentSymbol
      cases nsym with
      | none => exact hfind
      | some n =>
        rcases hinv with h0 | h0
        · simp at h0
        · rw [hfind] at h0
          simp only [Option.some.injEq, Prod.mk.injEq] at h0
          simp only [Option.some.injEq, Prod.mk.injEq]
          exact ⟨h0.1.symm, h0.2.symm⟩
    rw [cstring_cons, printDrawSteps]
    simp only [hhead, hb, if_false, hcur, List.drop_left]
    cases hsearch : findSymbolSearch sf._font (charCode c) with
    | none =>
      have hnone : nsym = none := by
        cases nsym with
        | none => rfl
        | some n =>
          rcases hinv with h0 | h0
          · exact h0
          · rw [hfind, hsearch] at h0
            simp at h0
      simp only []
      obtain ⟨steps, hsteps, hmap⟩ := ih fuel sf ns nsym hcs hfuel1 (Or.inl hnone)
      exact ⟨steps, hsteps, by rw [hmap, resolvedGlyphs_cons_none _ _ _ hsearch]⟩
    | some g =>
      obtain ⟨⟨ns1, nsym1⟩, hnext⟩ := findSymbol_cstring sf._font rest cs hcs
      simp only [hnext]
      obtain ⟨steps, hsteps, hmap⟩ :=
        ih fuel { sf with _currentX := toInt16 (sf._currentX + g.cur_dist) } ns1 nsym1
          hcs hfuel1 (Or.inr hnext)
      refine ⟨(g, nsym1) :: steps, by rw [hsteps]; rfl, ?_⟩
      rw [List.map_cons, hmap, resolvedGlyphs_cons_some _ _ _ _ hsearch]

/-- C17. For every renderer with a font, its pen at an `int16_t` position `(x0, y0)`, and
every well-formed string, `getWidth` returns a width `w`; `print` returns whenever every
resolved glyph fits at the pen position it is reached with; whenever `print` returns,
the pen Y is `y0` and the pen X is `x0 + w` converted to `int16_t`; and the erase pass
ends at that same pen X before the pen is restored.  The width measurer, the erase pass
and the draw pass resolve the same glyph sequence: the walk of each records exactly the
glyphs of the string that resolve in the table, in order; `w` is the advances of these
glyphs added up in `int16_t` arithmetic, the erase pass is the erase rectangle of each
of them in turn, and the draw pass, alone and inside `print`, is the blit of each of
them in turn, glyphs of advance 0 included. -/
theorem print_pen_getWidth (sf : Renderer) (font : smart_font_info_t)
    (chars : List (List Nat)) (rest : List Nat)
    (hfont : sf._font = some font) (hchars : ∀ c ∈ chars, IsChar c)
    (hx1 : -32768 ≤ sf._currentX) (hx2 : sf._currentX ≤ 32767)
    (hy : sf._currentY ≤ 32767) :
    ∃ w, getWidth sf (cstring chars rest) = some w ∧
      (Fits sf (resolvedGlyphs sf._font chars) →
        (print sf (cstring chars rest)).isSome = true) ∧
      (∀ r, print sf (cstring chars rest) = some r →
        r.1._currentY = sf._currentY ∧
        r.1._currentX = toInt16 (sf._currentX + w) ∧
        ∃ r1, printClearLoop font ((cstring chars rest).length + 1) (cstring chars rest) sf []
            = some r1 ∧
          r1.1._currentX = toInt16 (sf._currentX + w)) ∧
      getWidthGlyphs sf._font ((cstring chars rest).length + 1) (cstring chars rest)
        = some (resolvedGlyphs sf._font chars) ∧
      printClearGlyphs ((cstring chars rest).length + 1) (cstring chars rest) sf
        = some (resolvedGlyphs sf._font chars) ∧
      w = penAfter 0 (resolvedGlyphs sf._font chars) ∧
      printClearLoop font ((cstring chars rest).length + 1) (cstring chars rest) sf []
        = eraseRun font sf (resolvedGlyphs sf._font chars) [] ∧
      ∃ steps,
        printDrawSteps ((cstring chars rest).length + 1) (cstring chars rest) sf 0 none
          = some steps ∧
        steps.map (fun s => s.1) = resolvedGlyphs sf._font chars ∧
        (∀ calls, printDrawLoop ((cstring chars rest).length + 1) (cstring chars rest) sf 0
            none none calls = drawRun sf none steps calls) ∧
        (∀ sf1 calls1,
          printClearLoop font ((cstring chars rest).length + 1) (cstring chars rest) sf []
            = some (sf1, calls1) →
          print sf (cstring chars rest) = drawRun sf none steps calls1) := by
  have hfuel : chars.length < (cstring chars rest).length + 1 := by
    have := cstring_length chars rest hchars; omega
  have hw : getWidth sf (cstring chars rest)
      = some (penAfter 0 (resolvedGlyphs sf._font chars)) := by
    rw [getWidth, getWidthLoop_spec sf._font rest chars _ 0 hchars hfuel]
    rfl
  have hsum : toInt16 (sf._currentX + penAfter 0 (resolvedGlyphs sf._font chars))
      = penAfter sf._currentX (resolvedGlyphs sf._font chars) := by
    rw [penAfter_eq _ _ hx1 hx2, penAfter_eq 0 _ (by norm_num) (by norm_num), zero_add,
      toInt16_add_right]
  have hclear := printClearGlyphs_spec rest chars _ sf hchars hfuel
  obtain ⟨steps, hsteps, hmap⟩ :=
    printDrawSteps_spec rest chars _ sf 0 none hchars hfuel (Or.inl rfl)
  have hloop : ∀ calls, printDrawLoop ((cstring chars rest).length + 1) (cstring chars rest)
      sf 0 none none calls = drawRun sf none steps calls := by
    intro calls
    rw [printDrawLoop_eq_drawRun, hsteps]
  refine ⟨_, hw, print_returns sf chars rest hchars hy, ?_,
    getWidthGlyphs_spec sf._font rest chars _ hchars hfuel, hclear, rfl, ?_,
    steps, hsteps, hmap, hloop, ?_⟩
  · intro r hr
    obtain ⟨_, hy1, _⟩ := print_frame sf _ r hr
    obtain ⟨dr, _, _, hpass1, hpass2⟩ :=
      print_erase_eq sf font chars rest r hfont hchars hy hr
    have hX : r.1._currentX = penAfter sf._currentX (resolvedGlyphs sf._font chars) :=
      printDrawLoop_pen rest chars _ sf 0 none none _ r hchars (Or.inl rfl) hpass2
    exact ⟨hy1, by rw [hX, hsum], _, hpass1, by rw [hsum]⟩
  · rw [printClearLoop_eq_eraseRun, hclear]
  · intro sf1 calls1 hpass1
    rw [print_eq_printDrawLoop sf sf1 font _ calls1 hfont hpass1]
    exact hloop calls1

theorem print_pen_getWidth_witness :
    (∀ c ∈ stackedText, IsChar c) ∧
    Fits demoRenderer (resolvedGlyphs demoRenderer._font stackedText) ∧
    (resolvedGlyphs demoRenderer._font stackedText).map (fun g => (g.utf8, g.cur_dist))
      = [(0x41, 5), (0xe0b8b1, 0), (0xe0b988, 0), (0xe0b8b3, 4)] ∧
    (print demoRenderer (cstring stackedText [])).map
      (fun r => (r.2.filter (fun e => e.isDraw)).length) = some 16 ∧
    ∃ w, getWidth demoRenderer (cstring stackedText []) = some w ∧
      (Fits demoRenderer (resolvedGlyphs demoRenderer._font stackedText) →
        (print demoRenderer (cstring stackedText [])).isSome = true) ∧
      (∀ r, print demoRenderer (cstring stackedText []) = some r →
        r.1._currentY = demoRenderer._currentY ∧
        r.1._currentX = toInt16 (demoRenderer._currentX + w) ∧
        ∃ r1, printClearLoop demoFont ((cstring stackedText []).length + 1)
            (cstring stackedText []) demoRenderer [] = some r1 ∧
          r1.1._currentX = toInt16 (demoRenderer._currentX + w)) ∧
      getWidthGlyphs demoRenderer._font ((cstring stackedText []).length + 1)
          (cstring stackedText [])
        = some (resolvedGlyphs demoRenderer._font stackedText) ∧
      printClearGlyphs ((cstring stackedText []).length + 1) (cstring stackedText [])
          demoRenderer
        = some (resolvedGlyphs demoRenderer._font stackedText) ∧
      w = penAfter 0 (resolvedGlyphs demoRenderer._font stackedText) ∧
      printClearLoop demoFont ((cstring stackedText []).length + 1) (cstring stackedText [])
          demoRenderer []
        = eraseRun demoFont demoRenderer (resolvedGlyphs demoRenderer._font stackedText) [] ∧
      ∃ steps,
        printDrawSteps ((cstring stackedText []).length + 1) (cstring stackedText [])
            demoRenderer 0 none
          = some steps ∧
        steps.map (fun s => s.1) = resolvedGlyphs demoRenderer._font stackedText ∧
        (∀ calls, printDrawLoop ((cstring stackedText []).length + 1)
            (cstring stackedText []) demoRenderer 0 none none calls
          = drawRun demoRenderer none steps calls) ∧
        (∀ sf1 calls1,
          printClearLoop demoFont ((cstring stackedText []).length + 1)
              (cstring stackedText []) demoRenderer []
            = some (sf1, calls1) →
          print demoRenderer (cstring stackedText []) = drawRun demoRenderer none steps calls1) :=
  ⟨by decide, by decide, by decide, by decide,
    print_pen_getWidth demoRenderer demoFont stackedText [] rfl
      (by decide) (by decide) (by decide) (by decide)⟩

end SmartFont
